import Mathlib

/-!
Verification of the `movejson` rule engine against its specification.

This file shallowly embeds the Python sources (`movejson/ruleengine.py`,
`movejson/parsers.py`, `movejson/types.py`) into Lean 4 and proves or refutes
the frozen claims about the path engine, the parsers, the value pipeline, the
expression containers, the rule runner and the serialization layer.

Conventions of the embedding:
* Python runtime values are modelled by the inductive type `Val`
  (`None`, `bool`, `int`, `float`, `str`, `datetime`, `list`, `dict`).
  Python floats are modelled by `Rat` and `datetime` objects by their UTC epoch
  value as a `Rat`; the claims settled here do not depend on binary
  floating-point rounding.
* Python dicts are modelled as insertion-ordered association lists; assignment
  keeps the position of an existing key and appends a fresh key, as CPython
  dicts do.
* Exceptions are modelled by `Except Err`; the constructors of `Err` record
  which kind of Python exception is raised (the message strings are dropped).
* In-place mutation of the (deep-copied) object is modelled by returning the
  updated value; a raised exception discards the partially mutated copy, which
  is unobservable in the source because `set_dot_notation` only hands out the
  copy on success.
-/

/-- Kinds of exceptions raised by the source (messages dropped). -/
inductive Err where
  /-- `DotNotationError` -/
  | dotNt : Err
  /-- `SubscriptionError` -/
  | subscription : Err
  /-- `ParseError` -/
  | parse : Err
  /-- `RuleCreationError` (carries per-violation detail strings in the source) -/
  | ruleCreation : Err
  /-- `RunnerError` -/
  | runner : Err
  /-- `BusinessRuleEngineApiError` -/
  | api : Err
  /-- Python `AssertionError` -/
  | assertion : Err
  /-- Python `IndexError` -/
  | indexError : Err
  /-- Python `ValueError` -/
  | valueError : Err
  /-- Python `TypeError` (e.g. `json.dumps` on a non-serializable object) -/
  | typeError : Err
  /-- Python `AttributeError` (e.g. `.get` on a non-dict) -/
  | attributeError : Err
  /-- Python `KeyError` (missing key in `dict_obj["..."]`) -/
  | keyError : Err
  /-- Out of fuel: a totality device of the embedding, never produced when the
  deserializer is run with fuel at least the size of its input. -/
  | fuelExhausted : Err
  deriving DecidableEq

/-- Python runtime values relevant to the engine.  `vfloat` carries the float
as a rational, `vdt` carries a `datetime` as its UTC epoch seconds. -/
inductive Val where
  | vnone : Val
  | vbool : Bool → Val
  | vint : Int → Val
  | vfloat : Rat → Val
  | vstr : String → Val
  | vdt : Rat → Val
  | vlist : List Val → Val
  | vdict : List (String × Val) → Val

/-- First binding of `key` in an insertion-ordered dict (CPython dict lookup). -/
def dLookup : List (String × Val) → String → Option Val
  | [], _ => none
  | (k, v) :: rest, key => if k = key then some v else dLookup rest key

/-- `d.get(key, dflt)` -/
def dGetD (d : List (String × Val)) (key : String) (dflt : Val) : Val :=
  (dLookup d key).getD dflt

/-- `d[key] = v`: replace in place if the key exists, else append (CPython
dict assignment keeps the position of an existing key). -/
def dUpdate : List (String × Val) → String → Val → List (String × Val)
  | [], k, v => [(k, v)]
  | (k', v') :: rest, k, v =>
    if k' = k then (k, v) :: rest else (k', v') :: dUpdate rest k v

mutual
/-- `True` iff the value round-trips through `json.dumps`/`json.loads`
unchanged, i.e. contains no `datetime` object.  On such values the round-trip
(the source's deep-copy mechanism) is the identity. -/
def jsonPure : Val → Bool
  | .vdt _ => false
  | .vlist l => jsonPureL l
  | .vdict d => jsonPureD d
  | _ => true

def jsonPureL : List Val → Bool
  | [] => true
  | x :: xs => jsonPure x && jsonPureL xs

def jsonPureD : List (String × Val) → Bool
  | [] => true
  | (_, x) :: xs => jsonPure x && jsonPureD xs
end

/-- `json.loads(json.dumps(v))`: identity on JSON-serializable values,
`TypeError` on values containing a `datetime`. -/
def jsonRT (v : Val) : Except Err Val :=
  if jsonPure v then .ok v else .error .typeError

/-- Characters matched by `\s` in the source's regexes (ASCII fragment). -/
def isPyWs (c : Char) : Bool :=
  c = ' ' || c = '\t' || c = '\n' || c = '\r' || c = '\x0b' || c = '\x0c'

/-- Python `str.strip()` on a character list. -/
def pyStripChars (cs : List Char) : List Char :=
  ((cs.dropWhile isPyWs).reverse.dropWhile isPyWs).reverse

/-- Python `str.strip()`. -/
def pyStrip (s : String) : String := String.mk (pyStripChars s.data)

/-- Split at every `.` whose immediately preceding character is not `\`,
modelling `re.split(r"(?<!\\)\.", s)`.  `prev` is the previously consumed
character (the regex lookbehind inspects the original string). -/
def splitDotsAux : List Char → Option Char → List Char → List (List Char)
  | [], _, acc => [acc.reverse]
  | c :: rest, prev, acc =>
    if c = '.' ∧ prev ≠ some '\\' then acc.reverse :: splitDotsAux rest (some c) []
    else splitDotsAux rest (some c) (c :: acc)

/-- `x.replace("\\.", ".")`: replace every backslash-dot pair, left to right. -/
def unescapeDots : List Char → List Char
  | '\\' :: '.' :: rest => '.' :: unescapeDots rest
  | c :: rest => c :: unescapeDots rest
  | [] => []

/-- The key list of a dot specifier:
`map(lambda x: x.replace("\\.", "."), re.split(r"(?<!\\)\.", s))`. -/
def specKeys (s : String) : List String :=
  (splitDotsAux s.data none []).map (fun cs => String.mk (unescapeDots cs))

/-- Characters allowed inside a get-subscription bracket: `[-,:\d\s]`. -/
def isGetBracketChar (c : Char) : Bool :=
  c = '-' || c = ',' || c = ':' || c.isDigit || isPyWs c

/-- Characters allowed inside a set-subscription bracket: `[-:\d\s]`
(no comma). -/
def isSetBracketChar (c : Char) : Bool :=
  c = '-' || c = ':' || c.isDigit || isPyWs c

/-- Scan backwards (input is the reversed remaining segment) over allowed
bracket-content characters looking for an unescaped `[`.  Returns the
segment prefix before `[` (in order) and the bracket content (in order). -/
def scanBracketBack (allowed : Char → Bool) :
    List Char → List Char → Option (List Char × List Char)
  | [], _ => none
  | c :: rest, acc =>
    if c = '[' then
      if rest.head? = some '\\' then none else some (rest.reverse, acc)
    else if allowed c then scanBracketBack allowed rest (c :: acc)
    else none

/-- Model of matching `(?<!\\)\[CONTENT(?<!\\)\]\s*$` against a segment and of
the source's extraction `sub_key = seg[:match.start()]`,
`match_str = match.group(0).strip()[1:-1]`: the anchored regex admits at most
one match, whose `]` is the last non-whitespace character and whose `[` is the
nearest unescaped `[` with only allowed characters in between.  Returns
`(sub_key, bracket content)`. -/
def findBracket (allowed : Char → Bool) (s : String) : Option (String × String) :=
  match s.data.reverse.dropWhile isPyWs with
  | ']' :: rest =>
    match scanBracketBack allowed rest [] with
    | some (subKey, content) => some (String.mk subKey, String.mk content)
    | none => none
  | _ => none

/-- Split a character list at every occurrence of `sep` (Python `str.split`). -/
def splitCharAux (sep : Char) : List Char → List Char → List (List Char)
  | [], acc => [acc.reverse]
  | c :: rest, acc =>
    if c = sep then acc.reverse :: splitCharAux sep rest []
    else splitCharAux sep rest (c :: acc)

/-- `list(map(lambda x: x.strip(), match_str.split(",")))` -/
def splitCommaStrip (s : String) : List String :=
  (splitCharAux ',' s.data []).map (fun cs => String.mk (pyStripChars cs))

/-- Numeric value of a digit string (the digits have been validated). -/
def digitsToNat (cs : List Char) : Nat :=
  cs.foldl (fun acc c => acc * 10 + (c.toNat - '0'.toNat)) 0

/-- Parse an optional leading `-?\d+` group greedily; returns the parsed
integer (if any) and the unconsumed remainder. -/
def optIntParse : List Char → Option Int × List Char
  | '-' :: rest =>
    let ds := rest.takeWhile Char.isDigit
    if ds.isEmpty then (none, '-' :: rest)
    else (some (-(digitsToNat ds : Int)), rest.dropWhile Char.isDigit)
  | cs =>
    let ds := cs.takeWhile Char.isDigit
    if ds.isEmpty then (none, cs)
    else (some ((digitsToNat ds : Int)), cs.dropWhile Char.isDigit)

/-- Full match of `^(-{0,1}\d+)$`. -/
def matchIndex1 (s : String) : Option Int :=
  match optIntParse s.data with
  | (some i, []) => some i
  | _ => none

/-- Full match of `^(-{0,1}\d+)?\s*:\s*(-{0,1}\d+)?$`. -/
def matchIndex2 (s : String) : Option (Option Int × Option Int) :=
  let (g1, cs1) := optIntParse s.data
  match cs1.dropWhile isPyWs with
  | ':' :: cs2 =>
    let (g2, cs3) := optIntParse (cs2.dropWhile isPyWs)
    if cs3.isEmpty then some (g1, g2) else none
  | _ => none

/-- Full match of `^(-{0,1}\d+)?\s*:\s*(-{0,1}\d+)?\s*:\s*(-{0,1}\d+)?$`. -/
def matchIndex3 (s : String) : Option (Option Int × Option Int × Option Int) :=
  let (g1, cs1) := optIntParse s.data
  match cs1.dropWhile isPyWs with
  | ':' :: cs2 =>
    let (g2, cs3) := optIntParse (cs2.dropWhile isPyWs)
    match cs3.dropWhile isPyWs with
    | ':' :: cs4 =>
      let (g3, cs5) := optIntParse (cs4.dropWhile isPyWs)
      if cs5.isEmpty then some (g1, g2, g3) else none
    | _ => none
  | _ => none

/-- Python list indexing `l[i]` (negative indices count from the end,
out-of-range raises `IndexError`). -/
def pyIndex (l : List Val) (i : Int) : Except Err Val :=
  let j := if i < 0 then i + (l.length : Int) else i
  if j < 0 then .error .indexError
  else
    match l.get? j.toNat with
    | some x => .ok x
    | none => .error .indexError

/-- Python list item assignment `l[i] = x`. -/
def pyIndexSet (l : List Val) (i : Int) (x : Val) : Except Err (List Val) :=
  let j := if i < 0 then i + (l.length : Int) else i
  if j < 0 then .error .indexError
  else if j.toNat < l.length then .ok (l.set j.toNat x)
  else .error .indexError

/-- `slice.indices` normalization of one bound (`pos = true` for positive
step).  `None` gives `dflt`, negative indices count from the end; the result
is clamped into `[0, n]` for positive step and into `[-1, n-1]` for negative
step. -/
def pyAdjustIdx (n : Nat) (pos : Bool) (dflt : Int) (o : Option Int) : Int :=
  match o with
  | none => dflt
  | some i =>
    let j := if i < 0 then i + (n : Int) else i
    if pos then min (max j 0) (n : Int)
    else min (max j (-1)) ((n : Int) - 1)

/-- Normalized `(start, stop)` of a unit-step slice `l[a:b]` over length `n`. -/
def pySliceStartStop (n : Nat) (oa ob : Option Int) : Nat × Nat :=
  ((pyAdjustIdx n true 0 oa).toNat, (pyAdjustIdx n true (n : Int) ob).toNat)

/-- Python unit-step slice read `l[a:b]`. -/
def pySlice (l : List Val) (oa ob : Option Int) : List Val :=
  let (a, b) := pySliceStartStop l.length oa ob
  (l.drop a).take (b - a)

/-- Core of unit-step slice assignment with normalized bounds: delete the
covered positions and splice `v` in at the start position. -/
def spliceAt (l : List Val) (a b : Nat) (v : List Val) : List Val :=
  l.take a ++ v ++ l.drop (max a b)

/-- Python unit-step slice assignment `l[a:b] = v`. -/
def pySpliceAssign (l : List Val) (oa ob : Option Int) (v : List Val) : List Val :=
  let (a, b) := pySliceStartStop l.length oa ob
  spliceAt l a b v

/-- Ascending index sequence `start, start+c, ...` while `< stop` (`0 < c`). -/
def upIdxs (a b c : Int) : List Int :=
  if _h : 0 < c ∧ a < b then a :: upIdxs (a + c) b c else []
termination_by (b - a).toNat
decreasing_by omega

/-- Descending index sequence `start, start+c, ...` while `> stop` (`c < 0`). -/
def downIdxs (a b c : Int) : List Int :=
  if _h : c < 0 ∧ b < a then a :: downIdxs (a + c) b c else []
termination_by (a - b).toNat
decreasing_by omega

/-- The index sequence selected by an extended slice `a:b:c` over length `n`,
following `slice.indices`; `c = 0` raises `ValueError`. -/
def pyStepIndices (n : Nat) (oa ob : Option Int) (c : Int) : Except Err (List Int) :=
  if c = 0 then .error .valueError
  else if 0 < c then
    .ok (upIdxs (pyAdjustIdx n true 0 oa) (pyAdjustIdx n true (n : Int) ob) c)
  else
    .ok (downIdxs (pyAdjustIdx n false ((n : Int) - 1) oa) (pyAdjustIdx n false (-1) ob) c)

/-- Read the elements of `l` at the given indices (the indices produced by
`pyStepIndices` are always in range; out of range is an `IndexError`). -/
def readIdxs (l : List Val) : List Int → Except Err (List Val)
  | [] => .ok []
  | i :: rest =>
    match l.get? i.toNat with
    | some x =>
      match readIdxs l rest with
      | .ok xs => .ok (x :: xs)
      | .error e => .error e
    | none => .error .indexError

/-- Write `vs` positionally at the given indices of `l` (extended-slice
assignment after the length check). -/
def writeIdxs (l : List Val) : List Int → List Val → List Val
  | [], _ => l
  | _, [] => l
  | i :: irest, v :: vrest => writeIdxs (l.set i.toNat v) irest vrest

mutual
/-- `DotNotation.__flatten`: collect non-list leaves left to right. -/
def flattenJ : Val → List Val
  | .vlist l => flattenL l
  | x => [x]

def flattenL : List Val → List Val
  | [] => []
  | x :: xs => flattenJ x ++ flattenL xs
end

/-- Extended-slice read `l[a:b:c]` (explicit step). -/
def pyExtSliceRead (l : List Val) (oa ob : Option Int) (c : Int) : Except Err (List Val) :=
  match pyStepIndices l.length oa ob c with
  | .ok idxs => readIdxs l idxs
  | .error e => .error e

/-- Extended-slice assignment `l[a:b:c] = v` (explicit step): CPython treats
step 1 as an ordinary splice; any other step requires `v` to have exactly the
covered length and assigns positionally, else raises `ValueError`. -/
def pyExtSliceAssign (l : List Val) (oa ob : Option Int) (c : Int) (v : List Val) :
    Except Err (List Val) :=
  if c = 0 then .error .valueError
  else if c = 1 then
    .ok (spliceAt l (pyAdjustIdx l.length true 0 oa).toNat
          (pyAdjustIdx l.length true (l.length : Int) ob).toNat v)
  else
    match pyStepIndices l.length oa ob c with
    | .ok idxs =>
      if v.length = idxs.length then .ok (writeIdxs l idxs v) else .error .valueError
    | .error e => .error e

/-- Termination fact for the set recursion: a looked-up dict member is
smaller than the dict. -/
theorem dLookup_sizeOf_lt {d : List (String × Val)} {k : String} {v : Val}
    (h : dLookup d k = some v) : sizeOf v < sizeOf d := by
  induction d with
  | nil => simp [dLookup] at h
  | cons hd tl ih =>
    obtain ⟨k', v'⟩ := hd
    by_cases hk : k' = k
    · simp only [dLookup, if_pos hk, Option.some.injEq] at h
      subst h
      simp
      omega
    · simp only [dLookup, if_neg hk] at h
      have := ih h
      simp
      omega

/-- Termination fact for the set recursion: `d.get(k, None)` is smaller than
the dict node holding `d`. -/
theorem sizeOf_dGetD_lt (d : List (String × Val)) (k : String) :
    sizeOf (dGetD d k .vnone) < sizeOf (Val.vdict d) := by
  unfold dGetD
  have hd : 1 ≤ sizeOf d := by cases d <;> simp <;> omega
  cases h : dLookup d k with
  | none => simp; omega
  | some v =>
    have := dLookup_sizeOf_lt h
    simp
    omega

/-- `DotNotation.__get_subscription_notation_recursive`: apply the
comma-separated subscription items of one bracket group in sequence; each
item must address a list. -/
def getSubRec : Val → List String → Except Err Val
  | attr, [] => .ok attr
  | attr, curSubs :: rest =>
    match attr with
    | .vlist l =>
      match matchIndex1 curSubs with
      | some i =>
        match pyIndex l i with
        | .ok x =>
          match getSubRec x rest with
          | .ok r => .ok (.vlist [r])
          | .error e => .error e
        | .error e => .error e
      | none =>
        match matchIndex2 curSubs with
        | some (oa, ob) =>
          match getSubRec (.vlist (pySlice l oa ob)) rest with
          | .ok r => .ok (.vlist [r])
          | .error e => .error e
        | none =>
          match matchIndex3 curSubs with
          | some (oa, ob, oc) =>
            match pyExtSliceRead l oa ob (oc.getD 1) with
            | .ok sl =>
              match getSubRec (.vlist sl) rest with
              | .ok r => .ok (.vlist [r])
              | .error e => .error e
            | .error e => .error e
          | none => .error .subscription
    | _ => .error .subscription

/-- The per-element loop of the bracket branch of
`__get_dot_notation_recursive` when the current node is a list: each element
must be a dict (`.get` on anything else raises `AttributeError`); collect
`flatten(subscription result of element[sub_key])` per element. -/
def getBracketAll (subKey content : String) : List Val → Except Err (List Val)
  | [] => .ok []
  | x :: xs =>
    match x with
    | .vdict d =>
      match getSubRec (dGetD d subKey .vnone) (splitCommaStrip content) with
      | .ok r =>
        match getBracketAll subKey content xs with
        | .ok rs => .ok (.vlist (flattenJ r) :: rs)
        | .error e => .error e
      | .error e => .error e
    | _ => .error .attributeError

/-- Effectful map over a list, first raised exception wins (Python `list(map ...)`
with an exception-raising function). -/
def mapExc (f : Val → Except Err Val) : List Val → Except Err (List Val)
  | [] => .ok []
  | x :: xs =>
    match f x with
    | .ok r =>
      match mapExc f xs with
      | .ok rs => .ok (r :: rs)
      | .error e => .error e
    | .error e => .error e

/-- `DotNotation.__get_dot_notation_recursive`. -/
def getRec : Val → List String → Except Err Val
  | attr, [] => .ok attr
  | attr, seg :: rest =>
    match findBracket isGetBracketChar seg with
    | some (subKey, content) =>
      if 0 < (pyStrip subKey).data.length then
        match attr with
        | .vdict d =>
          match getSubRec (dGetD d subKey .vnone) (splitCommaStrip content) with
          | .ok r => getRec (.vlist (flattenJ r)) rest
          | .error e => .error e
        | .vlist l =>
          match getBracketAll subKey content l with
          | .ok allAttributes => getRec (.vlist (flattenL allAttributes)) rest
          | .error e => .error e
        | _ => .error .dotNt
      else
        match getSubRec attr (splitCommaStrip content) with
        | .ok r => getRec (.vlist (flattenJ r)) rest
        | .error e => .error e
    | none =>
      match attr with
      | .vdict d => getRec (dGetD d seg .vnone) rest
      | .vlist l =>
        match mapExc (fun x =>
          match x with
          | .vdict d => getRec (dGetD d seg .vnone) rest
          | _ => .error .attributeError) l with
        | .ok rs => .ok (.vlist rs)
        | .error e => .error e
      | _ => .error .dotNt
termination_by _ spec => spec.length

/-- `DotNotation.get_dot_notation` (public get entry point).  The source
first round-trips the object through JSON, asserts a nonempty specifier,
splits it into keys, strips a trailing `$val` key, recurses, flattens, and
unwraps a single element when `$val` was present. -/
def get_dot_path (obj : Val) (dotSpecifier : String) : Except Err Val :=
  match jsonRT obj with
  | .ok o =>
    if dotSpecifier.data.length = 0 then .error .assertion
    else
      let keys0 := specKeys dotSpecifier
      let keys := if keys0.getLast? = some "$val" then keys0.dropLast else keys0
      if keys.length < 1 then .error .assertion
      else
        match getRec o keys with
        | .ok r =>
          let flat := flattenJ r
          if keys0.getLast? = some "$val" then
            match flat with
            | [x] => .ok x
            | _ => .error .assertion
          else .ok (.vlist flat)
        | .error e => .error e
  | .error e => .error e

mutual
/-- `DotNotation.__set_dot_notation_recursive`.  In-place mutation of the
(deep-copied) object is modelled by rebuilding the updated value; an empty
specifier (unreachable from the public entry) is the source's `IndexError`
on `specifier[0]`. -/
def setRec : Val → List String → Val → Except Err Val
  | _, [], _ => .error .indexError
  | attr, seg :: rest, value =>
    match findBracket isSetBracketChar seg with
    | some (subKey, content) =>
      if 0 < (pyStrip subKey).data.length then
        match attr with
        | .vdict d =>
          match setSub (dGetD d subKey .vnone) (seg :: rest) content value with
          | .ok inner => .ok (.vdict (dUpdate d subKey inner))
          | .error e => .error e
        | _ => .error .attributeError
      else
        setSub attr (seg :: rest) content value
    | none =>
      match attr with
      | .vdict d =>
        if rest.isEmpty then
          match jsonRT value with
          | .ok v => .ok (.vdict (dUpdate d seg v))
          | .error e => .error e
        else
          match dLookup d seg with
          | some w =>
            match setRec w rest value with
            | .ok w' => .ok (.vdict (dUpdate d seg w'))
            | .error e => .error e
          | none =>
            match setRec .vnone rest value with
            | .ok _ => .ok (.vdict d)
            | .error e => .error e
      | .vlist l =>
        match setEach (seg :: rest) l value with
        | .ok l' => .ok (.vlist l')
        | .error e => .error e
      | _ => .error .dotNt
termination_by a spec _ => (spec.length, sizeOf a, 2)
decreasing_by
  all_goals simp_wf
  all_goals first
    | (apply Prod.Lex.left; first | omega | (simp; omega))
    | (apply Prod.Lex.right; apply Prod.Lex.right; omega)
    | (apply Prod.Lex.right; apply Prod.Lex.left;
        first
          | omega
          | (have h := sizeOf_dGetD_lt d subKey;
             simp only [Val.vdict.sizeOf_spec] at h; omega)
          | (simp; omega))

/-- The `for x in attribute: recurse(x, specifier, value)` loops of the set
recursion: run `setRec` over each element, collecting the mutated elements. -/
def setEach : List String → List Val → Val → Except Err (List Val)
  | _, [], _ => .ok []
  | spec, x :: xs, value =>
    match setRec x spec value with
    | .ok x' =>
      match setEach spec xs value with
      | .ok xs' => .ok (x' :: xs')
      | .error e => .error e
    | .error e => .error e
termination_by spec l _ => (spec.length, sizeOf l, 1)
decreasing_by
  all_goals simp_wf
  all_goals first
    | (apply Prod.Lex.left; first | omega | (simp; omega))
    | (apply Prod.Lex.right; apply Prod.Lex.right; omega)
    | (apply Prod.Lex.right; apply Prod.Lex.left;
        first
          | omega
          | (have h := sizeOf_dGetD_lt d subKey;
             simp only [Val.vdict.sizeOf_spec] at h; omega)
          | (simp; omega))

/-- `DotNotation.__set_subscription_notation`: assign through the (single)
subscription of the final bracket group.  `specifier` is the full remaining
specifier (whose head carries the bracket). -/
def setSub : Val → List String → String → Val → Except Err Val
  | attr, specifier, subscription, value =>
    match attr with
    | .vlist l =>
      let curSubs := pyStrip subscription
      match matchIndex1 curSubs with
      | some i =>
        if _h1 : 1 < specifier.length then
          match pyIndex l i with
          | .ok x =>
            match setRec x specifier.tail value with
            | .ok x' =>
              match pyIndexSet l i x' with
              | .ok l' => .ok (.vlist l')
              | .error e => .error e
            | .error e => .error e
          | .error e => .error e
        else
          match jsonRT value with
          | .ok v =>
            match pyIndexSet l i v with
            | .ok l' => .ok (.vlist l')
            | .error e => .error e
          | .error e => .error e
      | none =>
        match matchIndex2 curSubs with
        | some (oa, ob) =>
          if _h2 : 1 < specifier.length then
            match setEach specifier.tail (pySlice l oa ob) value with
            | .ok covered' => .ok (.vlist (pySpliceAssign l oa ob covered'))
            | .error e => .error e
          else
            match value with
            | .vlist vl => .ok (.vlist (pySpliceAssign l oa ob vl))
            | _ =>
              match jsonRT value with
              | .ok v =>
                .ok (.vlist (pySpliceAssign l oa ob
                      (List.replicate (pySlice l oa ob).length v)))
              | .error e => .error e
        | none =>
          match matchIndex3 curSubs with
          | some (oa, ob, oc) =>
            let c := (oc.getD 1)
            if _h3 : 1 < specifier.length then
              match pyExtSliceRead l oa ob c with
              | .ok covered =>
                match setEach specifier.tail covered value with
                | .ok covered' =>
                  match pyStepIndices l.length oa ob c with
                  | .ok idxs => .ok (.vlist (writeIdxs l idxs covered'))
                  | .error e => .error e
                | .error e => .error e
              | .error e => .error e
            else
              match value with
              | .vlist vl =>
                match pyExtSliceAssign l oa ob c vl with
                | .ok l' => .ok (.vlist l')
                | .error e => .error e
              | _ =>
                match jsonRT value with
                | .ok v =>
                  match pyExtSliceRead l oa ob c with
                  | .ok covered =>
                    match pyExtSliceAssign l oa ob c (List.replicate covered.length v) with
                    | .ok l' => .ok (.vlist l')
                    | .error e => .error e
                  | .error e => .error e
                | .error e => .error e
          | none => .error .subscription
    | _ => .error .subscription
termination_by a spec _ _ => (spec.length, sizeOf a, 0)
decreasing_by
  all_goals simp_wf
  all_goals first
    | (apply Prod.Lex.left; first | omega | (simp; omega))
    | (apply Prod.Lex.right; apply Prod.Lex.right; omega)
    | (apply Prod.Lex.right; apply Prod.Lex.left;
        first
          | omega
          | (have h := sizeOf_dGetD_lt d subKey;
             simp only [Val.vdict.sizeOf_spec] at h; omega)
          | (simp; omega))
end

/-- `DotNotation.set_dot_notation` (public set entry point): deep-copy the
object through a JSON round-trip, split the specifier, and run the set
recursion on the copy. -/
def set_dot_path (obj : Val) (dotSpecifier : String) (value : Val) : Except Err Val :=
  match jsonRT obj with
  | .ok objDc => setRec objDc (specKeys dotSpecifier) value
  | .error e => .error e

/-! ### Parsers (`movejson/parsers.py`)

`BUSINESS_RULE_DATETIME_FORMAT` is its default `%Y-%m-%dT%H:%M:%S` (the
environment variable is external configuration).  `datetime` objects are
carried as UTC epoch seconds (`Val.vdt`), so `datetime.utcfromtimestamp` and
`datetime.timestamp` on UTC-tagged values are the identity of the carrier. -/

/-- Decimal digits of a natural number (`str(n)` for `n : Nat`). -/
def natToChars (n : Nat) : List Char :=
  if h : n < 10 then [Char.ofNat (48 + n)]
  else natToChars (n / 10) ++ [Char.ofNat (48 + n % 10)]
decreasing_by omega

/-- `str(n)` for `n : Int`. -/
def intToChars (n : Int) : List Char :=
  if n < 0 then '-' :: natToChars (-n).toNat else natToChars n.toNat

/-- Zero-pad a number to `w` digits (strftime field padding). -/
def padNum (w : Nat) (n : Nat) : List Char :=
  let ds := natToChars n
  List.replicate (w - ds.length) '0' ++ ds

/-- Days since 1970-01-01 of a civil date (valid for `y ≥ 1`; Howard
Hinnant's `days_from_civil`). -/
def daysFromCivil (y m d : Nat) : Int :=
  let y' := if m ≤ 2 then y - 1 else y
  let era := y' / 400
  let yoe := y' % 400
  let mp := (m + 9) % 12
  let doy := (153 * mp + 2) / 5 + d - 1
  let doe := yoe * 365 + yoe / 4 - yoe / 100 + doy
  (era : Int) * 146097 + (doe : Int) - 719468

/-- Civil date of a day count since 1970-01-01 (Hinnant's `civil_from_days`). -/
def civilFromDays (z : Int) : Int × Nat × Nat :=
  let z' := z + 719468
  let era := Int.fdiv z' 146097
  let doe := (z' - era * 146097).toNat
  let yoe := (doe - doe / 1460 + doe / 36524 - doe / 146096) / 365
  let doy := doe - (365 * yoe + yoe / 4 - yoe / 100)
  let mp := (5 * doy + 2) / 153
  let d := doy - (153 * mp + 2) / 5 + 1
  let m := if mp < 10 then mp + 3 else mp - 9
  (era * 400 + (yoe : Int) + (if m ≤ 2 then 1 else 0), m, d)

/-- `datetime.utcfromtimestamp(t).strftime("%Y-%m-%dT%H:%M:%S")` on the epoch
carrier (sub-second fraction dropped). -/
def strftimeM (t : Rat) : String :=
  let secs := t.floor
  let days := Int.fdiv secs 86400
  let rem := (secs - days * 86400).toNat
  let (y, m, d) := civilFromDays days
  String.mk (padNum 4 y.toNat ++ ['-'] ++ padNum 2 m ++ ['-'] ++ padNum 2 d ++ ['T'] ++
    padNum 2 (rem / 3600) ++ [':'] ++ padNum 2 (rem % 3600 / 60) ++ [':'] ++
    padNum 2 (rem % 60))

/-- Length of a month (`1 ≤ m ≤ 12`), for the strptime validity check. -/
def daysInMonth (y m : Nat) : Nat :=
  if m = 2 then (if y % 4 = 0 ∧ (y % 100 ≠ 0 ∨ y % 400 = 0) then 29 else 28)
  else if m = 4 ∨ m = 6 ∨ m = 9 ∨ m = 11 then 30 else 31

/-- Read exactly `w` digits, returning their value and the remainder. -/
def readDigits (w : Nat) (cs : List Char) : Option (Nat × List Char) :=
  let ds := cs.take w
  if ds.length = w ∧ ds.all Char.isDigit then some (digitsToNat ds, cs.drop w)
  else none

/-- Model of `datetime.strptime(s, "%Y-%m-%dT%H:%M:%S")` on the epoch carrier,
restricted to the zero-padded field widths; returns `none` where the source
raises `ValueError` (including calendar-invalid fields). -/
def strptimeM (s : String) : Option Rat :=
  match readDigits 4 s.data with
  | some (y, '-' :: cs1) =>
    match readDigits 2 cs1 with
    | some (mo, '-' :: cs2) =>
      match readDigits 2 cs2 with
      | some (d, 'T' :: cs3) =>
        match readDigits 2 cs3 with
        | some (h, ':' :: cs4) =>
          match readDigits 2 cs4 with
          | some (mi, ':' :: cs5) =>
            match readDigits 2 cs5 with
            | some (sec, []) =>
              if 1 ≤ y ∧ y ≤ 9999 ∧ 1 ≤ mo ∧ mo ≤ 12 ∧ 1 ≤ d ∧ d ≤ daysInMonth y mo ∧
                  h ≤ 23 ∧ mi ≤ 59 ∧ sec ≤ 59 then
                some ((daysFromCivil y mo d * 86400 + h * 3600 + mi * 60 + sec : Int) : Rat)
              else none
            | _ => none
          | _ => none
        | _ => none
      | _ => none
    | _ => none
  | _ => none

/-- Model of Python `float(s)` for strings: optional surrounding whitespace,
optional sign, decimal mantissa with optional fraction, optional exponent.
(The model leaves out `inf`/`nan` and `_` digit separators, which no claim
exercises.)  Returns the exact decimal rational. -/
def pyFloatOfChars (cs0 : List Char) : Option Rat :=
  let cs := pyStripChars cs0
  let (sgn, cs1) : Rat × List Char :=
    match cs with
    | '-' :: r => (-1, r)
    | '+' :: r => (1, r)
    | r => (1, r)
  let ip := cs1.takeWhile Char.isDigit
  let cs2 := cs1.dropWhile Char.isDigit
  let (fp, cs3) : List Char × List Char :=
    match cs2 with
    | '.' :: r => (r.takeWhile Char.isDigit, r.dropWhile Char.isDigit)
    | r => ([], r)
  if ip.isEmpty ∧ fp.isEmpty then none
  else
    let mant : Rat := (digitsToNat ip : Rat) +
      (digitsToNat fp : Rat) / ((10 : Rat) ^ fp.length)
    match cs3 with
    | [] => some (sgn * mant)
    | 'e' :: r => pyFloatExp (sgn * mant) r
    | 'E' :: r => pyFloatExp (sgn * mant) r
    | _ => none
where
  /-- Exponent part `[+-]?\d+` and final value. -/
  pyFloatExp (m : Rat) (cs : List Char) : Option Rat :=
    let (esgn, cs1) : Bool × List Char :=
      match cs with
      | '-' :: r => (true, r)
      | '+' :: r => (false, r)
      | r => (false, r)
    let ds := cs1.takeWhile Char.isDigit
    if ds.isEmpty ∨ ¬(cs1.dropWhile Char.isDigit).isEmpty then none
    else
      let e := digitsToNat ds
      some (if esgn then m / ((10 : Rat) ^ e) else m * ((10 : Rat) ^ e))

/-- `float(s)` on a Lean string. -/
def pyFloatParse (s : String) : Option Rat := pyFloatOfChars s.data

/-- Python `repr` of a float in the model: floats produced by the engine are
decimal rationals; an exact decimal expansion is printed when the denominator
is 10-smooth, `num/den` otherwise (unreachable for engine-produced floats). -/
def pyFloatRepr (q : Rat) : String :=
  if q.den = 1 then String.mk (intToChars q.num ++ ['.', '0'])
  else
    match (List.range 28).find? (fun k => (q * (10 : Rat) ^ (k + 1)).den = 1) with
    | some k =>
      let scaled := (q * (10 : Rat) ^ (k + 1)).num
      let digits := natToChars scaled.natAbs
      let digits := List.replicate (k + 2 - digits.length) '0' ++ digits
      let whole := digits.take (digits.length - (k + 1))
      let frac := digits.drop (digits.length - (k + 1))
      String.mk ((if q.num < 0 then ['-'] else []) ++ whole ++ ['.'] ++ frac)
    | none => String.mk (intToChars q.num ++ ['/'] ++ natToChars q.den)

mutual
/-- Python `str`/`repr` of a value (the `repr` used inside containers:
strings quoted, `None`/`True`/`False` literal). -/
def pyReprV : Val → List Char
  | .vnone => ['N', 'o', 'n', 'e']
  | .vbool b => if b then ['T', 'r', 'u', 'e'] else ['F', 'a', 'l', 's', 'e']
  | .vint n => intToChars n
  | .vfloat q => (pyFloatRepr q).data
  | .vstr s => '\x27' :: s.data ++ ['\x27']
  | .vdt t => ('d' :: 'a' :: 't' :: 'e' :: 't' :: 'i' :: 'm' :: 'e' :: []) ++ (strftimeM t).data
  | .vlist l => '[' :: pyReprL l ++ [']']
  | .vdict d => '\x7b' :: pyReprD d ++ ['\x7d']

def pyReprL : List Val → List Char
  | [] => []
  | [x] => pyReprV x
  | x :: xs => pyReprV x ++ [',', ' '] ++ pyReprL xs

def pyReprD : List (String × Val) → List Char
  | [] => []
  | [(k, x)] => '\x27' :: k.data ++ ['\x27', ':', ' '] ++ pyReprV x
  | (k, x) :: xs => '\x27' :: k.data ++ ['\x27', ':', ' '] ++ pyReprV x ++ [',', ' '] ++ pyReprD xs
end

/-- Python `str(v)` (differs from `repr` only on strings and `datetime`). -/
def pyStr : Val → String
  | .vstr s => s
  | .vdt t =>
    String.mk ((strftimeM t).data.map (fun c => if c = 'T' then ' ' else c))
  | v => String.mk (pyReprV v)

/-- `parsers.parse_dict` -/
def parse_dict : Val → Except Err Val
  | .vnone => .ok .vnone
  | .vdict d => .ok (.vdict d)
  | _ => .error .parse

/-- `parsers.parse_boolean` -/
def parse_boolean : Val → Except Err Val
  | .vnone => .ok .vnone
  | .vbool b => .ok (.vbool b)
  | _ => .error .parse

/-- `parsers.parse_numeric`: `float(str(value))`, any failure becomes a
`ParseError`.  Case by case on the carrier: a float prints and re-parses to
itself, an int becomes the equal float, a string goes through `float`, and
`str` of `None`-guarded remaining shapes (`bool`, `datetime`, `list`, `dict`)
is never a valid float literal. -/
def parse_numeric : Val → Except Err Val
  | .vnone => .ok .vnone
  | .vint n => .ok (.vfloat (n : Rat))
  | .vfloat q => .ok (.vfloat q)
  | .vstr s =>
    match pyFloatParse s with
    | some q => .ok (.vfloat q)
    | none => .error .parse
  | _ => .error .parse

/-- `parsers.parse_datetime`: ints and floats go through
`datetime.utcfromtimestamp` (identity on the epoch carrier); everything else
is `str()`-ed and parsed with the configured format; failures become
`ParseError`.  `str` of the remaining shapes never matches the format. -/
def parse_datetime : Val → Except Err Val
  | .vnone => .ok .vnone
  | .vint n => .ok (.vdt (n : Rat))
  | .vfloat q => .ok (.vdt q)
  | .vstr s =>
    match strptimeM s with
    | some t => .ok (.vdt t)
    | none => .error .parse
  | _ => .error .parse

/-- `parsers.parse_string`: `None` passes through, `datetime` is formatted,
ints are first converted to float, everything else is `str()`-ed. -/
def parse_string : Val → Except Err Val
  | .vnone => .ok .vnone
  | .vdt t => .ok (.vstr (strftimeM t))
  | .vint n => .ok (.vstr (pyFloatRepr (n : Rat)))
  | v => .ok (.vstr (pyStr v))

/-- `parsers.parse_numeric_list` -/
def parse_numeric_list : Val → Except Err Val
  | .vlist l =>
    match mapExc parse_numeric l with
    | .ok l' => .ok (.vlist l')
    | .error e => .error e
  | _ => .error .parse

/-- `parsers.parse_datetime_list` -/
def parse_datetime_list : Val → Except Err Val
  | .vlist l =>
    match mapExc parse_datetime l with
    | .ok l' => .ok (.vlist l')
    | .error e => .error e
  | _ => .error .parse

/-- `parsers.parse_string_list` -/
def parse_string_list : Val → Except Err Val
  | .vlist l =>
    match mapExc parse_string l with
    | .ok l' => .ok (.vlist l')
    | .error e => .error e
  | _ => .error .parse

/-- `parsers.parse_dict_list` -/
def parse_dict_list : Val → Except Err Val
  | .vlist l =>
    match mapExc parse_dict l with
    | .ok l' => .ok (.vlist l')
    | .error e => .error e
  | _ => .error .parse

/-- `parsers.parse_boolean_list` -/
def parse_boolean_list : Val → Except Err Val
  | .vlist l =>
    match mapExc parse_boolean l with
    | .ok l' => .ok (.vlist l')
    | .error e => .error e
  | _ => .error .parse

/-- Generic assoc-list lookup (used for ordered Python dicts of
non-`Val` payloads such as `TYPE_PARSERS` and the registry). -/
def aLookup {β : Type} : List (String × β) → String → Option β
  | [], _ => none
  | (k, v) :: rest, key => if k = key then some v else aLookup rest key

/-- `ruleengine.TYPE_PARSERS`, in its source insertion order. -/
def typeParsers : List (String × (Val → Except Err Val)) :=
  [("BooleanList", parse_boolean_list),
   ("NumericList", parse_numeric_list),
   ("DateTimeList", parse_datetime_list),
   ("DictList", parse_dict_list),
   ("StringList", parse_string_list),
   ("Boolean", parse_boolean),
   ("Numeric", parse_numeric),
   ("DateTime", parse_datetime),
   ("Dict", parse_dict),
   ("String", parse_string)]

/-- `TYPE_PARSERS[ty](v)` (missing type key is a `KeyError`). -/
def parseAs (ty : String) (v : Val) : Except Err Val :=
  match aLookup typeParsers ty with
  | some p => p v
  | none => .error .keyError

/-- `ruleengine.ALLOWED_TYPES` (a frozenset; only membership is used). -/
def allowedTypes : List String :=
  ["Dict", "Boolean", "String", "Numeric", "DateTime", "DictList", "BooleanList",
   "StringList", "NumericList", "DateTimeList"]

/-- `ruleengine.ALLOWED_IMPLICIT_CONVERSIONS` (a frozenset of pairs; only
membership and filtered traversal are used, so the iteration order is
irrelevant to the source's observable behavior). -/
def allowedImplicitConversions : List (String × String) :=
  [("Boolean", "String"), ("Numeric", "String"), ("DateTime", "String"),
   ("BooleanList", "StringList"), ("NumericList", "StringList"),
   ("DateTimeList", "StringList")]

/-- `TypesHelper.extract_allowed_types` -/
def extract_allowed_types (ty : String) : List String :=
  (if allowedTypes.contains ty then [ty] else []) ++
  ((allowedImplicitConversions.filter (fun p => p.2 = ty)).map Prod.fst)

/-- `TypesHelper.implicit_parse` (the source computes but ignores
`outp_type` and simply applies the target type's parser). -/
def implicit_parse (v : Val) (ty : String) : Except Err Val := parseAs ty v

/-- `TypesHelper._value_to_json_compatible_single`: a `datetime` becomes its
UTC epoch float. -/
def valueToJsonCompatibleSingle : Val → Val
  | .vdt t => .vfloat t
  | v => v

/-- `TypesHelper.value_to_json_compatible`: convert a list elementwise, else
the single value. -/
def valueToJsonCompatible : Val → Val
  | .vlist l => .vlist (l.map valueToJsonCompatibleSingle)
  | v => valueToJsonCompatibleSingle v

/-- `Constant._try_extract_type`: try the parsers in `TYPE_PARSERS` insertion
order, skipping `ParseError`s; exhaustion is a `RuleCreationError`. -/
def tryExtractTypeAux : List (String × (Val → Except Err Val)) → Val →
    Except Err (Val × String)
  | [], _ => .error .ruleCreation
  | (k, p) :: rest, v =>
    match p v with
    | .ok w => .ok (w, k)
    | .error e => if e = Err.parse then tryExtractTypeAux rest v else .error e

/-- `Constant._try_extract_type` over the registered `TYPE_PARSERS`. -/
def tryExtractType (v : Val) : Except Err (Val × String) :=
  tryExtractTypeAux typeParsers v

/-! ### Registry and value pipeline (`movejson/ruleengine.py`, `movejson/types.py`)

The source keeps a process-wide singleton registry of filters and comparers;
the embedding passes the registry as an explicit value.  Registered methods
are modelled as semantic functions on `Val` that may raise. -/

/-- The behaviorally relevant part of a registered parameter declaration. -/
structure ParamDef where
  /-- declared semantic type of the parameter -/
  ptype : String
  /-- `value_classes`: accepted value-source variants (`"Constant"`/`"Attribute"`) -/
  valueClasses : List String

/-- A registered filter (`pretty_name`/`description`/`builtin_method` carry no
behavior and are dropped). -/
structure FilterDef where
  /-- the decorated Python callable: current value and extra-argument values -/
  method : Val → List Val → Except Err Val
  /-- `manipulation_types` after registration-time sorting -/
  manipulationTypes : List (String × String)
  params : List ParamDef

/-- A registered comparer. -/
structure ComparerDef where
  /-- the decorated Python callable: left value, right value, extra arguments -/
  method : Val → Val → List Val → Except Err Val
  collationTypes : List (String × String)
  params : List ParamDef
  valueClasses : List String

/-- The filter/comparer registry (`BusinessRuleEngine` singleton state),
insertion-ordered like the Python dicts backing it. -/
structure Registry where
  filters : List (String × FilterDef)
  comparers : List (String × ComparerDef)

/-- `s.startswith("String")` -/
def startsWithString (s : String) : Bool :=
  s.data.take 6 = ['S', 't', 'r', 'i', 'n', 'g']

/-- The registration-time sort of a filter's manipulation types:
`sort(key=lambda inp: 99999 if inp[0].startswith("String") else 0)` — a
stable sort that moves pairs with a `String*` input type after all others. -/
def stringLastSort (mts : List (String × String)) : List (String × String) :=
  mts.filter (fun p => ¬ startsWithString p.1) ++ mts.filter (fun p => startsWithString p.1)

/-- `True` iff every pair after the first `String*`-input pair also has a
`String*` input: the shape `stringLastSort` establishes. -/
def stringLastOk : List (String × String) → Bool
  | [] => true
  | p :: rest =>
    if startsWithString p.1 then rest.all (fun q => startsWithString q.1)
    else stringLastOk rest

/-- `d[k] = v` on a generic insertion-ordered dict. -/
def aUpdate {β : Type} : List (String × β) → String → β → List (String × β)
  | [], k, v => [(k, v)]
  | (k', v') :: rest, k, v =>
    if k' = k then (k, v) :: rest else (k', v') :: aUpdate rest k v

/-- `BusinessRuleEngine.filter` (the registration decorator): validate the
manipulation types and parameter declarations, sort the manipulation types
with the `String*`-last bias, and store the filter under its key.
The pure-metadata validations (`pretty_name`/`description` presence,
callable arity, `meta_options` JSON-serializability) concern data the model
does not carry. -/
def registerFilter (reg : Registry) (key : String) (mts : List (String × String))
    (params : List ParamDef) (method : Val → List Val → Except Err Val) :
    Except Err Registry :=
  if mts.isEmpty then .error .assertion
  else if ¬ (mts.map Prod.fst).Nodup then .error .assertion
  else if ¬ mts.all (fun p => allowedTypes.contains p.1 ∧ allowedTypes.contains p.2) then
    .error .api
  else if ¬ params.all (fun p => allowedTypes.contains p.ptype ∧ ¬ p.valueClasses.isEmpty) then
    .error .api
  else
    .ok { reg with
          filters := aUpdate reg.filters key ⟨method, stringLastSort mts, params⟩ }

/-- `BusinessRuleEngine.comparer` (the registration decorator).  The
duplicate check joins each pair as `"L-R"`; since the allowed type names
contain no dash and are validated first, it coincides with pair uniqueness. -/
def registerComparer (reg : Registry) (key : String) (colls : List (String × String))
    (params : List ParamDef) (valueClasses : List String)
    (method : Val → Val → List Val → Except Err Val) : Except Err Registry :=
  if colls.isEmpty then .error .assertion
  else if valueClasses.isEmpty then .error .assertion
  else if ¬ colls.all (fun p => allowedTypes.contains p.1 ∧ allowedTypes.contains p.2) then
    .error .api
  else if ¬ colls.Nodup then .error .api
  else if ¬ params.all (fun p => allowedTypes.contains p.ptype ∧ ¬ p.valueClasses.isEmpty) then
    .error .api
  else
    .ok { reg with
          comparers := aUpdate reg.comparers key ⟨method, colls, params, valueClasses⟩ }

/-- A value source (`Constant` / `Attribute`): final declared/detected type,
base input, and the attached filter steps `(filter_key, args)`.  The source
also caches the looked-up filter dict in each step; with a fixed registry
that is the same as looking the key up at use. -/
inductive ValueSrc where
  | const : String → Val → List (String × List ValueSrc) → ValueSrc
  | attr : String → String → List (String × List ValueSrc) → ValueSrc

/-- `_key` of a value source's class. -/
def classKey : ValueSrc → String
  | .const _ _ _ => "Constant"
  | .attr _ _ _ => "Attribute"

/-- The declared/detected base type of a value source. -/
def baseType : ValueSrc → String
  | .const ty _ _ => ty
  | .attr ty _ _ => ty

/-- The filter steps of a value source. -/
def srcFilters : ValueSrc → List (String × List ValueSrc)
  | .const _ _ fs => fs
  | .attr _ _ fs => fs

/-- The inner loop of `get_type`: the first manipulation pair whose input
accepts the current type (exactly or by implicit conversion), also the
fallback loop of `get_value`. -/
def findImplicitPair (mts : List (String × String)) (cur : String) :
    Option (String × String) :=
  mts.find? (fun p => (extract_allowed_types p.1).contains cur)

/-- `get_type`'s filter-chain loop: thread the current type through each
filter's first accepting pair; no accepting pair is a
`BusinessRuleEngineApiError`. -/
def getTypeAux (reg : Registry) : String → List (String × List ValueSrc) →
    Except Err String
  | cur, [] => .ok cur
  | cur, (fkey, _) :: rest =>
    match aLookup reg.filters fkey with
    | some fd =>
      match findImplicitPair fd.manipulationTypes cur with
      | some p => getTypeAux reg p.2 rest
      | none => .error .api
    | none => .error .keyError

/-- `Constant.get_type` / `Attribute.get_type`. -/
def ValueSrc.getType (reg : Registry) (src : ValueSrc) : Except Err String :=
  if (srcFilters src).isEmpty then .ok (baseType src)
  else getTypeAux reg (baseType src) (srcFilters src)

mutual
/-- `Constant.get_value` / `Attribute.get_value`: the constant starts from
its stored parsed input; the attribute fetches `get_dot_notation(row, path)`
and parses it with the declared type; then both thread the value through the
filter chain. -/
def ValueSrc.getValue (reg : Registry) (row : Val) : ValueSrc → Except Err Val
  | .const ty base fs => getValueAux reg row base ty fs
  | .attr ty path fs =>
    match get_dot_path row path with
    | .ok fetched =>
      match parseAs ty fetched with
      | .ok v => getValueAux reg row v ty fs
      | .error e => .error e
    | .error e => .error e
termination_by src => sizeOf src

/-- The filter loop of `get_value`: if the current type is directly among the
filter's input types, call the method on the unconverted value and advance to
the first exactly-matching pair's output; otherwise find the first pair whose
input accepts the current type by implicit conversion, convert, call, and
advance; no pair at all is a `RunnerError`. -/
def getValueAux (reg : Registry) (row : Val) :
    Val → String → List (String × List ValueSrc) → Except Err Val
  | curVal, _, [] => .ok curVal
  | curVal, curTy, (fkey, args) :: rest =>
    match aLookup reg.filters fkey with
    | some fd =>
      if (fd.manipulationTypes.map Prod.fst).contains curTy then
        match evalArgs reg row args with
        | .ok argVals =>
          match fd.method curVal argVals with
          | .ok newVal =>
            match (fd.manipulationTypes.filter (fun p => p.1 = curTy)).head? with
            | some p => getValueAux reg row newVal p.2 rest
            | none => .error .indexError
          | .error e => .error e
        | .error e => .error e
      else
        match findImplicitPair fd.manipulationTypes curTy with
        | some (inp, outp) =>
          match parseAs inp curVal with
          | .ok conv =>
            match evalArgs reg row args with
            | .ok argVals =>
              match fd.method conv argVals with
              | .ok newVal => getValueAux reg row newVal outp rest
              | .error e => .error e
            | .error e => .error e
          | .error e => .error e
        | none => .error .runner
    | none => .error .keyError
termination_by _ _ fs => sizeOf fs

/-- `[x.get_value(row) for x in filter["args"]]` -/
def evalArgs (reg : Registry) (row : Val) : List ValueSrc → Except Err (List Val)
  | [] => .ok []
  | a :: rest =>
    match ValueSrc.getValue reg row a with
    | .ok v =>
      match evalArgs reg row rest with
      | .ok vs => .ok (v :: vs)
      | .error e => .error e
    | .error e => .error e
termination_by args => sizeOf args
end

/-- `fetch_addable_filters`: the registered filters (in registry order) any
of whose manipulation inputs accepts the source's current type. -/
def availFilters (reg : Registry) (curTy : String) : List String :=
  (reg.filters.filter (fun kv =>
    kv.2.manipulationTypes.any (fun p => (extract_allowed_types p.1).contains curTy))).map
    Prod.fst

/-- The per-argument validation loop shared by `add_filter` and
`add_comparer`: accumulate one detail string per violated argument
(modelled as a count of violations); an argument's own `get_type()` failure
propagates as the raised error. -/
def argViolations (reg : Registry) : List ParamDef → List ValueSrc → Except Err Nat
  | _, [] => .ok 0
  | [], _ :: _ => .error .indexError
  | p :: ps, a :: as' =>
    if ¬ p.valueClasses.contains (classKey a) then
      match argViolations reg ps as' with
      | .ok n => .ok (n + 1)
      | .error e => .error e
    else
      match a.getType reg with
      | .ok aty =>
        match argViolations reg ps as' with
        | .ok n => .ok (if (extract_allowed_types p.ptype).contains aty then n else n + 1)
        | .error e => .error e
      | .error e => .error e

/-- `Constant.add_filter` / `Attribute.add_filter` (identical bodies):
validate availability, arity and arguments, then append the step. -/
def addFilter (reg : Registry) (src : ValueSrc) (filterName : String)
    (args : List ValueSrc) : Except Err ValueSrc :=
  match src.getType reg with
  | .error e => .error e
  | .ok curTy =>
    if ¬ (availFilters reg curTy).contains filterName then .error .ruleCreation
    else
      match aLookup reg.filters filterName with
      | some fd =>
        if fd.params.length ≠ args.length then .error .ruleCreation
        else
          match argViolations reg fd.params args with
          | .ok 0 =>
            .ok (match src with
                 | .const ty base fs => .const ty base (fs ++ [(filterName, args)])
                 | .attr ty path fs => .attr ty path (fs ++ [(filterName, args)]))
          | .ok _ => .error .ruleCreation
          | .error e => .error e
      | none => .error .keyError

mutual
/-- One entry of a container's `_compare_objects`: a sub-container or a
comparer call `(key, selected_collation, comparable1, comparable2, args)`.
(The cached comparer dict is recovered from the registry by key.) -/
inductive Member where
  | subC : Container → Member
  | cmp : String → (String × String) → ValueSrc → ValueSrc → List ValueSrc → Member

/-- `AndOperatorContainer` / `OrOperatorContainer`: the `not_operator` flag
and the ordered `_compare_objects` list. -/
inductive Container where
  | andC : Bool → List Member → Container
  | orC : Bool → List Member → Container
end

/-- Python `bool(v)` (the truthiness `all`/`any` apply to comparer results). -/
def pyTruthy : Val → Bool
  | .vnone => false
  | .vbool b => b
  | .vint n => n ≠ 0
  | .vfloat q => q ≠ 0
  | .vstr s => ¬ s.data.isEmpty
  | .vdt _ => true
  | .vlist l => ¬ l.isEmpty
  | .vdict d => ¬ d.isEmpty

/-- The extra-argument loop of `_evaluate_comparable_obj`: each argument is
evaluated and implicitly parsed to its declared parameter type when its own
`get_type()` differs. -/
def evalCmpArgs (reg : Registry) (row : Val) :
    List ParamDef → List ValueSrc → Except Err (List Val)
  | _, [] => .ok []
  | [], _ :: _ => .error .indexError
  | p :: ps, a :: as' =>
    match ValueSrc.getValue reg row a with
    | .ok v =>
      match a.getType reg with
      | .ok aty =>
        match (if p.ptype ≠ aty then implicit_parse v p.ptype else .ok v) with
        | .ok v' =>
          match evalCmpArgs reg row ps as' with
          | .ok vs => .ok (v' :: vs)
          | .error e => .error e
        | .error e => .error e
      | .error e => .error e
    | .error e => .error e

/-- `_evaluate_comparable_obj`: evaluate both sides, implicitly parse them to
the selected collation's types, evaluate the extra arguments, and call the
comparer's method. -/
def evalCmp (reg : Registry) (row : Val) (key : String) (coll : String × String)
    (c1 c2 : ValueSrc) (args : List ValueSrc) : Except Err Val :=
  match aLookup reg.comparers key with
  | none => .error .keyError
  | some cd =>
    match ValueSrc.getValue reg row c1 with
    | .ok v1 =>
      match implicit_parse v1 coll.1 with
      | .ok v1' =>
        match ValueSrc.getValue reg row c2 with
        | .ok v2 =>
          match implicit_parse v2 coll.2 with
          | .ok v2' =>
            match evalCmpArgs reg row cd.params args with
            | .ok argVals => cd.method v1' v2' argVals
            | .error e => .error e
          | .error e => .error e
        | .error e => .error e
      | .error e => .error e
    | .error e => .error e

mutual
/-- `AndOperatorContainer.evaluate` / `OrOperatorContainer.evaluate`: the
member list is evaluated eagerly (a Python list comprehension), conjoined or
disjoined, then flipped by `not_operator`. -/
def evalContainer (reg : Registry) (row : Val) : Container → Except Err Bool
  | .andC notOp objs =>
    match evalMembers reg row objs with
    | .ok bs => .ok (if notOp then ¬ bs.all id else bs.all id)
    | .error e => .error e
  | .orC notOp objs =>
    match evalMembers reg row objs with
    | .ok bs => .ok (if notOp then ¬ bs.any id else bs.any id)
    | .error e => .error e
termination_by c => sizeOf c

/-- The member list evaluation: sub-containers recursively, comparer entries
through `_evaluate_comparable_obj` with Python truthiness. -/
def evalMembers (reg : Registry) (row : Val) : List Member → Except Err (List Bool)
  | [] => .ok []
  | .subC c :: rest =>
    match evalContainer reg row c with
    | .ok b =>
      match evalMembers reg row rest with
      | .ok bs => .ok (b :: bs)
      | .error e => .error e
    | .error e => .error e
  | .cmp key coll c1 c2 args :: rest =>
    match evalCmp reg row key coll c1 c2 args with
    | .ok v =>
      match evalMembers reg row rest with
      | .ok bs => .ok (pyTruthy v :: bs)
      | .error e => .error e
    | .error e => .error e
termination_by ms => sizeOf ms
end

/-- `add_comparer` (the identical bodies of the two container classes),
acting on the `_compare_objects` list: resolve the comparer, enforce the
left-is-`Attribute` and right-value-class rules, select the collation
(explicit override validated against the declared list; otherwise first exact
`(left.type, right.type)` match, then first implicitly-compatible pair),
validate the extra arguments, and append the entry. -/
def addComparer (reg : Registry) (objs : List Member) (comparerName : String)
    (c1 c2 : ValueSrc) (collOverride : Option (String × String))
    (args : List ValueSrc) : Except Err (List Member) :=
  match aLookup reg.comparers comparerName with
  | none => .error .ruleCreation
  | some cd =>
    if classKey c1 ≠ "Attribute" then .error .ruleCreation
    else if ¬ cd.valueClasses.contains (classKey c2) then .error .ruleCreation
    else
      match c1.getType reg with
      | .error e => .error e
      | .ok ty1 =>
        match c2.getType reg with
        | .error e => .error e
        | .ok ty2 =>
          match (match collOverride with
            | some (x, y) =>
              match (cd.collationTypes.filter (fun p => p.1 = x ∧ p.2 = y)).head? with
              | some p =>
                if (extract_allowed_types p.1).contains ty1 ∧
                    (extract_allowed_types p.2).contains ty2 then .ok p
                else .error Err.ruleCreation
              | none => .error Err.ruleCreation
            | none =>
              match cd.collationTypes.find? (fun p => p.1 = ty1 ∧ p.2 = ty2) with
              | some p => .ok p
              | none =>
                match cd.collationTypes.find? (fun p =>
                  (extract_allowed_types p.1).contains ty1 ∧
                  (extract_allowed_types p.2).contains ty2) with
                | some p => .ok p
                | none => .error Err.ruleCreation : Except Err (String × String)) with
          | .error e => .error e
          | .ok coll =>
            if cd.params.length ≠ args.length then .error .ruleCreation
            else
              match argViolations reg cd.params args with
              | .ok 0 => .ok (objs ++ [.cmp comparerName coll c1 c2 args])
              | .ok _ => .error .ruleCreation
              | .error e => .error e

/-- `JsonAttributeType` (`"in"` / `"out"`). -/
inductive JAttrType where
  | input : JAttrType
  | output : JAttrType
  deriving DecidableEq

/-- `JsonAttribute` (frozen dataclass). -/
structure JsonAttr where
  dotSpecifier : String
  attributeType : JAttrType
  attributeDataType : String
  prettyName : String
  description : String
  readOnly : Bool
  maxLength : Option Int
  deriving DecidableEq

/-- `Environment`: ordered attributes plus index-pair default mappings. -/
structure EnvironmentV where
  attributes : List JsonAttr
  defaultMappings : List (Nat × Nat)

/-- `Environment.add_attribute` (appends unless already present). -/
def addAttribute (env : EnvironmentV) (a : JsonAttr) : EnvironmentV :=
  if env.attributes.contains a then env
  else { env with attributes := env.attributes ++ [a] }

/-- `Environment.add_default_mapping_with_index`: direction checks
(`ValueError`), missing index (`IndexError`), then dedup append. -/
def addDefaultMappingWithIndex (env : EnvironmentV) (i o : Nat) :
    Except Err EnvironmentV :=
  match env.attributes.get? i, env.attributes.get? o with
  | some ia, some oa =>
    if ia.attributeType ≠ .input then .error .valueError
    else if oa.attributeType ≠ .output then .error .valueError
    else if env.defaultMappings.contains (i, o) then .ok env
    else .ok { env with defaultMappings := env.defaultMappings ++ [(i, o)] }
  | _, _ => .error .indexError

/-- `Environment.get_all_default_mappings`: resolve the index pairs to
attribute pairs (missing index is an `IndexError`). -/
def getAllDefaultMappings (env : EnvironmentV) :
    Except Err (List (JsonAttr × JsonAttr)) :=
  go env.defaultMappings
where
  go : List (Nat × Nat) → Except Err (List (JsonAttr × JsonAttr))
    | [] => .ok []
    | (i, o) :: rest =>
      match env.attributes.get? i, env.attributes.get? o with
      | some ia, some oa =>
        match go rest with
        | .ok ps => .ok ((ia, oa) :: ps)
        | .error e => .error e
      | _, _ => .error .indexError

/-- `RuleExpression`: root container plus ordered actions `(param_key, value)`. -/
structure RuleExpr where
  baseContainer : Container
  actions : List (String × ValueSrc)

/-- The action loop of `RuleExpression.run_on_dict`: evaluate each action
value against the current row, assign it at the action path, and add the
path to the change set. -/
def runActions (reg : Registry) : Val → List String → List (String × ValueSrc) →
    Except Err (Val × List String)
  | row, changeSet, [] => .ok (row, changeSet)
  | row, changeSet, (key, value) :: rest =>
    match ValueSrc.getValue reg row value with
    | .ok v =>
      match set_dot_path row key v with
      | .ok row' =>
        runActions reg row' (if changeSet.contains key then changeSet else changeSet ++ [key]) rest
      | .error e => .error e
    | .error e => .error e

/-- `RuleExpression.run_on_dict`: when the root container evaluates true,
apply every action in order; returns the row and the change set. -/
def runOnDict (reg : Registry) (e : RuleExpr) (row : Val) :
    Except Err (Val × List String) :=
  match evalContainer reg row e.baseContainer with
  | .ok true => runActions reg row [] e.actions
  | .ok false => .ok (row, [])
  | .error e => .error e

/-- The expression loop of `RuleRunner.run_on_iterable` over one row,
accumulating the union of the change sets. -/
def runExprs (reg : Registry) : List RuleExpr → Val → List String →
    Except Err (Val × List String)
  | [], row, gcs => .ok (row, gcs)
  | e :: rest, row, gcs =>
    match runOnDict reg e row with
    | .ok (row', cs) =>
      runExprs reg rest row'
        (gcs ++ cs.filter (fun k => ¬ gcs.contains k))
    | .error e => .error e

/-- The default-mapping loop of `RuleRunner.run_on_iterable`: for each
mapping whose output path is not in the accumulated change set, read the
input path, parse with the output path's data type, and assign at the
output path. -/
def applyMappings (reg : Registry) : List (JsonAttr × JsonAttr) → List String →
    Val → Except Err Val
  | [], _, row => .ok row
  | (ia, oa) :: rest, gcs, row =>
    if oa.dotSpecifier ∈ gcs then applyMappings reg rest gcs row
    else
      match get_dot_path row ia.dotSpecifier with
      | .ok fetched =>
        match parseAs oa.attributeDataType fetched with
        | .ok v =>
          match set_dot_path row oa.dotSpecifier v with
          | .ok row' => applyMappings reg rest gcs row'
          | .error e => .error e
        | .error e => .error e
      | .error e => .error e

/-- The per-row body of `RuleRunner.run_on_iterable`: run every expression in
declaration order, then fill the default mappings whose outputs were not
assigned. -/
def processRow (reg : Registry) (exprs : List RuleExpr) (env : EnvironmentV)
    (row : Val) : Except Err Val :=
  match runExprs reg exprs row [] with
  | .ok (row', gcs) =>
    match getAllDefaultMappings env with
    | .ok mappings => applyMappings reg mappings gcs row'
    | .error e => .error e
  | .error e => .error e

/-- `RuleRunner.run_on_iterable` over a finite stream of rows (the generator
yields row results one at a time; the first raised exception aborts). -/
def run_on_iterable (reg : Registry) (exprs : List RuleExpr) (env : EnvironmentV) :
    List Val → Except Err (List Val)
  | [] => .ok []
  | row :: rest =>
    match processRow reg exprs env row with
    | .ok row' =>
      match run_on_iterable reg exprs env rest with
      | .ok rows => .ok (row' :: rows)
      | .error e => .error e
    | .error e => .error e

/-! ### Serialization (`to_dict` / `from_dict`, tagged envelopes) -/

mutual
/-- `Constant.to_dict` / `Attribute.to_dict`: payload
`{"value": ..., "type": ..., "filters": [...]}` under the class-tag
envelope `{"key": tag, "obj": payload}`. -/
def toDictSrc : ValueSrc → Val
  | .const ty base fs =>
    .vdict [("key", .vstr "Constant"),
            ("obj", .vdict [("value", valueToJsonCompatible base),
                            ("type", .vstr ty),
                            ("filters", .vlist (toDictFilters fs))])]
  | .attr ty path fs =>
    .vdict [("key", .vstr "Attribute"),
            ("obj", .vdict [("value", valueToJsonCompatible (.vstr path)),
                            ("type", .vstr ty),
                            ("filters", .vlist (toDictFilters fs))])]
termination_by src => sizeOf src

/-- The filter list of a value-source payload:
`[{"filter_key": ..., "args": [...]}, ...]`. -/
def toDictFilters : List (String × List ValueSrc) → List Val
  | [] => []
  | (fkey, args) :: rest =>
    .vdict [("filter_key", .vstr fkey), ("args", .vlist (toDictArgs args))] ::
      toDictFilters rest
termination_by fs => sizeOf fs

/-- Serialized argument list. -/
def toDictArgs : List ValueSrc → List Val
  | [] => []
  | a :: rest => toDictSrc a :: toDictArgs rest
termination_by args => sizeOf args
end

mutual
/-- `AndOperatorContainer.to_dict` / `OrOperatorContainer.to_dict`: one pass
over `_compare_objects` splits comparers and sub-containers into two lists
(preserving relative order within each); payload
`{"comparers": [...], "sub_containers": [...], "not_operator": ...}`. -/
def toDictContainer : Container → Val
  | .andC notOp objs =>
    .vdict [("key", .vstr "AndOperator"),
            ("obj", .vdict [("comparers", .vlist (toDictCmps objs)),
                            ("sub_containers", .vlist (toDictSubs objs)),
                            ("not_operator", .vbool notOp)])]
  | .orC notOp objs =>
    .vdict [("key", .vstr "OrOperator"),
            ("obj", .vdict [("comparers", .vlist (toDictCmps objs)),
                            ("sub_containers", .vlist (toDictSubs objs)),
                            ("not_operator", .vbool notOp)])]
termination_by c => sizeOf c

/-- The serialized comparer entries of a member list. -/
def toDictCmps : List Member → List Val
  | [] => []
  | .subC _ :: rest => toDictCmps rest
  | .cmp key coll c1 c2 args :: rest =>
    .vdict [("comparer_key", .vstr key),
            ("comparable1", toDictSrc c1),
            ("comparable2", toDictSrc c2),
            ("selected_collation", .vlist [.vstr coll.1, .vstr coll.2]),
            ("args", .vlist (toDictArgs args))] :: toDictCmps rest
termination_by ms => sizeOf ms

/-- The serialized sub-container entries of a member list. -/
def toDictSubs : List Member → List Val
  | [] => []
  | .subC c :: rest => toDictContainer c :: toDictSubs rest
  | .cmp _ _ _ _ _ :: rest => toDictSubs rest
termination_by ms => sizeOf ms
end

/-- `JsonAttribute.to_dict`: a copy of the dataclass `__dict__` (field
declaration order) with `attribute_type` replaced by its enum value. -/
def toDictJsonAttr (a : JsonAttr) : Val :=
  .vdict [("key", .vstr "JsonAttribute"),
          ("obj", .vdict
            [("dot_specifier", .vstr a.dotSpecifier),
             ("attribute_type", .vstr (match a.attributeType with
               | .input => "in"
               | .output => "out")),
             ("attribute_data_type", .vstr a.attributeDataType),
             ("pretty_name", .vstr a.prettyName),
             ("description", .vstr a.description),
             ("read_only", .vbool a.readOnly),
             ("max_length", match a.maxLength with
               | some n => .vint n
               | none => .vnone)])]

/-- `Environment.to_dict`. -/
def toDictEnvironment (env : EnvironmentV) : Val :=
  .vdict [("key", .vstr "Environment"),
          ("obj", .vdict
            [("default_mappings",
              .vlist (env.defaultMappings.map (fun p =>
                .vlist [.vint p.1, .vint p.2]))),
             ("attributes", .vlist (env.attributes.map toDictJsonAttr))])]

/-- `RuleExpression.to_dict`. -/
def toDictRuleExpr (e : RuleExpr) : Val :=
  .vdict [("key", .vstr "RuleExpression"),
          ("obj", .vdict
            [("base_container", toDictContainer e.baseContainer),
             ("actions", .vlist (e.actions.map (fun a =>
               .vdict [("param_key", .vstr a.1), ("value", toDictSrc a.2)])))])]

/-- `RuleRunner.to_dict`. -/
def toDictRunner (exprs : List RuleExpr) : Val :=
  .vdict [("key", .vstr "RuleRunner"),
          ("obj", .vdict [("expressions", .vlist (exprs.map toDictRuleExpr))])]

/-- Any rule-program artifact rehydratable by the tagged dispatcher. -/
inductive Artifact where
  | src : ValueSrc → Artifact
  | container : Container → Artifact
  | jsonAttr : JsonAttr → Artifact
  | environment : EnvironmentV → Artifact
  | expr : RuleExpr → Artifact
  | runner : List RuleExpr → Artifact

/-- `v[k]` on a value: `KeyError` when the key is missing, `TypeError` when
`v` is not a dict. -/
def dIndex (v : Val) (k : String) : Except Err Val :=
  match v with
  | .vdict d =>
    match dLookup d k with
    | some w => .ok w
    | none => .error .keyError
  | _ => .error .typeError

/-- The `Constant(value, value_type)` constructor followed by its
`set_input(value)`: a `None` type auto-detects via `_try_extract_type`, a
declared type must be allowed and parses the value (a `ParseError` becomes a
`RuleCreationError`); a non-string non-`None` type fails the allowed-type
check. -/
def mkConstant (value tyV : Val) : Except Err ValueSrc :=
  match tyV with
  | .vnone =>
    match tryExtractType value with
    | .ok (w, t) => .ok (.const t w [])
    | .error e => .error e
  | .vstr ty =>
    if ¬ allowedTypes.contains ty then .error .ruleCreation
    else
      match parseAs ty value with
      | .ok w => .ok (.const ty w [])
      | .error e => if e = .parse then .error .ruleCreation else .error e
  | _ => .error .ruleCreation

/-- The `Attribute(value_dot_notation, value_type)` constructor: the type
must be an allowed type name; the path is stored as given (`get_dot_notation`
later applies `str()` to it, which the model applies here). -/
def mkAttribute (pathV tyV : Val) : Except Err ValueSrc :=
  match tyV with
  | .vstr ty =>
    if ¬ allowedTypes.contains ty then .error .ruleCreation
    else
      .ok (.attr ty (match pathV with | .vstr s => s | v => pyStr v) [])
  | _ => .error .ruleCreation

mutual
/-- `TypesHelper.from_dict_facade`: dispatch on the `"key"` tag over the
json-registered classes; an unknown tag is a `RuleCreationError`. -/
def fromDictFacade (reg : Registry) : Nat → Val → Except Err Artifact
  | 0, _ => .error .fuelExhausted
  | n + 1, v =>
    match dIndex v "key" with
    | .ok (.vstr "Constant") => fromDictConstant reg n v
    | .ok (.vstr "Attribute") => fromDictAttribute reg n v
    | .ok (.vstr "AndOperator") => fromDictContainer reg n true v
    | .ok (.vstr "OrOperator") => fromDictContainer reg n false v
    | .ok (.vstr "JsonAttribute") => fromDictJsonAttr n v
    | .ok (.vstr "Environment") => fromDictEnvironment reg n v
    | .ok (.vstr "RuleExpression") => fromDictRuleExpr reg n v
    | .ok (.vstr "RuleRunner") => fromDictRunner reg n v
    | .ok _ => .error .ruleCreation
    | .error e => .error e
termination_by n _ => (n, 0, 0)

/-- `Constant.from_dict`: rebuild from `obj.value`/`obj.type`, then re-add
every serialized filter through `add_filter` (re-running its validation). -/
def fromDictConstant (reg : Registry) (fuel : Nat) (v : Val) : Except Err Artifact :=
  match dIndex v "obj" with
  | .error e => .error e
  | .ok obj =>
    match dIndex obj "value" with
    | .error e => .error e
    | .ok value =>
      match dIndex obj "type" with
      | .error e => .error e
      | .ok tyV =>
        match mkConstant value tyV with
        | .error e => .error e
        | .ok src =>
          match dIndex obj "filters" with
          | .ok (.vlist fl) =>
            match fromDictFilterFold reg fuel src fl with
            | .ok src' => .ok (.src src')
            | .error e => .error e
          | .ok _ => .error .typeError
          | .error e => .error e
termination_by (fuel, 3, 0)

/-- `Attribute.from_dict` (same shape as `Constant.from_dict`). -/
def fromDictAttribute (reg : Registry) (fuel : Nat) (v : Val) : Except Err Artifact :=
  match dIndex v "obj" with
  | .error e => .error e
  | .ok obj =>
    match dIndex obj "value" with
    | .error e => .error e
    | .ok value =>
      match dIndex obj "type" with
      | .error e => .error e
      | .ok tyV =>
        match mkAttribute value tyV with
        | .error e => .error e
        | .ok src =>
          match dIndex obj "filters" with
          | .ok (.vlist fl) =>
            match fromDictFilterFold reg fuel src fl with
            | .ok src' => .ok (.src src')
            | .error e => .error e
          | .ok _ => .error .typeError
          | .error e => .error e
termination_by (fuel, 3, 0)

/-- The filter loop of the value-source `from_dict`s:
`result_obj.add_filter(filt["filter_key"], *[facade(x) for x in filt["args"]])`.
A non-string filter key is never among the addable filters, and a non-list
`args` payload fails iteration. -/
def fromDictFilterFold (reg : Registry) (fuel : Nat) (src : ValueSrc) :
    List Val → Except Err ValueSrc
  | [] => .ok src
  | filt :: rest =>
    match dIndex filt "filter_key" with
    | .error e => .error e
    | .ok fkeyV =>
      match dIndex filt "args" with
      | .ok (.vlist al) =>
        match fromDictSrcArgs reg fuel al with
        | .ok args =>
          match fkeyV with
          | .vstr fkey =>
            match addFilter reg src fkey args with
            | .ok src' => fromDictFilterFold reg fuel src' rest
            | .error e => .error e
          | _ => .error .ruleCreation
        | .error e => .error e
      | .ok _ => .error .typeError
      | .error e => .error e
termination_by l => (fuel, 2, sizeOf l)

/-- Rehydrate a serialized argument list; an argument that is not a value
source fails the `isinstance(arg, BaseValue)` validation of
`add_filter`/`add_comparer` (a `RuleCreationError`). -/
def fromDictSrcArgs (reg : Registry) (fuel : Nat) :
    List Val → Except Err (List ValueSrc)
  | [] => .ok []
  | x :: rest =>
    match fromDictFacade reg fuel x with
    | .ok (.src a) =>
      match fromDictSrcArgs reg fuel rest with
      | .ok as' => .ok (a :: as')
      | .error e => .error e
    | .ok _ => .error .ruleCreation
    | .error e => .error e
termination_by l => (fuel, 1, sizeOf l)

/-- `AndOperatorContainer.from_dict` / `OrOperatorContainer.from_dict`
(`isAnd` selects the class): rebuild an empty container, re-add the
serialized sub-containers, then the serialized comparers (re-running
`add_comparer`'s validation and collation selection with the stored
collation as the explicit override), and finally set `not_operator`. -/
def fromDictContainer (reg : Registry) (fuel : Nat) (isAnd : Bool) (v : Val) :
    Except Err Artifact :=
  match dIndex v "obj" with
  | .error e => .error e
  | .ok obj =>
    match dIndex obj "sub_containers" with
    | .ok (.vlist sl) =>
      match fromDictSubsFold reg fuel [] sl with
      | .ok objs0 =>
        match dIndex obj "comparers" with
        | .ok (.vlist cl) =>
          match fromDictCmpsFold reg fuel objs0 cl with
          | .ok objs1 =>
            match dIndex obj "not_operator" with
            | .ok (.vbool notOp) =>
              .ok (.container (if isAnd then .andC notOp objs1 else .orC notOp objs1))
            | .ok _ => .error .typeError
            | .error e => .error e
          | .error e => .error e
        | .ok _ => .error .typeError
        | .error e => .error e
      | .error e => .error e
    | .ok _ => .error .typeError
    | .error e => .error e
termination_by (fuel, 3, 0)

/-- The sub-container loop of the container `from_dict`s:
`add_sub_container(facade(sub))` — anything but a container fails its
`isinstance(container, BaseContainer)` check. -/
def fromDictSubsFold (reg : Registry) (fuel : Nat) (objs : List Member) :
    List Val → Except Err (List Member)
  | [] => .ok objs
  | x :: rest =>
    match fromDictFacade reg fuel x with
    | .ok (.container c) => fromDictSubsFold reg fuel (objs ++ [.subC c]) rest
    | .ok _ => .error .ruleCreation
    | .error e => .error e
termination_by l => (fuel, 2, sizeOf l)

/-- The comparer loop of the container `from_dict`s: rehydrate the argument
list and the two comparables, read the stored collation pair, and re-run
`add_comparer` with that pair as the explicit collation.  A non-`Attribute`
left side or out-of-class right side fails inside `add_comparer`; a
malformed `selected_collation` payload fails its shape validation. -/
def fromDictCmpsFold (reg : Registry) (fuel : Nat) (objs : List Member) :
    List Val → Except Err (List Member)
  | [] => .ok objs
  | c :: rest =>
    match dIndex c "args" with
    | .ok (.vlist al) =>
      match fromDictSrcArgs reg fuel al with
      | .ok args =>
        match dIndex c "comparer_key" with
        | .error e => .error e
        | .ok (Val.vstr ckey) =>
          match dIndex c "comparable1" with
          | .error e => .error e
          | .ok c1V =>
            match fromDictFacade reg fuel c1V with
            | .error e => .error e
            | .ok a1 =>
              match dIndex c "comparable2" with
              | .error e => .error e
              | .ok c2V =>
                match fromDictFacade reg fuel c2V with
                | .error e => .error e
                | .ok a2 =>
                  match a1, a2 with
                  | .src s1, .src s2 =>
                    match dIndex c "selected_collation" with
                    | .error e => .error e
                    | .ok (.vlist [.vstr x, .vstr y]) =>
                      match addComparer reg objs ckey s1 s2 (some (x, y)) args with
                      | .ok objs' => fromDictCmpsFold reg fuel objs' rest
                      | .error e => .error e
                    | .ok _ => .error .ruleCreation
                  | _, _ => .error .ruleCreation
        | .ok _ => .error .ruleCreation
      | .error e => .error e
    | .ok _ => .error .typeError
    | .error e => .error e
termination_by l => (fuel, 2, sizeOf l)

/-- `JsonAttribute.from_dict`.  The payload fields of a serialized
`JsonAttribute` are read positionally; an `attribute_type` outside
`{"in", "out"}` is the enum's `ValueError`.  Field shapes outside the
dataclass's declared types are not modelled (`TypeError` here). -/
def fromDictJsonAttr (_fuel : Nat) (v : Val) : Except Err Artifact :=
  match dIndex v "obj" with
  | .error e => .error e
  | .ok obj =>
    match dIndex obj "dot_specifier", dIndex obj "attribute_type",
        dIndex obj "attribute_data_type", dIndex obj "pretty_name",
        dIndex obj "description", dIndex obj "read_only",
        dIndex obj "max_length" with
    | .ok (.vstr ds), .ok (.vstr at'), .ok (.vstr dt), .ok (.vstr pn),
        .ok (.vstr desc), .ok (.vbool ro), .ok mlV =>
      match (if at' = "in" then .ok JAttrType.input
             else if at' = "out" then .ok JAttrType.output
             else .error Err.valueError : Except Err JAttrType) with
      | .error e => .error e
      | .ok aty =>
        match mlV with
        | .vnone => .ok (.jsonAttr ⟨ds, aty, dt, pn, desc, ro, none⟩)
        | .vint n => .ok (.jsonAttr ⟨ds, aty, dt, pn, desc, ro, some n⟩)
        | _ => .error .typeError
    | _, _, _, _, _, _, _ => .error .typeError
termination_by (_fuel, 3, 0)

/-- `Environment.from_dict`: re-add the serialized attributes (which must be
`JsonAttribute`s by `add_attribute`'s assertion) and the index mappings
(re-validated by `add_default_mapping_with_index`). -/
def fromDictEnvironment (reg : Registry) (fuel : Nat) (v : Val) :
    Except Err Artifact :=
  match dIndex v "obj" with
  | .error e => .error e
  | .ok obj =>
    match dIndex obj "attributes" with
    | .ok (.vlist al) =>
      match fromDictAttrsFold reg fuel ⟨[], []⟩ al with
      | .ok env0 =>
        match dIndex obj "default_mappings" with
        | .ok (.vlist ml) =>
          match (ml.foldlM (fun env mv =>
            match mv with
            | Val.vlist [Val.vint i, Val.vint o] =>
              if h : 0 ≤ i ∧ 0 ≤ o then
                addDefaultMappingWithIndex env i.toNat o.toNat
              else .error Err.typeError
            | _ => .error Err.typeError) env0 : Except Err EnvironmentV) with
          | .ok env1 => .ok (.environment env1)
          | .error e => .error e
        | .ok _ => .error .typeError
        | .error e => .error e
      | .error e => .error e
    | .ok _ => .error .typeError
    | .error e => .error e
termination_by (fuel, 3, 0)

/-- The attribute loop of `Environment.from_dict`. -/
def fromDictAttrsFold (reg : Registry) (fuel : Nat) (env : EnvironmentV) :
    List Val → Except Err EnvironmentV
  | [] => .ok env
  | x :: rest =>
    match fromDictFacade reg fuel x with
    | .ok (.jsonAttr a) => fromDictAttrsFold reg fuel (addAttribute env a) rest
    | .ok _ => .error .assertion
    | .error e => .error e
termination_by l => (fuel, 2, sizeOf l)

/-- `RuleExpression.from_dict`: rehydrate the base container, then re-add
each action (`add_action` requires a value source and stringifies the key). -/
def fromDictRuleExpr (reg : Registry) (fuel : Nat) (v : Val) : Except Err Artifact :=
  match dIndex v "obj" with
  | .error e => .error e
  | .ok obj =>
    match dIndex obj "base_container" with
    | .error e => .error e
    | .ok bcV =>
      match fromDictFacade reg fuel bcV with
      | .ok (.container bc) =>
        match dIndex obj "actions" with
        | .ok (.vlist al) =>
          match fromDictActionsFold reg fuel [] al with
          | .ok actions => .ok (.expr ⟨bc, actions⟩)
          | .error e => .error e
        | .ok _ => .error .typeError
        | .error e => .error e
      | .ok _ => .error .ruleCreation
      | .error e => .error e
termination_by (fuel, 3, 0)

/-- The action loop of `RuleExpression.from_dict`. -/
def fromDictActionsFold (reg : Registry) (fuel : Nat)
    (acc : List (String × ValueSrc)) : List Val → Except Err (List (String × ValueSrc))
  | [] => .ok acc
  | x :: rest =>
    match dIndex x "param_key" with
    | .error e => .error e
    | .ok kV =>
      match dIndex x "value" with
      | .error e => .error e
      | .ok vV =>
        match fromDictFacade reg fuel vV with
        | .ok (.src s) =>
          fromDictActionsFold reg fuel
            (acc ++ [((match kV with | .vstr s' => s' | w => pyStr w), s)]) rest
        | .ok _ => .error .ruleCreation
        | .error e => .error e
termination_by l => (fuel, 2, sizeOf l)

/-- `RuleRunner.from_dict`: re-add each rehydrated expression
(`add_expression` requires a `RuleExpression`). -/
def fromDictRunner (reg : Registry) (fuel : Nat) (v : Val) : Except Err Artifact :=
  match dIndex v "obj" with
  | .error e => .error e
  | .ok obj =>
    match dIndex obj "expressions" with
    | .ok (.vlist el) =>
      match fromDictExprsFold reg fuel [] el with
      | .ok exprs => .ok (.runner exprs)
      | .error e => .error e
    | .ok _ => .error .typeError
    | .error e => .error e
termination_by (fuel, 3, 0)

/-- The expression loop of `RuleRunner.from_dict`. -/
def fromDictExprsFold (reg : Registry) (fuel : Nat) (acc : List RuleExpr) :
    List Val → Except Err (List RuleExpr)
  | [] => .ok acc
  | x :: rest =>
    match fromDictFacade reg fuel x with
    | .ok (.expr e) => fromDictExprsFold reg fuel (acc ++ [e]) rest
    | .ok _ => .error .ruleCreation
    | .error e => .error e
termination_by l => (fuel, 2, sizeOf l)
end

/-! ### Statement-side definitions for the claims -/

/-- Navigate a chain of dict keys (each key present, each intermediate node a
dict).  This captures "the specifier addresses the location" for
bracket-free specifiers. -/
def navDicts : Val → List String → Option Val
  | v, [] => some v
  | .vdict d, k :: rest =>
    match dLookup d k with
    | some w => navDicts w rest
    | none => none
  | _, _ => none

/-- A non-container JSON value. -/
def isScalar : Val → Bool
  | .vlist _ => false
  | .vdict _ => false
  | _ => true

/-- The `(input, output)` pair `get_value` applies for one filter, read off
its two branches: when the current type is literally among the input types,
the value is passed unconverted (input = current type) and the output is the
first exactly-matching pair's output; otherwise the first pair accepting the
current type by implicit conversion. -/
def getValueStepPair (mts : List (String × String)) (cur : String) :
    Option (String × String) :=
  if (mts.map Prod.fst).contains cur then
    ((mts.filter (fun p => p.1 = cur)).head?).map (fun p => (cur, p.2))
  else findImplicitPair mts cur

/-- The type threading `get_value` performs along a filter chain (the type
components of `getValueAux`, with its `RunnerError` on a missing pair). -/
def getValueTypeChain (reg : Registry) : String → List (String × List ValueSrc) →
    Except Err String
  | cur, [] => .ok cur
  | cur, (fkey, _) :: rest =>
    match aLookup reg.filters fkey with
    | some fd =>
      match getValueStepPair fd.manipulationTypes cur with
      | some p => getValueTypeChain reg p.2 rest
      | none => .error .runner
    | none => .error .keyError

/-- The invariants the registration decorators establish for every stored
filter and comparer. -/
structure RegistryWF (reg : Registry) : Prop where
  filters : ∀ kv ∈ reg.filters,
    stringLastOk kv.2.manipulationTypes = true ∧
    kv.2.manipulationTypes ≠ [] ∧
    (kv.2.manipulationTypes.map Prod.fst).Nodup ∧
    ∀ p ∈ kv.2.manipulationTypes, p.1 ∈ allowedTypes ∧ p.2 ∈ allowedTypes
  comparers : ∀ kv ∈ reg.comparers,
    kv.2.collationTypes ≠ [] ∧
    kv.2.collationTypes.Nodup ∧
    ∀ p ∈ kv.2.collationTypes, p.1 ∈ allowedTypes ∧ p.2 ∈ allowedTypes

mutual
/-- The container shape `from_dict` rebuilds: each container's sub-containers
(recursively reordered) listed before its comparer entries; everything else
unchanged. -/
def reorderContainer : Container → Container
  | .andC notOp objs => .andC notOp (reorderSubs objs ++ reorderCmps objs)
  | .orC notOp objs => .orC notOp (reorderSubs objs ++ reorderCmps objs)
termination_by c => sizeOf c

/-- The sub-container entries of a member list, recursively reordered. -/
def reorderSubs : List Member → List Member
  | [] => []
  | .subC c :: rest => .subC (reorderContainer c) :: reorderSubs rest
  | .cmp _ _ _ _ _ :: rest => reorderSubs rest
termination_by ms => sizeOf ms

/-- The comparer entries of a member list, in order. -/
def reorderCmps : List Member → List Member
  | [] => []
  | .subC _ :: rest => reorderCmps rest
  | .cmp key coll c1 c2 args :: rest => .cmp key coll c1 c2 args :: reorderCmps rest
termination_by ms => sizeOf ms
end

/-- The artifact `from_dict ∘ to_dict` rebuilds: containers reordered as
above, everything else structurally unchanged. -/
def reorderArtifact : Artifact → Artifact
  | .src s => .src s
  | .container c => .container (reorderContainer c)
  | .jsonAttr a => .jsonAttr a
  | .environment e => .environment e
  | .expr e => .expr ⟨reorderContainer e.baseContainer, e.actions⟩
  | .runner es => .runner (es.map (fun e => ⟨reorderContainer e.baseContainer, e.actions⟩))

/-- Two evaluations agree: equal results on success, and failure exactly
together (the raised error kinds may differ). -/
def sameOk {α : Type} : Except Err α → Except Err α → Prop
  | .ok a, .ok b => a = b
  | .error _, .error _ => True
  | _, _ => False

mutual
/-- Value sources reachable with the public builders against registry `reg`:
the `Constant`/`Attribute` constructors (with their `set_input` validation)
followed by any number of successful `add_filter` calls whose arguments are
themselves built. -/
inductive SrcWB (reg : Registry) : ValueSrc → Prop where
  | constant : ∀ value tyV src, mkConstant value tyV = .ok src → SrcWB reg src
  | attrib : ∀ pathV tyV src, mkAttribute pathV tyV = .ok src → SrcWB reg src
  | filterStep : ∀ src fname args src', SrcWB reg src → ArgsWB reg args →
      addFilter reg src fname args = .ok src' → SrcWB reg src'

/-- All members of an argument list are built. -/
inductive ArgsWB (reg : Registry) : List ValueSrc → Prop where
  | nil : ArgsWB reg []
  | cons : ∀ a as', SrcWB reg a → ArgsWB reg as' → ArgsWB reg (a :: as')
end

/-- Containers reachable with the public builders: a fresh container,
`add_sub_container` of a built container, a successful `add_comparer` with
built sides and arguments, and the `not_operator` setter. -/
inductive ContWB (reg : Registry) : Container → Prop where
  | newAnd : ContWB reg (.andC false [])
  | newOr : ContWB reg (.orC false [])
  | addSubAnd : ∀ n objs c, ContWB reg (.andC n objs) → ContWB reg c →
      ContWB reg (.andC n (objs ++ [.subC c]))
  | addSubOr : ∀ n objs c, ContWB reg (.orC n objs) → ContWB reg c →
      ContWB reg (.orC n (objs ++ [.subC c]))
  | addCmpAnd : ∀ n objs name c1 c2 ov args objs',
      ContWB reg (.andC n objs) → SrcWB reg c1 → SrcWB reg c2 → ArgsWB reg args →
      addComparer reg objs name c1 c2 ov args = .ok objs' →
      ContWB reg (.andC n objs')
  | addCmpOr : ∀ n objs name c1 c2 ov args objs',
      ContWB reg (.orC n objs) → SrcWB reg c1 → SrcWB reg c2 → ArgsWB reg args →
      addComparer reg objs name c1 c2 ov args = .ok objs' →
      ContWB reg (.orC n objs')
  | setNotAnd : ∀ n n' objs, ContWB reg (.andC n objs) → ContWB reg (.andC n' objs)
  | setNotOr : ∀ n n' objs, ContWB reg (.orC n objs) → ContWB reg (.orC n' objs)

/-- Expressions reachable with the public builders. -/
inductive ExprWB (reg : Registry) : RuleExpr → Prop where
  | base : ∀ bc, ContWB reg bc → ExprWB reg ⟨bc, []⟩
  | addAction : ∀ bc acts k v, ExprWB reg ⟨bc, acts⟩ → SrcWB reg v →
      ExprWB reg ⟨bc, acts ++ [(k, v)]⟩

/-- Runners reachable with the public builders. -/
inductive RunnerWB (reg : Registry) : List RuleExpr → Prop where
  | nil : RunnerWB reg []
  | add : ∀ es e, RunnerWB reg es → ExprWB reg e → RunnerWB reg (es ++ [e])

/-- Environments reachable with the public builders. -/
inductive EnvWB : EnvironmentV → Prop where
  | nil : EnvWB ⟨[], []⟩
  | addAttr : ∀ env a, EnvWB env → EnvWB (addAttribute env a)
  | addMap : ∀ env i o env', EnvWB env →
      addDefaultMappingWithIndex env i o = .ok env' → EnvWB env'

/-- Artifacts reachable with the public builders. -/
inductive ArtifactWB (reg : Registry) : Artifact → Prop where
  | src : ∀ s, SrcWB reg s → ArtifactWB reg (.src s)
  | container : ∀ c, ContWB reg c → ArtifactWB reg (.container c)
  | jsonAttr : ∀ a, ArtifactWB reg (.jsonAttr a)
  | environment : ∀ env, EnvWB env → ArtifactWB reg (.environment env)
  | expr : ∀ e, ExprWB reg e → ArtifactWB reg (.expr e)
  | runner : ∀ es, RunnerWB reg es → ArtifactWB reg (.runner es)

/-- Evaluation equivalence of two artifacts of the same kind: identical
value-source evaluation, container/expression/runner evaluation agreeing via
`sameOk` on every row, structural equality for the passive artifacts. -/
def artifactEvalEquiv (reg : Registry) : Artifact → Artifact → Prop
  | .src a, .src b => ∀ row, ValueSrc.getValue reg row a = ValueSrc.getValue reg row b
  | .container a, .container b =>
    ∀ row, sameOk (evalContainer reg row a) (evalContainer reg row b)
  | .jsonAttr a, .jsonAttr b => a = b
  | .environment a, .environment b => a = b
  | .expr a, .expr b => ∀ row, sameOk (runOnDict reg a row) (runOnDict reg b row)
  | .runner a, .runner b =>
    ∀ env rows, sameOk (run_on_iterable reg a env rows) (run_on_iterable reg b env rows)
  | _, _ => False

/-- `to_dict` of any artifact (the inverse direction of the facade). -/
def toDictArtifact : Artifact → Val
  | .src s => toDictSrc s
  | .container c => toDictContainer c
  | .jsonAttr a => toDictJsonAttr a
  | .environment e => toDictEnvironment e
  | .expr e => toDictRuleExpr e
  | .runner es => toDictRunner es

mutual
/-- Fuel needed by the facade to rehydrate a serialized value source: one
facade step plus the args of its filters. -/
def srcDepth : ValueSrc → Nat
  | .const _ _ fs => 1 + filtersDepth fs
  | .attr _ _ fs => 1 + filtersDepth fs
termination_by src => sizeOf src

/-- Fuel needed by the filter list of a serialized value source. -/
def filtersDepth : List (String × List ValueSrc) → Nat
  | [] => 0
  | (_, args) :: rest => max (argsDepth args) (filtersDepth rest)
termination_by fs => sizeOf fs

/-- Fuel needed by a serialized argument list. -/
def argsDepth : List ValueSrc → Nat
  | [] => 0
  | a :: rest => max (srcDepth a) (argsDepth rest)
termination_by args => sizeOf args
end

mutual
/-- Fuel needed by the facade to rehydrate a serialized container. -/
def contDepth : Container → Nat
  | .andC _ objs => 1 + memsDepth objs
  | .orC _ objs => 1 + memsDepth objs
termination_by c => sizeOf c

/-- Fuel needed by a serialized member list. -/
def memsDepth : List Member → Nat
  | [] => 0
  | .subC c :: rest => max (contDepth c) (memsDepth rest)
  | .cmp _ _ c1 c2 args :: rest =>
    max (max (srcDepth c1) (srcDepth c2)) (max (argsDepth args) (memsDepth rest))
termination_by ms => sizeOf ms
end

/-- Fuel needed by a serialized action list. -/
def actsDepth : List (String × ValueSrc) → Nat
  | [] => 0
  | (_, v) :: rest => max (srcDepth v) (actsDepth rest)

/-- Fuel needed by the facade to rehydrate a serialized expression. -/
def exprDepth (e : RuleExpr) : Nat :=
  1 + max (contDepth e.baseContainer) (actsDepth e.actions)

/-- Fuel needed by a serialized expression list. -/
def exprsDepth : List RuleExpr → Nat
  | [] => 0
  | e :: rest => max (exprDepth e) (exprsDepth rest)

/-- Fuel needed by the facade on any serialized artifact. -/
def artifactDepth : Artifact → Nat
  | .src s => srcDepth s
  | .container c => contDepth c
  | .jsonAttr _ => 1
  | .environment _ => 2
  | .expr e => exprDepth e
  | .runner es => 1 + exprsDepth es

/-! ### A small concrete registry (for concrete instantiations) -/

/-- A registered identity filter on numerics. -/
def exIdFilter : FilterDef :=
  { method := fun v _ => .ok v, manipulationTypes := [("Numeric", "Numeric")],
    params := [] }

/-- A registered comparer that always accepts numeric pairs. -/
def exTrueCmp : ComparerDef :=
  { method := fun _ _ _ => .ok (.vbool true),
    collationTypes := [("Numeric", "Numeric")], params := [],
    valueClasses := ["Constant", "Attribute"] }

/-- A concrete registry holding just `exIdFilter` and `exTrueCmp`. -/
def exReg : Registry := ⟨[("identity", exIdFilter)], [("always", exTrueCmp)]⟩

/-- A registered comparer on numeric lists whose method always raises. -/
def exBoomCmp : ComparerDef :=
  { method := fun _ _ _ => .error .valueError,
    collationTypes := [("NumericList", "NumericList")], params := [],
    valueClasses := ["Constant", "Attribute"] }

/-- The concrete registry extended with the raising comparer. -/
def exReg2 : Registry :=
  ⟨[("identity", exIdFilter)], [("always", exTrueCmp), ("boom", exBoomCmp)]⟩

/-- An attribute comparable reading `row["x"]` as a numeric list. -/
def cexBoomC1 : ValueSrc := .attr "NumericList" "x" []

/-- A constant numeric-list comparable. -/
def cexBoomC2 : ValueSrc := .const "NumericList" (.vlist [.vfloat 2]) []

/-- A sub-container whose comparer reads the missing path `y[0]`. -/
def cexInner : Container :=
  .andC false [.cmp "always" ("Numeric", "Numeric")
    (.attr "Numeric" "y[0]" []) (.const "Numeric" (.vfloat 1) []) []]

/-- A container holding the raising comparer before the sub-container. -/
def cexOuter : Container :=
  .andC false [.cmp "boom" ("NumericList", "NumericList") cexBoomC1 cexBoomC2 [],
    .subC cexInner]

/-- A row binding only `x`. -/
def cexRow : Val := .vdict [("x", .vint 1)]

/-! ### Helper lemmas -/

/-- A looked-up member of a JSON-pure dict is JSON-pure. -/
theorem dLookup_jsonPure {d : List (String × Val)} {k : String} {w : Val}
    (hd : jsonPureD d = true) (h : dLookup d k = some w) : jsonPure w = true := by
  induction d with
  | nil => simp [dLookup] at h
  | cons hd' tl ih =>
    obtain ⟨k', v'⟩ := hd'
    simp only [jsonPureD, Bool.and_eq_true] at hd
    by_cases hk : k' = k
    · simp only [dLookup, if_pos hk, Option.some.injEq] at h
      subst h
      exact hd.1
    · simp only [dLookup, if_neg hk] at h
      exact ih hd.2 h

/-- Updating a JSON-pure dict with a JSON-pure value keeps it JSON-pure. -/
theorem dUpdate_jsonPure {d : List (String × Val)} {k : String} {v : Val}
    (hd : jsonPureD d = true) (hv : jsonPure v = true) :
    jsonPureD (dUpdate d k v) = true := by
  induction d with
  | nil => simp [dUpdate, jsonPureD, hv]
  | cons hd' tl ih =>
    obtain ⟨k', v'⟩ := hd'
    simp only [jsonPureD, Bool.and_eq_true] at hd
    by_cases hk : k' = k
    · simp [dUpdate, hk, jsonPureD, hv, hd.2]
    · simp [dUpdate, hk, jsonPureD, hd.1, ih hd.2]

/-- Looking up the freshly assigned key returns the assigned value. -/
theorem dLookup_dUpdate (d : List (String × Val)) (k : String) (v : Val) :
    dLookup (dUpdate d k v) k = some v := by
  induction d with
  | nil => simp [dUpdate, dLookup]
  | cons hd' tl ih =>
    obtain ⟨k', v'⟩ := hd'
    by_cases hk : k' = k
    · simp [dUpdate, hk, dLookup]
    · simp [dUpdate, hk, dLookup, ih]

/-- `d.get(k, dflt)` after `d[k] = v` is `v`. -/
theorem dGetD_dUpdate (d : List (String × Val)) (k : String) (v dflt : Val) :
    dGetD (dUpdate d k v) k dflt = v := by
  simp [dGetD, dLookup_dUpdate]

/-- A backward bracket scan over characters not containing `[` finds no
bracket. -/
theorem scanBracketBack_none {allowed : Char → Bool} {l acc : List Char}
    (h : '[' ∉ l) : scanBracketBack allowed l acc = none := by
  induction l generalizing acc with
  | nil => simp [scanBracketBack]
  | cons c rest ih =>
    simp only [List.mem_cons, not_or] at h
    have hc : ¬ c = '[' := fun hh => h.1 hh.symm
    rw [scanBracketBack, if_neg hc]
    by_cases ha : allowed c
    · rw [if_pos ha]
      exact ih h.2
    · rw [if_neg ha]

/-- A segment without `[` has no trailing bracket group. -/
theorem findBracket_none {allowed : Char → Bool} {s : String}
    (h : '[' ∉ s.data) : findBracket allowed s = none := by
  unfold findBracket
  cases hdw : s.data.reverse.dropWhile isPyWs with
  | nil => rfl
  | cons c rest =>
    by_cases hc : c = ']'
    · subst hc
      have hsub : '[' ∉ rest := by
        intro hm
        apply h
        have h1 : '[' ∈ s.data.reverse.dropWhile isPyWs := by
          rw [hdw]; exact List.mem_cons_of_mem _ hm
        have h2 := (List.dropWhile_sublist (p := isPyWs) (l := s.data.reverse)).mem h1
        simpa using h2
      simp [scanBracketBack_none hsub]
    · simp [hc]

/-- Flatten of a non-container value is its singleton. -/
theorem flattenJ_scalar {v : Val} (h : isScalar v = true) : flattenJ v = [v] := by
  cases v <;> simp [isScalar] at h ⊢ <;> simp [flattenJ]

/-- Setting then getting along a bracket-free dict path that reaches a
scalar: the set succeeds, preserves JSON-purity, and the get recursion at
the same keys returns exactly the assigned value. -/
theorem setRec_getRec_navDicts :
    ∀ (ks : List String) (obj w v : Val), (∀ k ∈ ks, '[' ∉ k.data) → ks ≠ [] →
    navDicts obj ks = some w → isScalar w = true → jsonPure obj = true →
    jsonPure v = true →
    ∃ obj', setRec obj ks v = .ok obj' ∧ jsonPure obj' = true ∧
      getRec obj' ks = .ok v := by
  intro ks
  induction ks with
  | nil => intro obj w v _ hne; exact absurd rfl hne
  | cons k rest ih =>
    intro obj w v hnb _ hnav hsc hpure hvpure
    match obj, hnav with
    | .vdict d, hnav =>
      have hk : '[' ∉ k.data := hnb k (List.mem_cons_self k rest)
      have hpd : jsonPureD d = true := by simpa [jsonPure] using hpure
      cases hlook : dLookup d k with
      | none => rw [navDicts, hlook] at hnav; exact absurd hnav (by simp)
      | some w1 =>
        rw [navDicts, hlook] at hnav
        have hw1p : jsonPure w1 = true := dLookup_jsonPure hpd hlook
        cases rest with
        | nil =>
          simp only [navDicts, Option.some.injEq] at hnav
          subst hnav
          refine ⟨.vdict (dUpdate d k v), ?_, ?_, ?_⟩
          · simp [setRec, findBracket_none hk, jsonRT, hvpure]
          · simpa [jsonPure] using dUpdate_jsonPure hpd hvpure
          · simp [getRec, findBracket_none hk, dGetD_dUpdate]
        | cons k2 rest' =>
          obtain ⟨w1', hset, hp', hget⟩ :=
            ih w1 w v (fun k' hk' => hnb k' (List.mem_cons_of_mem _ hk'))
              (by simp) hnav hsc hw1p hvpure
          refine ⟨.vdict (dUpdate d k w1'), ?_, ?_, ?_⟩
          · simp [setRec, findBracket_none hk, hlook, hset]
          · simpa [jsonPure] using dUpdate_jsonPure hpd hp'
          · simp [getRec, findBracket_none hk, dGetD_dUpdate, hget]

/-- C1 (counterexample): on `{"x": 1}` the specifier `"x"` addresses a single
scalar and `5` is a compatible (scalar) value, yet
`get_dot_notation(set_dot_notation(obj, "x", 5), "x")` returns the wrapped
list `[5]`, not `5`; and the `$val`-terminated form of the same location
cannot be used for both sides because `set_dot_notation("x.$val")` raises a
`DotNotationError`. -/
theorem claim_C1_counterexample :
    navDicts (.vdict [("x", .vint 1)]) ["x"] = some (.vint 1) ∧
    isScalar (.vint 1) = true ∧ isScalar (.vint 5) = true ∧
    set_dot_path (.vdict [("x", .vint 1)]) "x" (.vint 5) =
      .ok (.vdict [("x", .vint 5)]) ∧
    get_dot_path (.vdict [("x", .vint 5)]) "x" = .ok (.vlist [.vint 5]) ∧
    get_dot_path (.vdict [("x", .vint 5)]) "x" ≠ .ok (.vint 5) ∧
    set_dot_path (.vdict [("x", .vint 1)]) "x.$val" (.vint 5) = .error .dotNt := by
  refine ⟨rfl, rfl, rfl, ?_, ?_, ?_, ?_⟩
  · simp [set_dot_path, jsonRT, jsonPure, jsonPureL, jsonPureD, specKeys, splitDotsAux,
      unescapeDots, setRec, findBracket, scanBracketBack, isSetBracketChar, isPyWs,
      pyStrip, pyStripChars, dUpdate, dLookup]
  · simp [get_dot_path, jsonRT, jsonPure, jsonPureL, jsonPureD, specKeys, splitDotsAux,
      unescapeDots, getRec, findBracket, scanBracketBack, isGetBracketChar, isPyWs,
      pyStrip, pyStripChars, flattenJ, flattenL, dGetD, dLookup]
  · simp [get_dot_path, jsonRT, jsonPure, jsonPureL, jsonPureD, specKeys, splitDotsAux,
      unescapeDots, getRec, findBracket, scanBracketBack, isGetBracketChar, isPyWs,
      pyStrip, pyStripChars, flattenJ, flattenL, dGetD, dLookup]
  · simp [set_dot_path, jsonRT, jsonPure, jsonPureL, jsonPureD, specKeys, splitDotsAux,
      unescapeDots, setRec, findBracket, scanBracketBack, isSetBracketChar, isPyWs,
      pyStrip, pyStripChars, dUpdate, dLookup]

/-- C1 (amended): for a bracket-free specifier whose keys navigate dicts in
`obj` to a scalar location, and a scalar JSON-serializable value `v`,
`set_dot_notation` succeeds and `get_dot_notation` at the same specifier
returns the singleton `[v]`; the bare value `v` itself is returned when
`.$val` is appended to the specifier used for the get (the set side must use
the specifier without `$val`). -/
theorem claim_C1_roundtrip (obj v : Val) (p p' : String) (ks : List String)
    (hkeys : specKeys p = ks)
    (hkeys' : specKeys p' = ks ++ ["$val"])
    (hnb : ∀ k ∈ ks, '[' ∉ k.data)
    (hlast : ks.getLast? ≠ some "$val")
    (hne : ks ≠ [])
    (hpne : p.data ≠ [])
    (hnav : ∃ w, navDicts obj ks = some w ∧ isScalar w = true)
    (hpure : jsonPure obj = true) (hvpure : jsonPure v = true)
    (hvs : isScalar v = true) :
    ∃ obj', set_dot_path obj p v = .ok obj' ∧
      get_dot_path obj' p = .ok (.vlist [v]) ∧
      get_dot_path obj' p' = .ok v := by
  obtain ⟨w, hnavs, hsc⟩ := hnav
  obtain ⟨obj', hset, hp', hget⟩ :=
    setRec_getRec_navDicts ks obj w v hnb hne hnavs hsc hpure hvpure
  have hlen : ¬ ks.length < 1 := by
    cases ks with
    | nil => exact absurd rfl hne
    | cons a l => simp
  refine ⟨obj', ?_, ?_, ?_⟩
  · simp only [set_dot_path, jsonRT, hpure, if_true, hkeys]
    exact hset
  · simp only [get_dot_path, jsonRT, hp', if_true, hkeys]
    rw [if_neg (fun hc => hpne (List.length_eq_zero.mp hc))]
    simp only [if_neg hlast, if_neg hlen, hget, flattenJ_scalar hvs]
  · have hplen : p'.data ≠ [] := by
      intro hp0
      have hsk : specKeys p' = [""] := by
        unfold specKeys
        rw [hp0]
        rfl
      rw [hkeys'] at hsk
      have hgl := congrArg List.getLast? hsk
      rw [List.getLast?_concat] at hgl
      simp at hgl
    have hlast' : (ks ++ ["$val"]).getLast? = some "$val" := List.getLast?_concat _
    simp only [get_dot_path, jsonRT, hp', if_true, hkeys']
    rw [if_neg (fun hc => hplen (List.length_eq_zero.mp hc))]
    simp only [if_pos hlast', List.dropLast_concat, if_neg hlen, hget,
      flattenJ_scalar hvs]

/-- C1 (witness for the amended theorem). -/
theorem claim_C1_roundtrip_witness :
    ∃ obj', set_dot_path (.vdict [("x", .vint 1)]) "x" (.vint 7) = .ok obj' ∧
      get_dot_path obj' "x" = .ok (.vlist [.vint 7]) ∧
      get_dot_path obj' "x.$val" = .ok (.vint 7) :=
  claim_C1_roundtrip (.vdict [("x", .vint 1)]) (.vint 7) "x" "x.$val" ["x"]
    rfl rfl (by decide) (by decide) (by decide) (by decide)
    ⟨.vint 1, rfl, rfl⟩ (by simp [jsonPure, jsonPureD, jsonPureL]) rfl rfl

/-- C3: the three S4 path-engine evaluations: a slice returns the selected
sub-sequence, a dot descent through a list of dicts list-lifts, and a
`$val`-terminated single-element access unwraps the scalar. -/
theorem claim_C3_scenarioS4 :
    get_dot_path (.vdict [("x", .vlist [.vint 10, .vint 20, .vint 30, .vint 40])])
      "x[1:3]" = .ok (.vlist [.vint 20, .vint 30]) ∧
    get_dot_path (.vdict [("x", .vlist [.vdict [("k", .vint 1)],
      .vdict [("k", .vint 2)]])]) "x.k" = .ok (.vlist [.vint 1, .vint 2]) ∧
    get_dot_path (.vdict [("x", .vlist [.vint 10, .vint 20, .vint 30])])
      "x[0].$val" = .ok (.vint 10) := by
  refine ⟨?_, ?_, ?_⟩ <;>
    simp [get_dot_path, jsonRT, jsonPure, jsonPureL, jsonPureD, specKeys, splitDotsAux,
      unescapeDots, getRec, findBracket, scanBracketBack, isGetBracketChar, isPyWs,
      pyStrip, pyStripChars, splitCommaStrip, splitCharAux, getSubRec, matchIndex1,
      matchIndex2, matchIndex3, optIntParse, digitsToNat, pyIndex, pySlice,
      pySliceStartStop, pyAdjustIdx, flattenJ, flattenL, dGetD, dLookup, mapExc,
      getBracketAll]

/-- C10: `parse(T, None)` returns `None` for every scalar type and raises
`ParseError` for every list type, and `implicit_parse` passes `None` through
unchanged for every scalar target. -/
theorem claim_C10_none_handling :
    parseAs "Boolean" .vnone = .ok .vnone ∧
    parseAs "Numeric" .vnone = .ok .vnone ∧
    parseAs "String" .vnone = .ok .vnone ∧
    parseAs "DateTime" .vnone = .ok .vnone ∧
    parseAs "Dict" .vnone = .ok .vnone ∧
    parseAs "BooleanList" .vnone = .error .parse ∧
    parseAs "NumericList" .vnone = .error .parse ∧
    parseAs "StringList" .vnone = .error .parse ∧
    parseAs "DateTimeList" .vnone = .error .parse ∧
    parseAs "DictList" .vnone = .error .parse ∧
    implicit_parse .vnone "Boolean" = .ok .vnone ∧
    implicit_parse .vnone "Numeric" = .ok .vnone ∧
    implicit_parse .vnone "String" = .ok .vnone ∧
    implicit_parse .vnone "DateTime" = .ok .vnone ∧
    implicit_parse .vnone "Dict" = .ok .vnone := by
  refine ⟨rfl, rfl, rfl, rfl, rfl, rfl, rfl, rfl, rfl, rfl, rfl, rfl, rfl, rfl, rfl⟩

/-- Both normalized bounds of a unit-step slice are at most the length. -/
theorem pySliceStartStop_le (n : Nat) (oa ob : Option Int) :
    (pySliceStartStop n oa ob).1 ≤ n ∧ (pySliceStartStop n oa ob).2 ≤ n := by
  unfold pySliceStartStop pyAdjustIdx
  constructor
  · cases oa with
    | none => simp
    | some i => simp only; split <;> omega
  · cases ob with
    | none => simp
    | some i => simp only; split <;> omega

/-- Length of a unit-step splice. -/
theorem spliceAt_length (l : List Val) (a b : Nat) (v : List Val)
    (ha : a ≤ l.length) :
    (spliceAt l a b v).length = a + v.length + (l.length - max a b) := by
  simp [spliceAt]
  omega

/-- Characterization of broadcasting a scalar over the covered slots of a
unit-step slice: the length is unchanged, every covered slot holds the
value, every other slot is untouched. -/
theorem spliceAt_replicate_spec (l : List Val) (a b : Nat) (v : Val)
    (ha : a ≤ l.length) (hb : b ≤ l.length) :
    (spliceAt l a b (List.replicate (b - a) v)).length = l.length ∧
    ∀ i : Nat,
      (a ≤ i → i < b → (spliceAt l a b (List.replicate (b - a) v))[i]? = some v) ∧
      ((i < a ∨ b ≤ i) → (spliceAt l a b (List.replicate (b - a) v))[i]? = l[i]?) := by
  constructor
  · rw [spliceAt_length l a b _ ha]
    simp
    omega
  · intro i
    have htl : (l.take a).length = a := by simp [ha]
    constructor
    · intro hai hib
      rw [spliceAt, List.append_assoc,
        List.getElem?_append_right (by omega : (l.take a).length ≤ i)]
      rw [htl, List.getElem?_append_left
        (by simp only [List.length_replicate]; omega)]
      simp only [List.getElem?_replicate]
      rw [if_pos (by omega)]
    · intro hout
      rcases hout with hia | hbi
      · rw [spliceAt, List.append_assoc,
          List.getElem?_append_left (by omega : i < (l.take a).length)]
        rw [List.getElem?_take]
        simp [hia]
      · by_cases hab : a ≤ b
        · rw [spliceAt, List.append_assoc,
            List.getElem?_append_right (by omega : (l.take a).length ≤ i)]
          rw [htl, List.getElem?_append_right
            (by simp only [List.length_replicate]; omega)]
          rw [List.length_replicate, List.getElem?_drop]
          have hmx : max a b = b := by omega
          rw [hmx]
          congr 1
          omega
        · have hrep : b - a = 0 := by omega
          have hmx : max a b = a := by omega
          rw [spliceAt, hrep, hmx]
          simp only [List.replicate_zero, List.nil_append, List.append_nil,
            List.take_append_drop]

/-- Every index generated by an ascending slice walk lies in `[a, b)`. -/
theorem mem_upIdxs {a b c i : Int} (h : i ∈ upIdxs a b c) : a ≤ i ∧ i < b := by
  induction a, b, c using upIdxs.induct with
  | case1 a b c hc ih =>
    rw [upIdxs, dif_pos hc] at h
    rcases List.mem_cons.mp h with h1 | h2
    · omega
    · have := ih h2
      omega
  | case2 a b c hc =>
    rw [upIdxs, dif_neg hc] at h
    simp at h

/-- Every index generated by a descending slice walk lies in `(b, a]`. -/
theorem mem_downIdxs {a b c i : Int} (h : i ∈ downIdxs a b c) : b < i ∧ i ≤ a := by
  induction a, b, c using downIdxs.induct with
  | case1 a b c hc ih =>
    rw [downIdxs, dif_pos hc] at h
    rcases List.mem_cons.mp h with h1 | h2
    · omega
    · have := ih h2
      omega
  | case2 a b c hc =>
    rw [downIdxs, dif_neg hc] at h
    simp at h

/-- An ascending unit-step walk enumerates exactly `b - a` indices. -/
theorem upIdxs_length_one (a b : Int) : (upIdxs a b 1).length = (b - a).toNat := by
  by_cases h : a < b
  · rw [upIdxs, dif_pos ⟨by norm_num, h⟩, List.length_cons,
      upIdxs_length_one (a + 1) b]
    omega
  · rw [upIdxs, dif_neg (by omega)]
    simp
    omega
termination_by (b - a).toNat
decreasing_by omega

/-- Reading a list of indices yields as many elements as indices. -/
theorem readIdxs_length {l : List Val} {idxs : List Int} {cov : List Val}
    (h : readIdxs l idxs = .ok cov) : cov.length = idxs.length := by
  induction idxs generalizing cov with
  | nil =>
    simp only [readIdxs, Except.ok.injEq] at h
    subst h
    rfl
  | cons i rest ih =>
    rw [readIdxs] at h
    cases hg : l.get? i.toNat with
    | none => rw [hg] at h; exact absurd h (by simp)
    | some x =>
      rw [hg] at h
      cases hr : readIdxs l rest with
      | error e => rw [hr] at h; exact absurd h (by simp)
      | ok xs =>
        rw [hr] at h
        simp only [Except.ok.injEq] at h
        subst h
        simp [ih hr]

/-- Reading in-range indices succeeds. -/
theorem readIdxs_ok {l : List Val} {idxs : List Int}
    (h : ∀ i ∈ idxs, i.toNat < l.length) : ∃ cov, readIdxs l idxs = .ok cov := by
  induction idxs with
  | nil => exact ⟨[], rfl⟩
  | cons i rest ih =>
    obtain ⟨cov, hcov⟩ := ih (fun j hj => h j (List.mem_cons_of_mem _ hj))
    have hi : i.toNat < l.length := h i (List.mem_cons_self i rest)
    obtain ⟨x, hx⟩ : ∃ x, l.get? i.toNat = some x := by
      rw [List.get?_eq_getElem?]
      exact ⟨l[i.toNat], List.getElem?_eq_getElem hi⟩
    exact ⟨x :: cov, by rw [readIdxs, hx, hcov]⟩

/-- Positional writes keep the length. -/
theorem writeIdxs_length (l : List Val) (idxs : List Int) (vs : List Val) :
    (writeIdxs l idxs vs).length = l.length := by
  induction idxs generalizing l vs with
  | nil => simp [writeIdxs]
  | cons i rest ih =>
    cases vs with
    | nil => simp [writeIdxs]
    | cons v vrest => simp [writeIdxs, ih]

/-- Setting an in-range position makes `getElem?` return the new value. -/
theorem getElem?_set_self_of_lt (l : List Val) (i : Nat) (a : Val)
    (h : i < l.length) : (l.set i a)[i]? = some a := by
  rw [List.getElem?_set_self']
  simp [List.getElem?_eq_getElem h]

/-- Positional broadcast of one scalar at a list of in-range indices: every
targeted slot holds the scalar, every other slot is untouched. -/
theorem writeIdxs_replicate_spec (v : Val) :
    ∀ (idxs : List Int) (l : List Val),
      (∀ j ∈ idxs, 0 ≤ j ∧ j.toNat < l.length) →
      (∀ i : Nat, (∃ j ∈ idxs, j.toNat = i) →
        (writeIdxs l idxs (List.replicate idxs.length v))[i]? = some v) ∧
      (∀ i : Nat, (∀ j ∈ idxs, j.toNat ≠ i) →
        (writeIdxs l idxs (List.replicate idxs.length v))[i]? = l[i]?) := by
  intro idxs
  induction idxs with
  | nil =>
    intro l _
    refine ⟨?_, ?_⟩
    · rintro i ⟨j, hj, -⟩
      exact absurd hj (List.not_mem_nil j)
    · intro i _
      rfl
  | cons j0 rest ih =>
    intro l hb
    have hb' : ∀ j ∈ rest, 0 ≤ j ∧ j.toNat < (l.set j0.toNat v).length := by
      intro j hj
      have := hb j (List.mem_cons_of_mem _ hj)
      simpa using this
    obtain ⟨ihc, ihu⟩ := ih (l.set j0.toNat v) hb'
    have hstep :
        writeIdxs l (j0 :: rest) (List.replicate (j0 :: rest).length v) =
        writeIdxs (l.set j0.toNat v) rest (List.replicate rest.length v) := rfl
    refine ⟨?_, ?_⟩
    · intro i hcov
      rw [hstep]
      by_cases hrest : ∃ j ∈ rest, j.toNat = i
      · exact ihc i hrest
      · have hji : j0.toNat = i := by
          obtain ⟨j, hj, hjeq⟩ := hcov
          rcases List.mem_cons.mp hj with heq | hjr
          · exact heq ▸ hjeq
          · exact absurd ⟨j, hjr, hjeq⟩ hrest
        push_neg at hrest
        rw [ihu i hrest]
        subst hji
        exact getElem?_set_self_of_lt l j0.toNat v
          (hb j0 (List.mem_cons_self _ _)).2
    · intro i hunc
      rw [hstep]
      have hrest : ∀ j ∈ rest, j.toNat ≠ i :=
        fun j hj => hunc j (List.mem_cons_of_mem _ hj)
      rw [ihu i hrest]
      exact List.getElem?_set_ne (hunc j0 (List.mem_cons_self _ _))

/-- A unit ascending walk hits every integer of `[a, b)` (fuel form). -/
theorem upIdxs_one_mem :
    ∀ (N : Nat) (a b j : Int), (b - a).toNat ≤ N →
      a ≤ j → j < b → j ∈ upIdxs a b 1 := by
  intro N
  induction N with
  | zero =>
    intro a b j h h1 h2
    omega
  | succ N ih =>
    intro a b j h h1 h2
    rw [upIdxs, dif_pos (⟨by omega, by omega⟩ : (0 : Int) < 1 ∧ a < b)]
    by_cases hj : j = a
    · subst hj
      exact List.mem_cons_self _ _
    · exact List.mem_cons_of_mem _ (ih (a + 1) b j (by omega) (by omega) h2)

/-- Positive-step `slice.indices` bounds stay in `[0, n]`. -/
theorem pyAdjustIdx_pos_bounds (n : Nat) (dflt : Int) (o : Option Int)
    (h0 : 0 ≤ dflt) (hn : dflt ≤ (n : Int)) :
    0 ≤ pyAdjustIdx n true dflt o ∧ pyAdjustIdx n true dflt o ≤ (n : Int) := by
  unfold pyAdjustIdx
  cases o with
  | none => exact ⟨h0, hn⟩
  | some i =>
    dsimp only
    rw [if_pos rfl]
    constructor <;> (split <;> omega)

/-- Negative-step `slice.indices` bounds stay in `[-1, n-1]`. -/
theorem pyAdjustIdx_neg_bounds (n : Nat) (dflt : Int) (o : Option Int)
    (h0 : -1 ≤ dflt) (hn : dflt ≤ (n : Int) - 1) :
    -1 ≤ pyAdjustIdx n false dflt o ∧ pyAdjustIdx n false dflt o ≤ (n : Int) - 1 := by
  unfold pyAdjustIdx
  cases o with
  | none => exact ⟨h0, hn⟩
  | some i =>
    dsimp only
    rw [if_neg (by simp)]
    constructor <;> (split <;> omega)

/-- Length of a unit-step slice read. -/
theorem pySlice_length (l : List Val) (oa ob : Option Int) :
    (pySlice l oa ob).length =
      (pySliceStartStop l.length oa ob).2 - (pySliceStartStop l.length oa ob).1 := by
  obtain ⟨ha, hb⟩ := pySliceStartStop_le l.length oa ob
  simp only [pySlice]
  simp
  omega

/-- Broadcasting a scalar over an explicit-step slice: the read succeeds, the
assignment of the replicated value succeeds, and the length is unchanged. -/
theorem extScalarAssign_length (l : List Val) (oa ob : Option Int) (c : Int)
    (v : Val) (hc : c ≠ 0) :
    ∃ covered l', pyExtSliceRead l oa ob c = .ok covered ∧
      pyExtSliceAssign l oa ob c (List.replicate covered.length v) = .ok l' ∧
      l'.length = l.length := by
  by_cases hpos : 0 < c
  · obtain ⟨ha0, han⟩ := pyAdjustIdx_pos_bounds l.length 0 oa (by omega) (by omega)
    obtain ⟨hb0, hbn⟩ :=
      pyAdjustIdx_pos_bounds l.length (l.length : Int) ob (by omega) (by omega)
    set a' := pyAdjustIdx l.length true 0 oa with hadef
    set b' := pyAdjustIdx l.length true (l.length : Int) ob with hbdef
    have hstep : pyStepIndices l.length oa ob c = .ok (upIdxs a' b' c) := by
      unfold pyStepIndices
      rw [if_neg hc, if_pos hpos]
    obtain ⟨cov, hcov⟩ : ∃ cov, readIdxs l (upIdxs a' b' c) = .ok cov :=
      readIdxs_ok (fun i hi => by
        have := mem_upIdxs hi
        omega)
    have hread : pyExtSliceRead l oa ob c = .ok cov := by
      unfold pyExtSliceRead
      rw [hstep]
      exact hcov
    have hcovlen := readIdxs_length hcov
    by_cases h1 : c = 1
    · subst h1
      refine ⟨cov, spliceAt l a'.toNat b'.toNat (List.replicate cov.length v),
        hread, ?_, ?_⟩
      · unfold pyExtSliceAssign
        rw [if_neg hc, if_pos rfl]
      · rw [spliceAt_length _ _ _ _ (by omega)]
        rw [List.length_replicate, hcovlen, upIdxs_length_one]
        omega
    · refine ⟨cov, writeIdxs l (upIdxs a' b' c) (List.replicate cov.length v),
        hread, ?_, ?_⟩
      · unfold pyExtSliceAssign
        rw [if_neg hc, if_neg h1, hstep]
        simp [hcovlen]
      · rw [writeIdxs_length]
  · have hneg : c < 0 := by omega
    obtain ⟨ha0, han⟩ :=
      pyAdjustIdx_neg_bounds l.length ((l.length : Int) - 1) oa (by omega) (by omega)
    obtain ⟨hb0, hbn⟩ := pyAdjustIdx_neg_bounds l.length (-1) ob (by omega) (by omega)
    set a' := pyAdjustIdx l.length false ((l.length : Int) - 1) oa with hadef
    set b' := pyAdjustIdx l.length false (-1) ob with hbdef
    have hstep : pyStepIndices l.length oa ob c = .ok (downIdxs a' b' c) := by
      unfold pyStepIndices
      rw [if_neg hc, if_neg (by omega)]
    obtain ⟨cov, hcov⟩ : ∃ cov, readIdxs l (downIdxs a' b' c) = .ok cov :=
      readIdxs_ok (fun i hi => by
        have := mem_downIdxs hi
        omega)
    have hread : pyExtSliceRead l oa ob c = .ok cov := by
      unfold pyExtSliceRead
      rw [hstep]
      exact hcov
    have hcovlen := readIdxs_length hcov
    refine ⟨cov, writeIdxs l (downIdxs a' b' c) (List.replicate cov.length v),
      hread, ?_, ?_⟩
    · unfold pyExtSliceAssign
      rw [if_neg hc, if_neg (by omega), hstep]
      simp [hcovlen]
    · rw [writeIdxs_length]

/-- Broadcasting a scalar over an explicit-step slice, sharpened: the read
succeeds, the assignment of the replicated scalar succeeds, the length is
unchanged, every covered (stepped) slot holds the scalar, and every other
slot is untouched. -/
theorem extScalarAssign_spec (l : List Val) (oa ob : Option Int) (c : Int)
    (v : Val) (hc : c ≠ 0) :
    ∃ idxs covered l', pyStepIndices l.length oa ob c = .ok idxs ∧
      pyExtSliceRead l oa ob c = .ok covered ∧
      pyExtSliceAssign l oa ob c (List.replicate covered.length v) = .ok l' ∧
      l'.length = l.length ∧
      (∀ i : Nat, (∃ j ∈ idxs, j.toNat = i) → l'[i]? = some v) ∧
      (∀ i : Nat, (∀ j ∈ idxs, j.toNat ≠ i) → l'[i]? = l[i]?) := by
  by_cases hpos : 0 < c
  · obtain ⟨ha0, han⟩ := pyAdjustIdx_pos_bounds l.length 0 oa (by omega) (by omega)
    obtain ⟨hb0, hbn⟩ :=
      pyAdjustIdx_pos_bounds l.length (l.length : Int) ob (by omega) (by omega)
    set a' := pyAdjustIdx l.length true 0 oa with hadef
    set b' := pyAdjustIdx l.length true (l.length : Int) ob with hbdef
    have hstep : pyStepIndices l.length oa ob c = .ok (upIdxs a' b' c) := by
      unfold pyStepIndices
      rw [if_neg hc, if_pos hpos]
    obtain ⟨cov, hcov⟩ : ∃ cov, readIdxs l (upIdxs a' b' c) = .ok cov :=
      readIdxs_ok (fun i hi => by
        have := mem_upIdxs hi
        omega)
    have hread : pyExtSliceRead l oa ob c = .ok cov := by
      unfold pyExtSliceRead
      rw [hstep]
      exact hcov
    have hcovlen := readIdxs_length hcov
    by_cases h1 : c = 1
    · subst h1
      have hre : cov.length = b'.toNat - a'.toNat := by
        rw [hcovlen, upIdxs_length_one]
        omega
      obtain ⟨hlen, hslots⟩ := spliceAt_replicate_spec l a'.toNat b'.toNat v
        (by omega) (by omega)
      refine ⟨upIdxs a' b' 1, cov,
        spliceAt l a'.toNat b'.toNat (List.replicate (b'.toNat - a'.toNat) v),
        hstep, hread, ?_, hlen, ?_, ?_⟩
      · unfold pyExtSliceAssign
        rw [if_neg hc, if_pos rfl, hre]
      · rintro i ⟨j, hj, hji⟩
        obtain ⟨hja, hjb⟩ := mem_upIdxs hj
        exact (hslots i).1 (by omega) (by omega)
      · intro i hunc
        refine (hslots i).2 ?_
        by_contra hin
        push_neg at hin
        obtain ⟨hia, hib⟩ := hin
        refine hunc (i : Int) ?_ (by omega)
        exact upIdxs_one_mem (b' - a').toNat a' b' (i : Int) (le_refl _)
          (by omega) (by omega)
    · refine ⟨upIdxs a' b' c, cov,
        writeIdxs l (upIdxs a' b' c) (List.replicate (upIdxs a' b' c).length v),
        hstep, hread, ?_, by rw [writeIdxs_length], ?_, ?_⟩
      · unfold pyExtSliceAssign
        rw [if_neg hc, if_neg h1, hstep]
        simp [hcovlen]
      · exact (writeIdxs_replicate_spec v (upIdxs a' b' c) l (fun j hj => by
          have := mem_upIdxs hj
          omega)).1
      · exact (writeIdxs_replicate_spec v (upIdxs a' b' c) l (fun j hj => by
          have := mem_upIdxs hj
          omega)).2
  · have hneg : c < 0 := by omega
    obtain ⟨ha0, han⟩ :=
      pyAdjustIdx_neg_bounds l.length ((l.length : Int) - 1) oa (by omega) (by omega)
    obtain ⟨hb0, hbn⟩ := pyAdjustIdx_neg_bounds l.length (-1) ob (by omega) (by omega)
    set a' := pyAdjustIdx l.length false ((l.length : Int) - 1) oa with hadef
    set b' := pyAdjustIdx l.length false (-1) ob with hbdef
    have hstep : pyStepIndices l.length oa ob c = .ok (downIdxs a' b' c) := by
      unfold pyStepIndices
      rw [if_neg hc, if_neg (by omega)]
    obtain ⟨cov, hcov⟩ : ∃ cov, readIdxs l (downIdxs a' b' c) = .ok cov :=
      readIdxs_ok (fun i hi => by
        have := mem_downIdxs hi
        omega)
    have hread : pyExtSliceRead l oa ob c = .ok cov := by
      unfold pyExtSliceRead
      rw [hstep]
      exact hcov
    have hcovlen := readIdxs_length hcov
    refine ⟨downIdxs a' b' c, cov,
      writeIdxs l (downIdxs a' b' c) (List.replicate (downIdxs a' b' c).length v),
      hstep, hread, ?_, by rw [writeIdxs_length], ?_, ?_⟩
    · unfold pyExtSliceAssign
      rw [if_neg hc, if_neg (by omega), hstep]
      simp [hcovlen]
    · exact (writeIdxs_replicate_spec v (downIdxs a' b' c) l (fun j hj => by
        have := mem_downIdxs hj
        omega)).1
    · exact (writeIdxs_replicate_spec v (downIdxs a' b' c) l (fun j hj => by
        have := mem_downIdxs hj
        omega)).2

/-- C4 (original, refuted): assigning the one-element list `[9]` to the slice
`x[1:3]` of `[1,2,3,4]` does not assign the covered slots element-wise; it is
a Python splice that shrinks the list from length 4 to length 3. -/
theorem claim_C4_counterexample :
    set_dot_path (.vdict [("x", .vlist [.vint 1, .vint 2, .vint 3, .vint 4])])
        "x[1:3]" (.vlist [.vint 9]) =
      .ok (.vdict [("x", .vlist [.vint 1, .vint 9, .vint 4])]) ∧
    [Val.vint 1, .vint 9, .vint 4].length ≠
      [Val.vint 1, .vint 2, .vint 3, .vint 4].length := by
  constructor
  · simp [set_dot_path, jsonRT, jsonPure, jsonPureL, jsonPureD, specKeys, splitDotsAux,
      unescapeDots, setRec, setSub, findBracket, scanBracketBack, isSetBracketChar, isPyWs,
      pyStrip, pyStripChars, dUpdate, dLookup, dGetD, matchIndex1, matchIndex2,
      optIntParse, digitsToNat, pySpliceAssign, pySliceStartStop, pyAdjustIdx,
      spliceAt, pySlice]
  · decide

/-- C4 (amended): for a `set_dot_notation` call whose final segment is a slice
subscription over a list: a unit-step slice assigned a list value is a Python
splice assignment — the slice is removed and the value's elements are inserted
in its place, so the length becomes `start + len(value) + (n - stop)` and may
change; a unit-step slice assigned a scalar broadcasts a copy of the scalar
into every covered slot, leaving every other slot and the length unchanged;
an explicit-step slice assigned a scalar broadcasts the scalar over exactly
the stepped index sequence — every stepped slot holds the scalar, every
other slot is untouched — and leaves the length unchanged. -/
theorem claim_C4 (l : List Val) (seg content : String) (v : Val)
    (hm1 : matchIndex1 (pyStrip content) = none) :
    (∀ oa ob vl, matchIndex2 (pyStrip content) = some (oa, ob) →
      setSub (.vlist l) [seg] content (.vlist vl) =
        .ok (.vlist (pySpliceAssign l oa ob vl)) ∧
      (pySpliceAssign l oa ob vl).length =
        (pySliceStartStop l.length oa ob).1 + vl.length +
          (l.length - max (pySliceStartStop l.length oa ob).1
            (pySliceStartStop l.length oa ob).2)) ∧
    (∀ oa ob, matchIndex2 (pyStrip content) = some (oa, ob) →
      (∀ vl, v ≠ .vlist vl) → jsonRT v = .ok v →
      ∃ l', setSub (.vlist l) [seg] content v = .ok (.vlist l') ∧
        l'.length = l.length ∧
        (∀ i : Nat, (pySliceStartStop l.length oa ob).1 ≤ i →
          i < (pySliceStartStop l.length oa ob).2 → l'[i]? = some v) ∧
        (∀ i : Nat, i < (pySliceStartStop l.length oa ob).1 ∨
          (pySliceStartStop l.length oa ob).2 ≤ i → l'[i]? = l[i]?)) ∧
    (∀ oa ob oc, matchIndex2 (pyStrip content) = none →
      matchIndex3 (pyStrip content) = some (oa, ob, oc) →
      oc.getD 1 ≠ 0 →
      (∀ vl, v ≠ .vlist vl) → jsonRT v = .ok v →
      ∃ idxs l', pyStepIndices l.length oa ob (oc.getD 1) = .ok idxs ∧
        setSub (.vlist l) [seg] content v = .ok (.vlist l') ∧
        l'.length = l.length ∧
        (∀ i : Nat, (∃ j ∈ idxs, j.toNat = i) → l'[i]? = some v) ∧
        (∀ i : Nat, (∀ j ∈ idxs, j.toNat ≠ i) → l'[i]? = l[i]?)) := by
  have hlen1 : ¬ 1 < ([seg] : List String).length := by simp
  refine ⟨?_, ?_, ?_⟩
  · intro oa ob vl hm2
    obtain ⟨ha, hb⟩ := pySliceStartStop_le l.length oa ob
    constructor
    · simp only [setSub, hm1, hm2]
      rw [dif_neg hlen1]
    · have heq : pySpliceAssign l oa ob vl =
          spliceAt l (pySliceStartStop l.length oa ob).1
            (pySliceStartStop l.length oa ob).2 vl := rfl
      rw [heq, spliceAt_length _ _ _ _ ha]
  · intro oa ob hm2 hv hvrt
    obtain ⟨ha, hb⟩ := pySliceStartStop_le l.length oa ob
    refine ⟨spliceAt l (pySliceStartStop l.length oa ob).1
        (pySliceStartStop l.length oa ob).2
        (List.replicate ((pySliceStartStop l.length oa ob).2 -
          (pySliceStartStop l.length oa ob).1) v), ?_, ?_⟩
    · have heq : pySpliceAssign l oa ob
            (List.replicate (pySlice l oa ob).length v) =
          spliceAt l (pySliceStartStop l.length oa ob).1
            (pySliceStartStop l.length oa ob).2
            (List.replicate ((pySliceStartStop l.length oa ob).2 -
              (pySliceStartStop l.length oa ob).1) v) := by
        rw [pySlice_length]
        rfl
      rw [← heq]
      simp only [setSub, hm1, hm2]
      rw [dif_neg hlen1]
      cases v with
      | vlist vl => exact absurd rfl (hv vl)
      | vnone => simp only [hvrt]
      | vbool b => simp only [hvrt]
      | vint n => simp only [hvrt]
      | vfloat q => simp only [hvrt]
      | vstr s => simp only [hvrt]
      | vdt t => simp only [hvrt]
      | vdict d => simp only [hvrt]
    · obtain ⟨hl, hslots⟩ := spliceAt_replicate_spec l
        (pySliceStartStop l.length oa ob).1 (pySliceStartStop l.length oa ob).2 v ha hb
      exact ⟨hl, fun i hle hlt => (hslots i).1 hle hlt,
        fun i hio => (hslots i).2 hio⟩
  · intro oa ob oc hm2n hm3 hc hv hvrt
    obtain ⟨idxs, covered, l', hstep, hread, hassign, hlenok, hcovspec, huncspec⟩ :=
      extScalarAssign_spec l oa ob (oc.getD 1) v hc
    refine ⟨idxs, l', hstep, ?_, hlenok, hcovspec, huncspec⟩
    simp only [setSub, hm1, hm2n, hm3]
    rw [dif_neg hlen1]
    cases v with
    | vlist vl => exact absurd rfl (hv vl)
    | vnone => simp only [hvrt, hread, hassign]
    | vbool b => simp only [hvrt, hread, hassign]
    | vint n => simp only [hvrt, hread, hassign]
    | vfloat q => simp only [hvrt, hread, hassign]
    | vstr s => simp only [hvrt, hread, hassign]
    | vdt t => simp only [hvrt, hread, hassign]
    | vdict d => simp only [hvrt, hread, hassign]

/-- C4 witness: broadcasting the scalar `9` over the unit slice `[1:3]` of
`[1,2,3,4]` keeps the length and writes `9` exactly into slots 1 and 2, and
over the stepped slice `[0:4:2]` writes `9` exactly into the stepped slots. -/
theorem claim_C4_witness :
    (∃ l', setSub (.vlist [.vint 1, .vint 2, .vint 3, .vint 4]) ["x[1:3]"] "1:3"
        (.vint 9) = .ok (.vlist l') ∧
      l'.length = 4 ∧
      (∀ i : Nat, 1 ≤ i → i < 3 → l'[i]? = some (.vint 9)) ∧
      (∀ i : Nat, i < 1 ∨ 3 ≤ i →
        l'[i]? = [Val.vint 1, .vint 2, .vint 3, .vint 4][i]?)) ∧
    (∃ idxs l', pyStepIndices 4 (some 0) (some 4) 2 = .ok idxs ∧
      setSub (.vlist [.vint 1, .vint 2, .vint 3, .vint 4]) ["x[0:4:2]"] "0:4:2"
        (.vint 9) = .ok (.vlist l') ∧
      l'.length = 4 ∧
      (∀ i : Nat, (∃ j ∈ idxs, j.toNat = i) → l'[i]? = some (.vint 9)) ∧
      (∀ i : Nat, (∀ j ∈ idxs, j.toNat ≠ i) →
        l'[i]? = [Val.vint 1, .vint 2, .vint 3, .vint 4][i]?)) := by
  constructor
  · obtain ⟨-, h2, -⟩ := claim_C4 [.vint 1, .vint 2, .vint 3, .vint 4] "x[1:3]" "1:3"
      (.vint 9) (by decide)
    obtain ⟨l', hset, hlen, hcov, hout⟩ := h2 (some 1) (some 3) (by decide)
      (fun vl h => by cases h) rfl
    have hss : pySliceStartStop [Val.vint 1, Val.vint 2, Val.vint 3, Val.vint 4].length
        (some 1) (some 3) = (1, 3) := by decide
    rw [hss] at hcov hout
    exact ⟨l', hset, by simpa using hlen, hcov, hout⟩
  · obtain ⟨-, -, h3⟩ := claim_C4 [.vint 1, .vint 2, .vint 3, .vint 4] "x[0:4:2]"
      "0:4:2" (.vint 9) (by decide)
    obtain ⟨idxs, l', hstep, hset, hlen, hcov, hunc⟩ := h3 (some 0) (some 4) (some 2)
      (by decide) (by decide) (by decide) (fun vl h => by cases h) rfl
    exact ⟨idxs, l', hstep, hset, hlen, hcov, hunc⟩

/-- `parse_string` never raises: every carrier shape has a string form. -/
theorem parse_string_total (v : Val) : ∃ w, parse_string v = .ok w := by
  cases v <;> exact ⟨_, rfl⟩

/-- `parse_dict` raises only `ParseError`. -/
theorem parse_dict_error (v : Val) (e : Err) (h : parse_dict v = .error e) :
    e = .parse := by
  cases v <;> simp [parse_dict] at h <;> exact h.symm

/-- `parse_boolean` raises only `ParseError`. -/
theorem parse_boolean_error (v : Val) (e : Err) (h : parse_boolean v = .error e) :
    e = .parse := by
  cases v <;> simp [parse_boolean] at h <;> exact h.symm

/-- `parse_numeric` raises only `ParseError`. -/
theorem parse_numeric_error (v : Val) (e : Err) (h : parse_numeric v = .error e) :
    e = .parse := by
  cases v <;> simp only [parse_numeric] at h <;> (try split at h) <;> simp_all

/-- `parse_datetime` raises only `ParseError`. -/
theorem parse_datetime_error (v : Val) (e : Err) (h : parse_datetime v = .error e) :
    e = .parse := by
  cases v <;> simp only [parse_datetime] at h <;> (try split at h) <;> simp_all

/-- `parse_string` raises only `ParseError` (vacuously: it never raises). -/
theorem parse_string_error (v : Val) (e : Err) (h : parse_string v = .error e) :
    e = .parse := by
  obtain ⟨w, hw⟩ := parse_string_total v
  rw [hw] at h
  cases h

/-- Errors of an element-wise map are errors of the element function. -/
theorem mapExc_error {f : Val → Except Err Val}
    (hf : ∀ x e, f x = .error e → e = Err.parse) :
    ∀ (l : List Val) (e : Err), mapExc f l = .error e → e = Err.parse := by
  intro l
  induction l with
  | nil => intro e h; simp [mapExc] at h
  | cons x xs ih =>
    intro e h
    rw [mapExc] at h
    cases hx : f x with
    | error e0 =>
      simp only [hx] at h
      cases h
      exact hf x _ hx
    | ok r =>
      simp only [hx] at h
      cases hxs : mapExc f xs with
      | ok rs => simp [hxs] at h
      | error e0 =>
        simp only [hxs] at h
        cases h
        exact ih _ hxs

/-- Every registered type parser raises only `ParseError`. -/
theorem typeParsers_error (v : Val) :
    ∀ e ∈ typeParsers, ∀ err, e.2 v = .error err → err = Err.parse := by
  intro e he err h
  simp only [typeParsers, List.mem_cons, List.not_mem_nil, or_false] at he
  rcases he with rfl | rfl | rfl | rfl | rfl | rfl | rfl | rfl | rfl | rfl
  · cases v <;> simp only [parse_boolean_list] at h
    case vlist l =>
      split at h
      · simp at h
      · rename_i e0 hxs
        cases h
        exact mapExc_error (fun x e => parse_boolean_error x e) _ _ hxs
    all_goals (cases h; rfl)
  · cases v <;> simp only [parse_numeric_list] at h
    case vlist l =>
      split at h
      · simp at h
      · rename_i e0 hxs
        cases h
        exact mapExc_error (fun x e => parse_numeric_error x e) _ _ hxs
    all_goals (cases h; rfl)
  · cases v <;> simp only [parse_datetime_list] at h
    case vlist l =>
      split at h
      · simp at h
      · rename_i e0 hxs
        cases h
        exact mapExc_error (fun x e => parse_datetime_error x e) _ _ hxs
    all_goals (cases h; rfl)
  · cases v <;> simp only [parse_dict_list] at h
    case vlist l =>
      split at h
      · simp at h
      · rename_i e0 hxs
        cases h
        exact mapExc_error (fun x e => parse_dict_error x e) _ _ hxs
    all_goals (cases h; rfl)
  · cases v <;> simp only [parse_string_list] at h
    case vlist l =>
      split at h
      · simp at h
      · rename_i e0 hxs
        cases h
        exact mapExc_error (fun x e => parse_string_error x e) _ _ hxs
    all_goals (cases h; rfl)
  · exact parse_boolean_error v err h
  · exact parse_numeric_error v err h
  · exact parse_datetime_error v err h
  · exact parse_dict_error v err h
  · exact parse_string_error v err h

/-- The auto-detect loop returns the first parser that succeeds: every
earlier parser fails with a `ParseError`. -/
theorem tryExtractTypeAux_ok {v w : Val} {k : String}
    {ps : List (String × (Val → Except Err Val))}
    (h : tryExtractTypeAux ps v = .ok (w, k)) :
    ∃ (i : Nat) (p : Val → Except Err Val), ps[i]? = some (k, p) ∧ p v = .ok w ∧
      ∀ j, j < i → ∀ q, ps[j]? = some q → q.2 v = .error Err.parse := by
  induction ps with
  | nil => simp [tryExtractTypeAux] at h
  | cons e0 rest ih =>
    obtain ⟨k0, p0⟩ := e0
    rw [tryExtractTypeAux] at h
    cases hp : p0 v with
    | ok w0 =>
      simp only [hp, Except.ok.injEq, Prod.mk.injEq] at h
      obtain ⟨hw, hk⟩ := h
      refine ⟨0, p0, by rw [hk]; simp, by rw [hw] at hp; exact hp, ?_⟩
      intro j hj q hq
      omega
    | error e0 =>
      simp only [hp] at h
      by_cases he : e0 = Err.parse
      · rw [if_pos he] at h
        obtain ⟨i, p, hip, hpv, hprev⟩ := ih h
        refine ⟨i + 1, p, by simpa using hip, hpv, ?_⟩
        intro j hj q hq
        cases j with
        | zero =>
          simp only [List.getElem?_cons_zero, Option.some.injEq] at hq
          rw [← hq]
          rw [he] at hp
          exact hp
        | succ j' =>
          exact hprev j' (by omega) q (by simpa using hq)
      · rw [if_neg he] at h
        cases h

/-- The auto-detect loop succeeds whenever some parser succeeds and all
failures are `ParseError`s. -/
theorem tryExtractTypeAux_total {v : Val}
    {ps : List (String × (Val → Except Err Val))}
    (hp : ∀ e ∈ ps, ∀ err, e.2 v = .error err → err = Err.parse)
    (hex : ∃ e ∈ ps, ∃ w, e.2 v = .ok w) :
    ∃ w k, tryExtractTypeAux ps v = .ok (w, k) := by
  induction ps with
  | nil =>
    obtain ⟨e, he, _⟩ := hex
    cases he
  | cons e0 rest ih =>
    obtain ⟨k0, p0⟩ := e0
    rw [tryExtractTypeAux]
    cases hpv : p0 v with
    | ok w0 => exact ⟨w0, k0, by simp [hpv]⟩
    | error err =>
      have herr : err = Err.parse := hp (k0, p0) (List.mem_cons_self _ _) err hpv
      subst herr
      simp only [hpv, if_pos rfl]
      apply ih
      · intro e he err' h'
        exact hp e (List.mem_cons_of_mem _ he) err' h'
      · obtain ⟨e, he, w, hw⟩ := hex
        rcases List.mem_cons.mp he with rfl | hrest
        · have hw' : p0 v = Except.ok w := hw
          rw [hpv] at hw'
          cases hw'
        · exact ⟨e, hrest, w, hw⟩

/-- C6: auto-detection of an untyped `Constant` tries the registered parsers
in exactly the insertion order BooleanList, NumericList, DateTimeList,
DictList, StringList, Boolean, Numeric, DateTime, Dict, String; the stored
value and type come from the first parser that succeeds (all earlier parsers
fail with a `ParseError`), and — since `parse_string`, the final fallback,
never fails — auto-detection always succeeds. -/
theorem claim_C6 :
    typeParsers.map Prod.fst =
      ["BooleanList", "NumericList", "DateTimeList", "DictList", "StringList",
       "Boolean", "Numeric", "DateTime", "Dict", "String"] ∧
    (∀ v w k, tryExtractType v = .ok (w, k) →
      (∃ (i : Nat) (p : Val → Except Err Val), typeParsers[i]? = some (k, p) ∧
        p v = .ok w ∧
        ∀ j, j < i → ∀ q, typeParsers[j]? = some q → q.2 v = .error Err.parse) ∧
      mkConstant v .vnone = .ok (.const k w [])) ∧
    (∀ v, ∃ w k, tryExtractType v = .ok (w, k)) := by
  refine ⟨rfl, ?_, ?_⟩
  · intro v w k h
    refine ⟨tryExtractTypeAux_ok h, ?_⟩
    simp only [mkConstant, h]
  · intro v
    apply tryExtractTypeAux_total (typeParsers_error v)
    obtain ⟨w, hw⟩ := parse_string_total v
    exact ⟨("String", parse_string), by simp [typeParsers], w, hw⟩

/-- A list whose members all have `String*` inputs is in sorted shape. -/
theorem stringLastOk_of_all {l : List (String × String)}
    (h : l.all (fun q => startsWithString q.1) = true) : stringLastOk l = true := by
  induction l with
  | nil => rfl
  | cons p rest ih =>
    rw [List.all_cons, Bool.and_eq_true] at h
    rw [stringLastOk, if_pos h.1]
    exact h.2

/-- The sorted shape is preserved by dropping the head. -/
theorem stringLastOk_tail {p : String × String} {rest : List (String × String)}
    (h : stringLastOk (p :: rest) = true) : stringLastOk rest = true := by
  rw [stringLastOk] at h
  by_cases hs : startsWithString p.1 = true
  · rw [if_pos hs] at h
    exact stringLastOk_of_all h
  · rw [if_neg hs] at h
    exact h

/-- Membership in `extract_allowed_types`: the type itself (when allowed) or
an allowed implicit conversion into it. -/
theorem mem_extract_allowed {cur q : String} :
    cur ∈ extract_allowed_types q ↔
      (q = cur ∧ cur ∈ allowedTypes) ∨ (cur, q) ∈ allowedImplicitConversions := by
  constructor
  · intro h
    rcases List.mem_append.mp h with h1 | h2
    · by_cases hc : allowedTypes.contains q = true
      · rw [if_pos hc] at h1
        simp only [List.mem_singleton] at h1
        subst h1
        exact Or.inl ⟨rfl, by simpa using hc⟩
      · rw [if_neg hc] at h1
        cases h1
    · simp only [List.mem_map] at h2
      obtain ⟨p, hp, hfst⟩ := h2
      rw [List.mem_filter] at hp
      have h2q : p.2 = q := by simpa using hp.2
      right
      rw [← hfst, ← h2q]
      simpa using hp.1
  · intro h
    rcases h with ⟨rfl, hmem⟩ | hmem
    · apply List.mem_append.mpr
      left
      rw [if_pos (by simpa using hmem)]
      simp
    · apply List.mem_append.mpr
      right
      simp only [List.mem_map]
      exact ⟨(cur, q), List.mem_filter.mpr ⟨hmem, by simp⟩, rfl⟩

/-- Every allowed implicit conversion targets a `String*` type and starts
from a non-`String*` type. -/
theorem aic_string {cur q : String} (h : (cur, q) ∈ allowedImplicitConversions) :
    startsWithString q = true ∧ startsWithString cur = false := by
  simp only [allowedImplicitConversions, List.mem_cons, List.not_mem_nil, or_false,
    Prod.mk.injEq] at h
  rcases h with ⟨rfl, rfl⟩ | ⟨rfl, rfl⟩ | ⟨rfl, rfl⟩ | ⟨rfl, rfl⟩ | ⟨rfl, rfl⟩ | ⟨rfl, rfl⟩ <;>
    exact ⟨by decide, by decide⟩

/-- Under the registration sort invariant (with allowed input types), the
pair `get_value` selects for a filter step equals the pair `get_type`
selects: the first pair accepting the current type. -/
theorem step_pair_eq (cur : String) (mts : List (String × String))
    (hok : stringLastOk mts = true)
    (hall : ∀ p ∈ mts, p.1 ∈ allowedTypes) :
    getValueStepPair mts cur = findImplicitPair mts cur := by
  induction mts with
  | nil => rfl
  | cons p rest ih =>
    by_cases hq : p.1 = cur
    · have hcur : cur ∈ allowedTypes := hq ▸ hall p (List.mem_cons_self _ _)
      have hacc : ((extract_allowed_types p.1).contains cur) = true := by
        simpa using mem_extract_allowed.mpr (Or.inl ⟨hq, hcur⟩)
      unfold getValueStepPair findImplicitPair
      rw [if_pos (by simp [hq]), List.find?_cons,
        List.filter_cons_of_pos (by simp [hq])]
      simp only [hacc, List.head?_cons, Option.map_some']
      rw [← hq]
    · by_cases hmem : cur ∈ rest.map Prod.fst
      · have hnacc : ¬ ((extract_allowed_types p.1).contains cur = true) := by
          intro hacc
          rcases mem_extract_allowed.mp (by simpa using hacc) with ⟨heq, _⟩ | haic
          · exact hq heq
          · obtain ⟨hsq, hscur⟩ := aic_string haic
            rw [stringLastOk, if_pos hsq] at hok
            obtain ⟨r, hr, hrfst⟩ := List.mem_map.mp hmem
            have hall' := (List.all_eq_true.mp hok) r hr
            rw [hrfst, hscur] at hall'
            cases hall'
        have ih' := ih (stringLastOk_tail hok)
          (fun r hr => hall r (List.mem_cons_of_mem _ hr))
        unfold getValueStepPair findImplicitPair
        unfold getValueStepPair findImplicitPair at ih'
        rw [if_pos (by simp [hmem]), List.filter_cons_of_neg (by simp [hq]),
          List.find?_cons]
        simp only [Bool.not_eq_true] at hnacc
        simp only [hnacc]
        rw [if_pos (by simp [hmem])] at ih'
        exact ih'
      · unfold getValueStepPair
        rw [if_neg]
        intro hc
        have hmm : cur ∈ p.1 :: rest.map Prod.fst := by simpa using hc
        rcases List.mem_cons.mp hmm with heq | hmemr
        · exact hq heq.symm
        · exact hmem hmemr

/-- A successful assoc-list lookup is a member. -/
theorem aLookup_mem {β : Type} {l : List (String × β)} {k : String} {v : β}
    (h : aLookup l k = some v) : (k, v) ∈ l := by
  induction l with
  | nil => cases h
  | cons p rest ih =>
    obtain ⟨k', v'⟩ := p
    rw [aLookup] at h
    by_cases hk : k' = k
    · rw [if_pos hk] at h
      cases h
      rw [hk]
      exact List.mem_cons_self _ _
    · rw [if_neg hk] at h
      exact List.mem_cons_of_mem _ (ih h)

/-- `get_value`'s behavior on one filter step, phrased through the selected
pair: no accepting pair is a `RunnerError`; otherwise the value is converted
exactly when the current type is not literally among the input types, the
filter method is applied, and the chain continues at the pair's output
type. -/
theorem getValueAux_step (reg : Registry) (row curVal : Val) (cur : String)
    (fkey : String) (args : List ValueSrc) (rest : List (String × List ValueSrc))
    (fd : FilterDef) (hlk : aLookup reg.filters fkey = some fd) :
    (getValueStepPair fd.manipulationTypes cur = none →
      getValueAux reg row curVal cur ((fkey, args) :: rest) = .error .runner) ∧
    (∀ inp outp, getValueStepPair fd.manipulationTypes cur = some (inp, outp) →
      getValueAux reg row curVal cur ((fkey, args) :: rest) =
        match (if (fd.manipulationTypes.map Prod.fst).contains cur then Except.ok curVal
               else parseAs inp curVal) with
        | .ok conv =>
          match evalArgs reg row args with
          | .ok argVals =>
            match fd.method conv argVals with
            | .ok newVal => getValueAux reg row newVal outp rest
            | .error e => .error e
          | .error e => .error e
        | .error e => .error e) := by
  constructor
  · intro hnone
    rw [getValueAux]
    simp only [hlk]
    by_cases hc : ((fd.manipulationTypes.map Prod.fst).contains cur) = true
    · exfalso
      unfold getValueStepPair at hnone
      rw [if_pos hc] at hnone
      have hh := Option.map_eq_none'.mp hnone
      have hfil : fd.manipulationTypes.filter (fun p => p.1 = cur) = [] := by
        cases hfc : fd.manipulationTypes.filter (fun p => p.1 = cur) with
        | nil => rfl
        | cons a l => rw [hfc] at hh; cases hh
      have hmem : cur ∈ fd.manipulationTypes.map Prod.fst := by simpa using hc
      obtain ⟨p, hp, hpf⟩ := List.mem_map.mp hmem
      have hpm : p ∈ fd.manipulationTypes.filter (fun r => r.1 = cur) :=
        List.mem_filter.mpr ⟨hp, by simp [hpf]⟩
      rw [hfil] at hpm
      cases hpm
    · rw [if_neg hc]
      unfold getValueStepPair at hnone
      rw [if_neg hc] at hnone
      simp only [hnone]
  · intro inp outp hsome
    rw [getValueAux]
    simp only [hlk]
    by_cases hc : ((fd.manipulationTypes.map Prod.fst).contains cur) = true
    · rw [if_pos hc, if_pos hc]
      unfold getValueStepPair at hsome
      rw [if_pos hc] at hsome
      obtain ⟨p0, hh, hpair⟩ := Option.map_eq_some'.mp hsome
      cases hpair
      simp only [hh]
    · rw [if_neg hc, if_neg hc]
      unfold getValueStepPair at hsome
      rw [if_neg hc] at hsome
      simp only [hsome]

/-- Under the registry invariants, the type `get_type` threads equals the
type `get_value` threads: the two chain recursions succeed on exactly the
same results (they differ only in the error kind on a non-propagating
step). -/
theorem type_chain_ok_iff (reg : Registry) (hwf : RegistryWF reg) :
    ∀ (chain : List (String × List ValueSrc)) (cur ty : String),
      getTypeAux reg cur chain = .ok ty ↔ getValueTypeChain reg cur chain = .ok ty := by
  intro chain
  induction chain with
  | nil => intro cur ty; exact Iff.rfl
  | cons step rest ih =>
    intro cur ty
    obtain ⟨fkey, args⟩ := step
    rw [getTypeAux, getValueTypeChain]
    cases hlk : aLookup reg.filters fkey with
    | none => simp
    | some fd =>
      obtain ⟨hok, hne, hnd, hallty⟩ := hwf.filters (fkey, fd) (aLookup_mem hlk)
      have hstep := step_pair_eq cur fd.manipulationTypes hok
        (fun p hp => (hallty p hp).1)
      show (match findImplicitPair fd.manipulationTypes cur with
            | some p => getTypeAux reg p.2 rest
            | none => Except.error Err.api) = Except.ok ty ↔
           (match getValueStepPair fd.manipulationTypes cur with
            | some p => getValueTypeChain reg p.2 rest
            | none => Except.error Err.runner) = Except.ok ty
      rw [← hstep]
      cases hsp : getValueStepPair fd.manipulationTypes cur with
      | none => simp
      | some p => exact ih p.2 ty

/-- The concrete registry satisfies the registration invariants. -/
theorem exReg_wf : RegistryWF exReg := by
  constructor
  · intro kv hkv
    simp only [exReg, List.mem_cons, List.not_mem_nil, or_false] at hkv
    subst hkv
    refine ⟨by decide, by decide, by decide, ?_⟩
    intro p hp
    simp only [exIdFilter, List.mem_cons, List.not_mem_nil, or_false] at hp
    subst hp
    exact ⟨by decide, by decide⟩
  · intro kv hkv
    simp only [exReg, List.mem_cons, List.not_mem_nil, or_false] at hkv
    subst hkv
    refine ⟨by decide, by decide, ?_⟩
    intro p hp
    simp only [exTrueCmp, List.mem_cons, List.not_mem_nil, or_false] at hp
    subst hp
    exact ⟨by decide, by decide⟩

/-- C7: under the invariants registration establishes, `get_type` is the
deterministic first-accepting-pair threading and agrees with `get_value`:
the two chain recursions return the same successful type on every chain
(`get_type`'s api error and `get_value`'s runner error coincide on the same
non-propagating steps); per filter step, the pair `get_value` selects is
exactly `get_type`'s first pair whose allowed-source set contains the
current type, a missing pair is the respective engine/runner error, and on
a selected pair `(inp, outp)` `get_value` applies the method (converting
only when the current type is not literally an input type) and continues at
`outp`. -/
theorem claim_C7 (reg : Registry) (hwf : RegistryWF reg) :
    (∀ (chain : List (String × List ValueSrc)) (cur ty : String),
      getTypeAux reg cur chain = .ok ty ↔ getValueTypeChain reg cur chain = .ok ty) ∧
    (∀ fkey fd, aLookup reg.filters fkey = some fd → ∀ cur,
      getValueStepPair fd.manipulationTypes cur =
        findImplicitPair fd.manipulationTypes cur ∧
      (∀ args rest row curVal,
        (findImplicitPair fd.manipulationTypes cur = none →
          getTypeAux reg cur ((fkey, args) :: rest) = .error .api ∧
          getValueAux reg row curVal cur ((fkey, args) :: rest) = .error .runner) ∧
        (∀ inp outp, findImplicitPair fd.manipulationTypes cur = some (inp, outp) →
          getTypeAux reg cur ((fkey, args) :: rest) = getTypeAux reg outp rest ∧
          getValueAux reg row curVal cur ((fkey, args) :: rest) =
            match (if (fd.manipulationTypes.map Prod.fst).contains cur
                   then Except.ok curVal else parseAs inp curVal) with
            | .ok conv =>
              match evalArgs reg row args with
              | .ok argVals =>
                match fd.method conv argVals with
                | .ok newVal => getValueAux reg row newVal outp rest
                | .error e => .error e
              | .error e => .error e
            | .error e => .error e))) := by
  refine ⟨type_chain_ok_iff reg hwf, ?_⟩
  intro fkey fd hlk cur
  obtain ⟨hok, hne, hnd, hallty⟩ := hwf.filters (fkey, fd) (aLookup_mem hlk)
  have hstep := step_pair_eq cur fd.manipulationTypes hok (fun p hp => (hallty p hp).1)
  refine ⟨hstep, ?_⟩
  intro args rest row curVal
  constructor
  · intro hnone
    constructor
    · rw [getTypeAux]
      simp only [hlk, hnone]
    · exact (getValueAux_step reg row curVal cur fkey args rest fd hlk).1
        (by rw [hstep, hnone])
  · intro inp outp hsome
    constructor
    · rw [getTypeAux]
      simp only [hlk, hsome]
    · exact (getValueAux_step reg row curVal cur fkey args rest fd hlk).2 inp outp
        (by rw [hstep, hsome])

/-- C7 witness: in the concrete registry, threading `Numeric` through the
identity filter yields `Numeric` on both the `get_type` and the `get_value`
side. -/
theorem claim_C7_witness :
    getTypeAux exReg "Numeric" [("identity", [])] = .ok "Numeric" ∧
    getValueTypeChain exReg "Numeric" [("identity", [])] = .ok "Numeric" := by
  have h := (claim_C7 exReg exReg_wf).1 [("identity", [])] "Numeric" "Numeric"
  have hg : getTypeAux exReg "Numeric" [("identity", [])] = .ok "Numeric" := by
    simp [getTypeAux, exReg, aLookup, findImplicitPair, exIdFilter,
      extract_allowed_types, allowedTypes, allowedImplicitConversions]
  exact ⟨hg, h.mp hg⟩

/-- C8: an `add_comparer` call with no explicit collation searches the
declared collations in order (`find?` takes the first match), first for an
exact `(left type, right type)` pair, and only when no exact pair exists for
the first pair accepting both types implicitly; on a hit the call continues
into the argument validation with exactly that collation (appending the one
comparer entry on success), and when both searches fail it raises a
rule-creation error, so no entry is appended and the container is
unchanged. -/
theorem claim_C8 (reg : Registry) (objs : List Member) (name : String)
    (c1 c2 : ValueSrc) (args : List ValueSrc) (cd : ComparerDef)
    (ty1 ty2 : String)
    (hlk : aLookup reg.comparers name = some cd)
    (hc1 : classKey c1 = "Attribute")
    (hc2 : cd.valueClasses.contains (classKey c2) = true)
    (hty1 : c1.getType reg = .ok ty1)
    (hty2 : c2.getType reg = .ok ty2) :
    (∀ p, cd.collationTypes.find? (fun p => p.1 = ty1 ∧ p.2 = ty2) = some p →
      addComparer reg objs name c1 c2 none args =
        (if cd.params.length ≠ args.length then .error .ruleCreation
         else match argViolations reg cd.params args with
           | .ok 0 => .ok (objs ++ [.cmp name p c1 c2 args])
           | .ok _ => .error .ruleCreation
           | .error e => .error e)) ∧
    (∀ p, cd.collationTypes.find? (fun p => p.1 = ty1 ∧ p.2 = ty2) = none →
      cd.collationTypes.find? (fun p =>
        (extract_allowed_types p.1).contains ty1 ∧
        (extract_allowed_types p.2).contains ty2) = some p →
      addComparer reg objs name c1 c2 none args =
        (if cd.params.length ≠ args.length then .error .ruleCreation
         else match argViolations reg cd.params args with
           | .ok 0 => .ok (objs ++ [.cmp name p c1 c2 args])
           | .ok _ => .error .ruleCreation
           | .error e => .error e)) ∧
    (cd.collationTypes.find? (fun p => p.1 = ty1 ∧ p.2 = ty2) = none →
      cd.collationTypes.find? (fun p =>
        (extract_allowed_types p.1).contains ty1 ∧
        (extract_allowed_types p.2).contains ty2) = none →
      addComparer reg objs name c1 c2 none args = .error .ruleCreation) := by
  refine ⟨?_, ?_, ?_⟩
  · intro p hexact
    unfold addComparer
    simp only [hlk]
    rw [if_neg (fun hn => hn hc1), if_neg (not_not_intro hc2)]
    simp only [hty1, hty2, hexact]
  · intro p hnone hfb
    unfold addComparer
    simp only [hlk]
    rw [if_neg (fun hn => hn hc1), if_neg (not_not_intro hc2)]
    simp only [hty1, hty2, hnone, hfb]
  · intro hnone hfbnone
    unfold addComparer
    simp only [hlk]
    rw [if_neg (fun hn => hn hc1), if_neg (not_not_intro hc2)]
    simp only [hty1, hty2, hnone, hfbnone]

/-- C8 witness: in the concrete registry, adding the `always` comparer on two
numeric sources selects the exact collation `("Numeric", "Numeric")` and
appends the single comparer entry. -/
theorem claim_C8_witness :
    addComparer exReg [] "always" (.attr "Numeric" "x" [])
        (.const "Numeric" (.vfloat 1) []) none [] =
      .ok [.cmp "always" ("Numeric", "Numeric") (.attr "Numeric" "x" [])
        (.const "Numeric" (.vfloat 1) []) []] := by
  have h := (claim_C8 exReg [] "always" (.attr "Numeric" "x" [])
      (.const "Numeric" (.vfloat 1) []) [] exTrueCmp "Numeric" "Numeric"
      rfl rfl (by decide) rfl rfl).1 ("Numeric", "Numeric") (by decide)
  rw [h]
  rfl

/-- Skipped mappings contribute nothing: the default-mapping pass over a
change set equals the pass over exactly the mappings whose output path is
outside the change set. -/
theorem applyMappings_filter (reg : Registry) (gcs : List String) :
    ∀ (mappings : List (JsonAttr × JsonAttr)) (row : Val),
      applyMappings reg mappings gcs row =
        applyMappings reg (mappings.filter (fun m => ¬ m.2.dotSpecifier ∈ gcs))
          gcs row := by
  intro mappings
  induction mappings with
  | nil => intro row; rfl
  | cons m rest ih =>
    intro row
    obtain ⟨ia, oa⟩ := m
    by_cases hmem : oa.dotSpecifier ∈ gcs
    · rw [List.filter_cons_of_neg (by simpa using hmem)]
      simp only [applyMappings]
      rw [if_pos hmem]
      exact ih row
    · rw [List.filter_cons_of_pos (by simpa using hmem)]
      simp only [applyMappings]
      rw [if_neg hmem, if_neg hmem]
      cases hget : get_dot_path row ia.dotSpecifier with
      | error e => rfl
      | ok fetched =>
        dsimp only
        cases hp : parseAs oa.attributeDataType fetched with
        | error e => rfl
        | ok v =>
          dsimp only
          cases hset : set_dot_path row oa.dotSpecifier v with
          | error e => rfl
          | ok row' => exact ih row'

/-- C9: per row, `run_on_iterable` first runs every expression in
declaration order accumulating the change set, then applies exactly the
default mappings whose output path is not in the change set — a mapping
whose output was assigned by an action is skipped outright, and an applied
mapping writes `parse(output data type, path_get(row, input path))` at its
output path. -/
theorem claim_C9 (reg : Registry) :
    (∀ exprs env row,
      processRow reg exprs env row =
        match runExprs reg exprs row [] with
        | .ok (row', gcs) =>
          match getAllDefaultMappings env with
          | .ok mappings =>
            applyMappings reg
              (mappings.filter (fun m => ¬ m.2.dotSpecifier ∈ gcs)) gcs row'
          | .error e => .error e
        | .error e => .error e) ∧
    (∀ ia oa rest gcs row, oa.dotSpecifier ∈ gcs →
      applyMappings reg ((ia, oa) :: rest) gcs row =
        applyMappings reg rest gcs row) ∧
    (∀ ia oa rest gcs row, oa.dotSpecifier ∉ gcs →
      applyMappings reg ((ia, oa) :: rest) gcs row =
        match get_dot_path row ia.dotSpecifier with
        | .ok fetched =>
          match parseAs oa.attributeDataType fetched with
          | .ok v =>
            match set_dot_path row oa.dotSpecifier v with
            | .ok row' => applyMappings reg rest gcs row'
            | .error e => .error e
          | .error e => .error e
        | .error e => .error e) ∧
    (∀ exprs env row rest,
      run_on_iterable reg exprs env (row :: rest) =
        match processRow reg exprs env row with
        | .ok row' =>
          match run_on_iterable reg exprs env rest with
          | .ok rows => .ok (row' :: rows)
          | .error e => .error e
        | .error e => .error e) := by
  refine ⟨?_, ?_, ?_, ?_⟩
  · intro exprs env row
    unfold processRow
    cases hre : runExprs reg exprs row [] with
    | error e => rfl
    | ok pr =>
      obtain ⟨row', gcs⟩ := pr
      cases hm : getAllDefaultMappings env with
      | error e => rfl
      | ok mappings => exact applyMappings_filter reg gcs mappings row'
  · intro ia oa rest gcs row hmem
    simp only [applyMappings]
    rw [if_pos hmem]
  · intro ia oa rest gcs row hmem
    simp only [applyMappings]
    rw [if_neg hmem]
  · intro exprs env row rest
    rfl

/-- `parse_dict` results survive the JSON-compatibility conversion. -/
theorem parse_dict_rt : ∀ v w, parse_dict v = .ok w →
    parse_dict (valueToJsonCompatibleSingle w) = .ok w ∧
    parse_dict (valueToJsonCompatible w) = .ok w := by
  intro v w h
  cases v <;> simp only [parse_dict] at h <;> cases h <;> exact ⟨rfl, rfl⟩

/-- `parse_boolean` results survive the JSON-compatibility conversion. -/
theorem parse_boolean_rt : ∀ v w, parse_boolean v = .ok w →
    parse_boolean (valueToJsonCompatibleSingle w) = .ok w ∧
    parse_boolean (valueToJsonCompatible w) = .ok w := by
  intro v w h
  cases v <;> simp only [parse_boolean] at h <;> cases h <;> exact ⟨rfl, rfl⟩

/-- `parse_numeric` results survive the JSON-compatibility conversion. -/
theorem parse_numeric_rt : ∀ v w, parse_numeric v = .ok w →
    parse_numeric (valueToJsonCompatibleSingle w) = .ok w ∧
    parse_numeric (valueToJsonCompatible w) = .ok w := by
  intro v w h
  cases v <;> simp only [parse_numeric] at h
  case vstr s =>
    split at h
    · cases h
      exact ⟨rfl, rfl⟩
    · cases h
  all_goals (cases h <;> exact ⟨rfl, rfl⟩)

/-- `parse_datetime` results survive the JSON-compatibility conversion (a
rehydrated `datetime` epoch float parses back to the same `datetime`). -/
theorem parse_datetime_rt : ∀ v w, parse_datetime v = .ok w →
    parse_datetime (valueToJsonCompatibleSingle w) = .ok w ∧
    parse_datetime (valueToJsonCompatible w) = .ok w := by
  intro v w h
  cases v <;> simp only [parse_datetime] at h
  case vstr s =>
    split at h
    · cases h
      exact ⟨rfl, rfl⟩
    · cases h
  all_goals (cases h <;> exact ⟨rfl, rfl⟩)

/-- `parse_string` results survive the JSON-compatibility conversion. -/
theorem parse_string_rt : ∀ v w, parse_string v = .ok w →
    parse_string (valueToJsonCompatibleSingle w) = .ok w ∧
    parse_string (valueToJsonCompatible w) = .ok w := by
  intro v w h
  cases v <;> simp only [parse_string] at h <;> cases h <;> exact ⟨rfl, rfl⟩

/-- Element-wise roundtrip for the list parsers. -/
theorem mapExc_rt {f : Val → Except Err Val}
    (frt : ∀ v w, f v = .ok w → f (valueToJsonCompatibleSingle w) = .ok w) :
    ∀ l l', mapExc f l = .ok l' →
      mapExc f (l'.map valueToJsonCompatibleSingle) = .ok l' := by
  intro l
  induction l with
  | nil =>
    intro l' h
    simp only [mapExc] at h
    cases h
    rfl
  | cons x xs ih =>
    intro l' h
    rw [mapExc] at h
    cases hx : f x with
    | error e =>
      simp only [hx] at h
      cases h
    | ok r =>
      simp only [hx] at h
      cases hxs : mapExc f xs with
      | error e =>
        simp only [hxs] at h
        cases h
      | ok rs =>
        simp only [hxs] at h
        cases h
        simp only [List.map_cons, mapExc, frt x r hx, ih rs hxs]

/-- `parse_numeric_list` results survive the JSON-compatibility conversion. -/
theorem parse_numeric_list_rt : ∀ v w, parse_numeric_list v = .ok w →
    parse_numeric_list (valueToJsonCompatible w) = .ok w := by
  intro v w h
  cases v <;> simp only [parse_numeric_list] at h <;> try cases h
  case vlist l =>
    split at h
    · rename_i l' hm
      cases h
      simp only [valueToJsonCompatible, parse_numeric_list,
        mapExc_rt (fun v w hh => (parse_numeric_rt v w hh).1) l l' hm]
    · cases h

/-- `parse_datetime_list` results survive the JSON-compatibility conversion. -/
theorem parse_datetime_list_rt : ∀ v w, parse_datetime_list v = .ok w →
    parse_datetime_list (valueToJsonCompatible w) = .ok w := by
  intro v w h
  cases v <;> simp only [parse_datetime_list] at h <;> try cases h
  case vlist l =>
    split at h
    · rename_i l' hm
      cases h
      simp only [valueToJsonCompatible, parse_datetime_list,
        mapExc_rt (fun v w hh => (parse_datetime_rt v w hh).1) l l' hm]
    · cases h

/-- `parse_string_list` results survive the JSON-compatibility conversion. -/
theorem parse_string_list_rt : ∀ v w, parse_string_list v = .ok w →
    parse_string_list (valueToJsonCompatible w) = .ok w := by
  intro v w h
  cases v <;> simp only [parse_string_list] at h <;> try cases h
  case vlist l =>
    split at h
    · rename_i l' hm
      cases h
      simp only [valueToJsonCompatible, parse_string_list,
        mapExc_rt (fun v w hh => (parse_string_rt v w hh).1) l l' hm]
    · cases h

/-- `parse_dict_list` results survive the JSON-compatibility conversion. -/
theorem parse_dict_list_rt : ∀ v w, parse_dict_list v = .ok w →
    parse_dict_list (valueToJsonCompatible w) = .ok w := by
  intro v w h
  cases v <;> simp only [parse_dict_list] at h <;> try cases h
  case vlist l =>
    split at h
    · rename_i l' hm
      cases h
      simp only [valueToJsonCompatible, parse_dict_list,
        mapExc_rt (fun v w hh => (parse_dict_rt v w hh).1) l l' hm]
    · cases h

/-- `parse_boolean_list` results survive the JSON-compatibility conversion. -/
theorem parse_boolean_list_rt : ∀ v w, parse_boolean_list v = .ok w →
    parse_boolean_list (valueToJsonCompatible w) = .ok w := by
  intro v w h
  cases v <;> simp only [parse_boolean_list] at h <;> try cases h
  case vlist l =>
    split at h
    · rename_i l' hm
      cases h
      simp only [valueToJsonCompatible, parse_boolean_list,
        mapExc_rt (fun v w hh => (parse_boolean_rt v w hh).1) l l' hm]
    · cases h

/-- Every registered parser's results survive the JSON-compatibility
conversion: reparsing the converted output yields the output itself. -/
theorem parsers_rt : ∀ e ∈ typeParsers, ∀ v w, e.2 v = .ok w →
    e.2 (valueToJsonCompatible w) = .ok w := by
  intro e he v w h
  simp only [typeParsers, List.mem_cons, List.not_mem_nil, or_false] at he
  rcases he with rfl | rfl | rfl | rfl | rfl | rfl | rfl | rfl | rfl | rfl
  · exact parse_boolean_list_rt v w h
  · exact parse_numeric_list_rt v w h
  · exact parse_datetime_list_rt v w h
  · exact parse_dict_list_rt v w h
  · exact parse_string_list_rt v w h
  · exact (parse_boolean_rt v w h).2
  · exact (parse_numeric_rt v w h).2
  · exact (parse_datetime_rt v w h).2
  · exact (parse_dict_rt v w h).2
  · exact (parse_string_rt v w h).2

/-- `TYPE_PARSERS[ty]` roundtrip: a parse result reparses from its
JSON-compatible form. -/
theorem parseAs_rt {ty : String} {v w : Val} (h : parseAs ty v = .ok w) :
    parseAs ty (valueToJsonCompatible w) = .ok w := by
  unfold parseAs at h ⊢
  cases hlp : aLookup typeParsers ty with
  | none =>
    rw [hlp] at h
    cases h
  | some p =>
    rw [hlp] at h
    exact parsers_rt (ty, p) (aLookup_mem hlp) v w h

/-- An indexed entry of `TYPE_PARSERS` is found by key lookup and its key is
an allowed type. -/
theorem typeParsers_lookup_of_getElem :
    ∀ (i : Nat) (k : String) (p : Val → Except Err Val),
    typeParsers[i]? = some (k, p) →
    aLookup typeParsers k = some p ∧ k ∈ allowedTypes := by
  intro i k p h
  have hlen : typeParsers.length = 10 := rfl
  have hi : i < 10 := by
    by_contra hge
    rw [List.getElem?_eq_none (by rw [hlen]; omega)] at h
    cases h
  interval_cases i <;>
    simp only [typeParsers, List.getElem?_cons_zero, List.getElem?_cons_succ,
      Option.some.injEq, Prod.mk.injEq] at h <;>
    obtain ⟨rfl, rfl⟩ := h <;>
    exact ⟨rfl, by decide⟩

/-- A `Constant` built by the public constructor rebuilds from its stored
type and JSON-compatible value. -/
theorem mkConstant_rebuild {value tyV : Val} {src : ValueSrc}
    (h : mkConstant value tyV = .ok src) :
    ∃ ty base, src = .const ty base [] ∧
      mkConstant (valueToJsonCompatible base) (.vstr ty) = .ok (.const ty base []) := by
  cases tyV with
  | vnone =>
    simp only [mkConstant] at h
    cases hx : tryExtractType value with
    | error e =>
      rw [hx] at h
      cases h
    | ok pr =>
      obtain ⟨w, t⟩ := pr
      rw [hx] at h
      cases h
      refine ⟨t, w, rfl, ?_⟩
      have hx' : tryExtractTypeAux typeParsers value = .ok (w, t) := hx
      obtain ⟨i, p, hip, hpv, -⟩ := tryExtractTypeAux_ok hx'
      obtain ⟨hlk, hallow⟩ := typeParsers_lookup_of_getElem i t p hip
      have hpa : parseAs t value = .ok w := by
        unfold parseAs
        rw [hlk]
        exact hpv
      have hpa' := parseAs_rt hpa
      simp only [mkConstant]
      rw [if_neg (not_not_intro (by simpa using hallow))]
      simp only [hpa']
  | vstr ty =>
    simp only [mkConstant] at h
    by_cases hal : allowedTypes.contains ty = true
    · rw [if_neg (not_not_intro hal)] at h
      cases hp : parseAs ty value with
      | ok w =>
        simp only [hp] at h
        cases h
        refine ⟨ty, w, rfl, ?_⟩
        simp only [mkConstant]
        rw [if_neg (not_not_intro hal)]
        simp only [parseAs_rt hp]
      | error e =>
        simp only [hp] at h
        split at h <;> cases h
    · rw [if_pos hal] at h
      cases h
  | vbool b => cases h
  | vint n => cases h
  | vfloat q => cases h
  | vdt t => cases h
  | vlist l => cases h
  | vdict d => cases h

/-- An `Attribute` built by the public constructor rebuilds from its stored
type and path. -/
theorem mkAttribute_rebuild {pathV tyV : Val} {src : ValueSrc}
    (h : mkAttribute pathV tyV = .ok src) :
    ∃ ty path, src = .attr ty path [] ∧
      mkAttribute (.vstr path) (.vstr ty) = .ok (.attr ty path []) := by
  cases tyV with
  | vstr ty =>
    simp only [mkAttribute] at h
    by_cases hal : allowedTypes.contains ty = true
    · rw [if_neg (not_not_intro hal)] at h
      cases h
      refine ⟨ty, _, rfl, ?_⟩
      simp only [mkAttribute]
      rw [if_neg (not_not_intro hal)]
    · rw [if_pos hal] at h
      cases h
  | vnone => cases h
  | vbool b => cases h
  | vint n => cases h
  | vfloat q => cases h
  | vdt t => cases h
  | vlist l => cases h
  | vdict d => cases h

/-- `add_comparer` validates independently of the current member list: a
successful call appends exactly one comparer entry, and the same call
succeeds on any other member list with the same single entry appended. -/
theorem addComparer_acc {reg : Registry} {objs : List Member} {name : String}
    {c1 c2 : ValueSrc} {ov : Option (String × String)} {args : List ValueSrc}
    {res : List Member}
    (h : addComparer reg objs name c1 c2 ov args = .ok res) :
    ∃ coll, res = objs ++ [.cmp name coll c1 c2 args] ∧
      ∀ objs2, addComparer reg objs2 name c1 c2 ov args =
        .ok (objs2 ++ [.cmp name coll c1 c2 args]) := by
  unfold addComparer at h
  cases hlk : aLookup reg.comparers name with
  | none =>
    simp only [hlk] at h
    cases h
  | some cd =>
    simp only [hlk] at h
    by_cases h1 : classKey c1 ≠ "Attribute"
    · rw [if_pos h1] at h
      cases h
    · rw [if_neg h1] at h
      by_cases h2 : ¬ cd.valueClasses.contains (classKey c2) = true
      · rw [if_pos h2] at h
        cases h
      · rw [if_neg h2] at h
        cases hty1 : c1.getType reg with
        | error e =>
          simp only [hty1] at h
          cases h
        | ok ty1 =>
          simp only [hty1] at h
          cases hty2 : c2.getType reg with
          | error e =>
            simp only [hty2] at h
            cases h
          | ok ty2 =>
            simp only [hty2] at h
            split at h
            · rename_i e hsel
              cases h
            · rename_i coll hsel
              by_cases hlen : cd.params.length ≠ args.length
              · rw [if_pos hlen] at h
                cases h
              · rw [if_neg hlen] at h
                split at h
                · rename_i hviol
                  cases h
                  refine ⟨coll, rfl, ?_⟩
                  intro objs2
                  unfold addComparer
                  simp only [hlk]
                  rw [if_neg h1, if_neg h2]
                  simp only [hty1, hty2, hsel]
                  rw [if_neg hlen]
                  simp only [hviol]
                · rename_i n hn hviol
                  cases h
                · rename_i e hviol
                  cases h

/-- A collation pair's exact filter finds exactly that pair. -/
theorem coll_filter_head {colls : List (String × String)} {coll : String × String}
    (hmem : coll ∈ colls) :
    (colls.filter (fun p => p.1 = coll.1 ∧ p.2 = coll.2)).head? = some coll := by
  have hmemf : coll ∈ colls.filter (fun p => p.1 = coll.1 ∧ p.2 = coll.2) :=
    List.mem_filter.mpr ⟨hmem, by simp⟩
  cases hf : colls.filter (fun p => p.1 = coll.1 ∧ p.2 = coll.2) with
  | nil =>
    rw [hf] at hmemf
    cases hmemf
  | cons q t =>
    have hq : q ∈ colls.filter (fun p => p.1 = coll.1 ∧ p.2 = coll.2) := by
      rw [hf]
      exact List.mem_cons_self _ _
    have hpred := (List.mem_filter.mp hq).2
    simp only [decide_eq_true_eq] at hpred
    have : q = coll := by
      obtain ⟨h1, h2⟩ := hpred
      obtain ⟨q1, q2⟩ := q
      obtain ⟨cc1, cc2⟩ := coll
      simp only at h1 h2
      rw [h1, h2]
    rw [List.head?_cons, this]

/-- Under the registry invariants, a successful `add_comparer` records a
collation that validates as an explicit override: re-running the call with
the stored collation succeeds on any member list with the same entry. -/
theorem addComparer_rebuild {reg : Registry} (hwf : RegistryWF reg)
    {objs : List Member} {name : String} {c1 c2 : ValueSrc}
    {ov : Option (String × String)} {args : List ValueSrc} {res : List Member}
    (h : addComparer reg objs name c1 c2 ov args = .ok res) :
    ∃ coll, res = objs ++ [.cmp name coll c1 c2 args] ∧
      ∀ objs2, addComparer reg objs2 name c1 c2 (some coll) args =
        .ok (objs2 ++ [.cmp name coll c1 c2 args]) := by
  unfold addComparer at h
  cases hlk : aLookup reg.comparers name with
  | none =>
    simp only [hlk] at h
    cases h
  | some cd =>
    simp only [hlk] at h
    obtain ⟨-, -, hallc⟩ := hwf.comparers (name, cd) (aLookup_mem hlk)
    by_cases h1 : classKey c1 ≠ "Attribute"
    · rw [if_pos h1] at h
      cases h
    · rw [if_neg h1] at h
      by_cases h2 : ¬ cd.valueClasses.contains (classKey c2) = true
      · rw [if_pos h2] at h
        cases h
      · rw [if_neg h2] at h
        cases hty1 : c1.getType reg with
        | error e =>
          simp only [hty1] at h
          cases h
        | ok ty1 =>
          simp only [hty1] at h
          cases hty2 : c2.getType reg with
          | error e =>
            simp only [hty2] at h
            cases h
          | ok ty2 =>
            simp only [hty2] at h
            -- extract the selected collation and its facts from the three branches
            have hfacts : ∀ coll,
                (match ov with
                  | some (x, y) =>
                    match (cd.collationTypes.filter
                        (fun p => p.1 = x ∧ p.2 = y)).head? with
                    | some p =>
                      if (extract_allowed_types p.1).contains ty1 ∧
                          (extract_allowed_types p.2).contains ty2 then .ok p
                      else .error Err.ruleCreation
                    | none => .error Err.ruleCreation
                  | none =>
                    match cd.collationTypes.find? (fun p => p.1 = ty1 ∧ p.2 = ty2) with
                    | some p => .ok p
                    | none =>
                      match cd.collationTypes.find? (fun p =>
                        (extract_allowed_types p.1).contains ty1 ∧
                        (extract_allowed_types p.2).contains ty2) with
                      | some p => .ok p
                      | none => .error Err.ruleCreation : Except Err (String × String))
                  = .ok coll →
                coll ∈ cd.collationTypes ∧
                ((extract_allowed_types coll.1).contains ty1 ∧
                 (extract_allowed_types coll.2).contains ty2) := by
              intro coll hsel
              cases ov with
              | some xy =>
                obtain ⟨x, y⟩ := xy
                cases hh : (cd.collationTypes.filter
                    (fun p => p.1 = x ∧ p.2 = y)).head? with
                | none =>
                  simp only [hh] at hsel
                  cases hsel
                | some p =>
                  simp only [hh] at hsel
                  split at hsel
                  · cases hsel
                    rename_i hchk
                    refine ⟨?_, hchk⟩
                    have : coll ∈ cd.collationTypes.filter
                        (fun p => p.1 = x ∧ p.2 = y) := by
                      cases hfl : cd.collationTypes.filter
                          (fun p => p.1 = x ∧ p.2 = y) with
                      | nil => rw [hfl] at hh; cases hh
                      | cons q t =>
                        rw [hfl] at hh
                        rw [List.head?_cons] at hh
                        cases hh
                        exact List.mem_cons_self _ _
                    exact (List.mem_filter.mp this).1
                  · cases hsel
              | none =>
                cases hex : cd.collationTypes.find?
                    (fun p => p.1 = ty1 ∧ p.2 = ty2) with
                | some p =>
                  simp only [hex] at hsel
                  cases hsel
                  have hmem := List.mem_of_find?_eq_some hex
                  have hpred := List.find?_some hex
                  simp only [decide_eq_true_eq] at hpred
                  obtain ⟨hp1, hp2⟩ := hpred
                  refine ⟨hmem, ?_, ?_⟩
                  · rw [hp1]
                    simpa using mem_extract_allowed.mpr
                      (Or.inl ⟨rfl, hp1 ▸ (hallc coll hmem).1⟩)
                  · rw [hp2]
                    simpa using mem_extract_allowed.mpr
                      (Or.inl ⟨rfl, hp2 ▸ (hallc coll hmem).2⟩)
                | none =>
                  simp only [hex] at hsel
                  cases hfb : cd.collationTypes.find? (fun p =>
                      (extract_allowed_types p.1).contains ty1 ∧
                      (extract_allowed_types p.2).contains ty2) with
                  | some p =>
                    simp only [hfb] at hsel
                    cases hsel
                    have hmem := List.mem_of_find?_eq_some hfb
                    have hpred := List.find?_some hfb
                    simp only [Bool.and_eq_true, decide_eq_true_eq] at hpred
                    exact ⟨hmem, hpred⟩
                  | none =>
                    simp only [hfb] at hsel
                    cases hsel
            split at h
            · rename_i e hsel
              cases h
            · rename_i coll hsel
              obtain ⟨hmem, hchk1, hchk2⟩ := hfacts coll hsel
              by_cases hlen : cd.params.length ≠ args.length
              · rw [if_pos hlen] at h
                cases h
              · rw [if_neg hlen] at h
                split at h
                · rename_i hviol
                  cases h
                  refine ⟨coll, rfl, ?_⟩
                  intro objs2
                  unfold addComparer
                  simp only [hlk]
                  rw [if_neg h1, if_neg h2]
                  simp only [hty1, hty2, coll_filter_head hmem]
                  rw [if_pos ⟨hchk1, hchk2⟩]
                  dsimp only
                  rw [if_neg hlen]
                  simp only [hviol]
                · rename_i n hn hviol
                  cases h
                · rename_i e hviol
                  cases h

/-- Filter serialization distributes over append. -/
theorem toDictFilters_append (l1 l2 : List (String × List ValueSrc)) :
    toDictFilters (l1 ++ l2) = toDictFilters l1 ++ toDictFilters l2 := by
  induction l1 with
  | nil => simp [toDictFilters]
  | cons f rest ih =>
    obtain ⟨k, args⟩ := f
    simp only [List.cons_append, toDictFilters, ih]

/-- Sub-container serialization distributes over append. -/
theorem toDictSubs_append (l1 l2 : List Member) :
    toDictSubs (l1 ++ l2) = toDictSubs l1 ++ toDictSubs l2 := by
  induction l1 with
  | nil => simp [toDictSubs]
  | cons m rest ih =>
    cases m <;> simp only [List.cons_append, toDictSubs, ih]

/-- Comparer serialization distributes over append. -/
theorem toDictCmps_append (l1 l2 : List Member) :
    toDictCmps (l1 ++ l2) = toDictCmps l1 ++ toDictCmps l2 := by
  induction l1 with
  | nil => simp [toDictCmps]
  | cons m rest ih =>
    cases m <;> simp only [List.cons_append, toDictCmps, ih]

/-- Serialized-filter fuel distributes over append. -/
theorem filtersDepth_append (l1 l2 : List (String × List ValueSrc)) :
    filtersDepth (l1 ++ l2) = max (filtersDepth l1) (filtersDepth l2) := by
  induction l1 with
  | nil => simp [filtersDepth]
  | cons f rest ih =>
    obtain ⟨k, args⟩ := f
    simp only [List.cons_append, filtersDepth, ih]
    omega

/-- Serialized-member fuel distributes over append. -/
theorem memsDepth_append (l1 l2 : List Member) :
    memsDepth (l1 ++ l2) = max (memsDepth l1) (memsDepth l2) := by
  induction l1 with
  | nil => simp [memsDepth]
  | cons m rest ih =>
    cases m <;> simp only [List.cons_append, memsDepth, ih] <;> omega

/-- Serialized-action fuel distributes over append. -/
theorem actsDepth_append (l1 l2 : List (String × ValueSrc)) :
    actsDepth (l1 ++ l2) = max (actsDepth l1) (actsDepth l2) := by
  induction l1 with
  | nil => simp [actsDepth]
  | cons a rest ih =>
    obtain ⟨k, v⟩ := a
    show actsDepth ((k, v) :: (rest ++ l2)) = _
    rw [show actsDepth ((k, v) :: (rest ++ l2)) =
        max (srcDepth v) (actsDepth (rest ++ l2)) from rfl, ih,
      show actsDepth ((k, v) :: rest) = max (srcDepth v) (actsDepth rest) from rfl]
    omega

/-- Serialized-expression fuel distributes over append. -/
theorem exprsDepth_append (l1 l2 : List RuleExpr) :
    exprsDepth (l1 ++ l2) = max (exprsDepth l1) (exprsDepth l2) := by
  induction l1 with
  | nil => simp [exprsDepth]
  | cons e rest ih =>
    show exprsDepth (e :: (rest ++ l2)) = _
    rw [show exprsDepth (e :: (rest ++ l2)) =
        max (exprDepth e) (exprsDepth (rest ++ l2)) from rfl, ih,
      show exprsDepth (e :: rest) = max (exprDepth e) (exprsDepth rest) from rfl]
    omega

/-- The filter-rebuild loop splits over an appended payload list. -/
theorem fromDictFilterFold_append (reg : Registry) (fuel : Nat) :
    ∀ (l1 l2 : List Val) (src : ValueSrc),
      fromDictFilterFold reg fuel src (l1 ++ l2) =
        match fromDictFilterFold reg fuel src l1 with
        | .ok s' => fromDictFilterFold reg fuel s' l2
        | .error e => .error e := by
  intro l1
  induction l1 with
  | nil =>
    intro l2 src
    simp only [List.nil_append, fromDictFilterFold]
  | cons f rest ih =>
    intro l2 src
    simp only [List.cons_append, fromDictFilterFold]
    cases hk : dIndex f "filter_key" with
    | error e => rfl
    | ok fkeyV =>
      cases ha : dIndex f "args" with
      | error e => rfl
      | ok argsV =>
        cases argsV with
        | vlist al =>
          dsimp only
          cases has : fromDictSrcArgs reg fuel al with
          | error e => rfl
          | ok args =>
            dsimp only
            cases fkeyV with
            | vstr fkey =>
              dsimp only
              cases haf : addFilter reg src fkey args with
              | error e => rfl
              | ok src' => exact ih l2 src'
            | vnone => rfl
            | vbool b => rfl
            | vint n => rfl
            | vfloat q => rfl
            | vdt t => rfl
            | vlist l => rfl
            | vdict d => rfl
        | vnone => rfl
        | vbool b => rfl
        | vint n => rfl
        | vfloat q => rfl
        | vstr s => rfl
        | vdt t => rfl
        | vdict d => rfl

/-- The sub-container rebuild loop splits over an appended payload list. -/
theorem fromDictSubsFold_append (reg : Registry) (fuel : Nat) :
    ∀ (l1 l2 : List Val) (objs : List Member),
      fromDictSubsFold reg fuel objs (l1 ++ l2) =
        match fromDictSubsFold reg fuel objs l1 with
        | .ok o1 => fromDictSubsFold reg fuel o1 l2
        | .error e => .error e := by
  intro l1
  induction l1 with
  | nil =>
    intro l2 objs
    simp only [List.nil_append, fromDictSubsFold]
  | cons x rest ih =>
    intro l2 objs
    simp only [List.cons_append, fromDictSubsFold]
    cases hf : fromDictFacade reg fuel x with
    | error e => rfl
    | ok a =>
      try dsimp only
      cases a with
      | container c => exact ih l2 (objs ++ [.subC c])
      | src s => rfl
      | jsonAttr j => rfl
      | environment env => rfl
      | expr e => rfl
      | runner es => rfl

/-- The action rebuild loop splits over an appended payload list. -/
theorem fromDictActionsFold_append (reg : Registry) (fuel : Nat) :
    ∀ (l1 l2 : List Val) (acc : List (String × ValueSrc)),
      fromDictActionsFold reg fuel acc (l1 ++ l2) =
        match fromDictActionsFold reg fuel acc l1 with
        | .ok a1 => fromDictActionsFold reg fuel a1 l2
        | .error e => .error e := by
  intro l1
  induction l1 with
  | nil =>
    intro l2 acc
    simp only [List.nil_append, fromDictActionsFold]
  | cons x rest ih =>
    intro l2 acc
    simp only [List.cons_append, fromDictActionsFold]
    cases hk : dIndex x "param_key" with
    | error e => rfl
    | ok kV =>
      try dsimp only
      cases hv : dIndex x "value" with
      | error e => rfl
      | ok vV =>
        try dsimp only
        cases hf : fromDictFacade reg fuel vV with
        | error e => rfl
        | ok a =>
          try dsimp only
          cases a with
          | src s => exact ih l2 _
          | container c => rfl
          | jsonAttr j => rfl
          | environment env => rfl
          | expr e => rfl
          | runner es => rfl

/-- The expression rebuild loop splits over an appended payload list. -/
theorem fromDictExprsFold_append (reg : Registry) (fuel : Nat) :
    ∀ (l1 l2 : List Val) (acc : List RuleExpr),
      fromDictExprsFold reg fuel acc (l1 ++ l2) =
        match fromDictExprsFold reg fuel acc l1 with
        | .ok a1 => fromDictExprsFold reg fuel a1 l2
        | .error e => .error e := by
  intro l1
  induction l1 with
  | nil =>
    intro l2 acc
    simp only [List.nil_append, fromDictExprsFold]
  | cons x rest ih =>
    intro l2 acc
    simp only [List.cons_append, fromDictExprsFold]
    cases hf : fromDictFacade reg fuel x with
    | error e => rfl
    | ok a =>
      try dsimp only
      cases a with
      | expr e => exact ih l2 _
      | src s => rfl
      | container c => rfl
      | jsonAttr j => rfl
      | environment env => rfl
      | runner es => rfl

/-- The comparer rebuild loop splits over an appended payload list. -/
theorem fromDictCmpsFold_append (reg : Registry) (fuel : Nat) :
    ∀ (l1 l2 : List Val) (objs : List Member),
      fromDictCmpsFold reg fuel objs (l1 ++ l2) =
        match fromDictCmpsFold reg fuel objs l1 with
        | .ok o1 => fromDictCmpsFold reg fuel o1 l2
        | .error e => .error e := by
  intro l1
  induction l1 with
  | nil =>
    intro l2 objs
    simp only [List.nil_append, fromDictCmpsFold]
  | cons c rest ih =>
    intro l2 objs
    simp only [List.cons_append, fromDictCmpsFold]
    cases ha : dIndex c "args" with
    | error e => rfl
    | ok argsV =>
      try dsimp only
      cases argsV with
      | vlist al =>
        try dsimp only
        cases hsa : fromDictSrcArgs reg fuel al with
        | error e => rfl
        | ok args =>
          try dsimp only
          cases hck : dIndex c "comparer_key" with
          | error e => rfl
          | ok kV =>
            try dsimp only
            cases kV with
            | vstr ckey =>
              try dsimp only
              cases hc1 : dIndex c "comparable1" with
              | error e => rfl
              | ok c1V =>
                try dsimp only
                cases hf1 : fromDictFacade reg fuel c1V with
                | error e => rfl
                | ok a1 =>
                  try dsimp only
                  cases hc2 : dIndex c "comparable2" with
                  | error e => rfl
                  | ok c2V =>
                    try dsimp only
                    cases hf2 : fromDictFacade reg fuel c2V with
                    | error e => rfl
                    | ok a2 =>
                      try dsimp only
                      cases a1 with
                      | src s1 =>
                        cases a2 with
                        | src s2 =>
                          try dsimp only
                          cases hsc : dIndex c "selected_collation" with
                          | error e => rfl
                          | ok scV =>
                            try dsimp only
                            cases scV with
                            | vlist scl =>
                              try dsimp only
                              cases scl with
                              | nil => rfl
                              | cons v1 t1 =>
                                cases v1 with
                                | vstr x =>
                                  cases t1 with
                                  | nil => rfl
                                  | cons v2 t2 =>
                                    cases v2 with
                                    | vstr y =>
                                      cases t2 with
                                      | nil =>
                                        try dsimp only
                                        cases hac : addComparer reg objs ckey s1 s2
                                            (some (x, y)) args with
                                        | error e => rfl
                                        | ok objs' => exact ih l2 objs'
                                      | cons v3 t3 => rfl
                                    | vnone => rfl
                                    | vbool b => rfl
                                    | vint n => rfl
                                    | vfloat q => rfl
                                    | vdt t => rfl
                                    | vlist l => rfl
                                    | vdict d => rfl
                                | vnone => rfl
                                | vbool b => rfl
                                | vint n => rfl
                                | vfloat q => rfl
                                | vdt t => rfl
                                | vlist l => rfl
                                | vdict d => rfl
                            | vnone => rfl
                            | vbool b => rfl
                            | vint n => rfl
                            | vfloat q => rfl
                            | vstr s => rfl
                            | vdt t => rfl
                            | vdict d => rfl
                        | container cc => rfl
                        | jsonAttr j => rfl
                        | environment env => rfl
                        | expr e => rfl
                        | runner es => rfl
                      | container cc => rfl
                      | jsonAttr j => rfl
                      | environment env => rfl
                      | expr e => rfl
                      | runner es => rfl
            | vnone => rfl
            | vbool b => rfl
            | vint n => rfl
            | vfloat q => rfl
            | vdt t => rfl
            | vlist l => rfl
            | vdict d => rfl
      | vnone => rfl
      | vbool b => rfl
      | vint n => rfl
      | vfloat q => rfl
      | vstr s => rfl
      | vdt t => rfl
      | vdict d => rfl

/-- The comparer rebuild loop is accumulator-independent: a successful pass
appends a fixed tail, whatever member list it starts from. -/
theorem fromDictCmpsFold_acc (reg : Registry) (fuel : Nat) :
    ∀ (l : List Val) (acc res : List Member),
      fromDictCmpsFold reg fuel acc l = .ok res →
      ∃ T, res = acc ++ T ∧
        ∀ acc2, fromDictCmpsFold reg fuel acc2 l = .ok (acc2 ++ T) := by
  intro l
  induction l with
  | nil =>
    intro acc res h
    simp only [fromDictCmpsFold] at h
    cases h
    exact ⟨[], by simp, fun acc2 => by simp [fromDictCmpsFold]⟩
  | cons c rest ih =>
    intro acc res h
    simp only [fromDictCmpsFold] at h
    cases ha : dIndex c "args" with
    | error e =>
      simp only [ha] at h
      cases h
    | ok argsV =>
      simp only [ha] at h
      cases argsV with
      | vlist al =>
        try dsimp only at h
        cases hsa : fromDictSrcArgs reg fuel al with
        | error e =>
          simp only [hsa] at h
          cases h
        | ok args =>
          simp only [hsa] at h
          cases hck : dIndex c "comparer_key" with
          | error e => simp only [hck] at h; cases h
          | ok kV =>
            simp only [hck] at h
            cases kV with
            | vstr ckey =>
              try dsimp only at h
              cases hc1 : dIndex c "comparable1" with
              | error e => simp only [hc1] at h; cases h
              | ok c1V =>
                simp only [hc1] at h
                cases hf1 : fromDictFacade reg fuel c1V with
                | error e => simp only [hf1] at h; cases h
                | ok a1 =>
                  simp only [hf1] at h
                  cases hc2 : dIndex c "comparable2" with
                  | error e => simp only [hc2] at h; cases h
                  | ok c2V =>
                    simp only [hc2] at h
                    cases hf2 : fromDictFacade reg fuel c2V with
                    | error e => simp only [hf2] at h; cases h
                    | ok a2 =>
                      simp only [hf2] at h
                      cases a1 with
                      | src s1 =>
                        cases a2 with
                        | src s2 =>
                          try dsimp only at h
                          cases hsc : dIndex c "selected_collation" with
                          | error e => simp only [hsc] at h; cases h
                          | ok scV =>
                            simp only [hsc] at h
                            cases scV with
                            | vlist scl =>
                              try dsimp only at h
                              cases scl with
                              | nil => cases h
                              | cons v1 t1 =>
                                cases v1 with
                                | vstr x =>
                                  cases t1 with
                                  | nil => cases h
                                  | cons v2 t2 =>
                                    cases v2 with
                                    | vstr y =>
                                      cases t2 with
                                      | cons v3 t3 => cases h
                                      | nil =>
                                        try dsimp only at h
                                        cases hac : addComparer reg acc ckey s1 s2
                                            (some (x, y)) args with
                                        | error e => simp only [hac] at h; cases h
                                        | ok objs' =>
                                          simp only [hac] at h
                                          obtain ⟨coll, hof, htrans⟩ :=
                                            addComparer_acc hac
                                          obtain ⟨T, hresT, htransF⟩ := ih objs' res h
                                          refine ⟨.cmp ckey coll s1 s2 args :: T, ?_, ?_⟩
                                          · rw [hresT, hof]
                                            simp
                                          · intro acc2
                                            simp only [fromDictCmpsFold, ha, hsa,
                                              hck, hc1, hf1, hc2, hf2, hsc]
                                            rw [htrans acc2]
                                            dsimp only
                                            have hfin := htransF
                                              (acc2 ++ [Member.cmp ckey coll s1 s2 args])
                                            rw [hfin]
                                            simp
                                    | vnone => cases h
                                    | vbool b => cases h
                                    | vint n => cases h
                                    | vfloat q => cases h
                                    | vdt t => cases h
                                    | vlist l' => cases h
                                    | vdict d => cases h
                                | vnone => cases h
                                | vbool b => cases h
                                | vint n => cases h
                                | vfloat q => cases h
                                | vdt t => cases h
                                | vlist l' => cases h
                                | vdict d => cases h
                            | vnone => cases h
                            | vbool b => cases h
                            | vint n => cases h
                            | vfloat q => cases h
                            | vstr s => cases h
                            | vdt t => cases h
                            | vdict d => cases h
                        | container cc => cases h
                        | jsonAttr j => cases h
                        | environment env => cases h
                        | expr e => cases h
                        | runner es => cases h
                      | container cc => cases h
                      | jsonAttr j => cases h
                      | environment env => cases h
                      | expr e => cases h
                      | runner es => cases h
            | vnone => cases h
            | vbool b => cases h
            | vint n => cases h
            | vfloat q => cases h
            | vdt t => cases h
            | vlist l' => cases h
            | vdict d => cases h
      | vnone => cases h
      | vbool b => cases h
      | vint n => cases h
      | vfloat q => cases h
      | vstr s => cases h
      | vdt t => cases h
      | vdict d => cases h

/-- A successful `add_filter` appends one step to the filter chain, leaving
the base value and type alone. -/
theorem addFilter_shape {reg : Registry} {src : ValueSrc} {fname : String}
    {args : List ValueSrc} {src' : ValueSrc}
    (h : addFilter reg src fname args = .ok src') :
    (∃ ty base fs, src = .const ty base fs ∧
      src' = .const ty base (fs ++ [(fname, args)])) ∨
    (∃ ty path fs, src = .attr ty path fs ∧
      src' = .attr ty path (fs ++ [(fname, args)])) := by
  unfold addFilter at h
  cases hgt : src.getType reg with
  | error e =>
    simp only [hgt] at h
    cases h
  | ok curTy =>
    simp only [hgt] at h
    by_cases hav : ¬ (availFilters reg curTy).contains fname = true
    · rw [if_pos hav] at h
      cases h
    · rw [if_neg hav] at h
      cases hlk : aLookup reg.filters fname with
      | none =>
        simp only [hlk] at h
        cases h
      | some fd =>
        simp only [hlk] at h
        by_cases hlen : fd.params.length ≠ args.length
        · rw [if_pos hlen] at h
          cases h
        · rw [if_neg hlen] at h
          split at h
          · cases h
            cases src with
            | const ty base fs => exact Or.inl ⟨ty, base, fs, rfl, rfl⟩
            | attr ty path fs => exact Or.inr ⟨ty, path, fs, rfl, rfl⟩
          · cases h
          · cases h

/-- Serialization roundtrip for built value sources: with enough fuel the
facade rehydrates `to_dict` of a built source to the source itself. -/
theorem src_roundtrip_main (reg : Registry) {src : ValueSrc} (h : SrcWB reg src) :
    ∀ fuel, srcDepth src ≤ fuel →
      fromDictFacade reg fuel (toDictSrc src) = .ok (.src src) := by
  refine @SrcWB.rec reg
    (fun src _ => ∀ fuel, srcDepth src ≤ fuel →
      fromDictFacade reg fuel (toDictSrc src) = .ok (.src src))
    (fun args _ => ∀ fuel, argsDepth args ≤ fuel →
      fromDictSrcArgs reg fuel (toDictArgs args) = .ok args)
    ?_ ?_ ?_ ?_ ?_ src h
  · intro value tyV src hmk fuel hfu
    obtain ⟨ty, base, rfl, hre⟩ := mkConstant_rebuild hmk
    cases fuel with
    | zero =>
      simp only [srcDepth, filtersDepth] at hfu
      omega
    | succ n =>
      simp [fromDictFacade, toDictSrc, toDictFilters, dIndex, dLookup,
        fromDictConstant, fromDictFilterFold, hre]
  · intro pathV tyV src hmk fuel hfu
    obtain ⟨ty, path, rfl, hre⟩ := mkAttribute_rebuild hmk
    cases fuel with
    | zero =>
      simp only [srcDepth, filtersDepth] at hfu
      omega
    | succ n =>
      simp [fromDictFacade, toDictSrc, toDictFilters, dIndex, dLookup,
        fromDictAttribute, fromDictFilterFold, valueToJsonCompatible,
        valueToJsonCompatibleSingle, hre]
  · intro src fname args src' hs ha hadd ih iha fuel hfu
    rcases addFilter_shape hadd with ⟨ty, base, fs, rfl, rfl⟩ |
      ⟨ty, path, fs, rfl, rfl⟩
    · simp only [srcDepth, filtersDepth_append, filtersDepth] at hfu
      cases fuel with
      | zero => omega
      | succ n =>
        have hdsrc : srcDepth (.const ty base fs) ≤ n + 1 := by
          simp only [srcDepth]
          omega
        have hdargs : argsDepth args ≤ n := by omega
        have hinv := ih (n + 1) hdsrc
        simp [fromDictFacade, toDictSrc, dIndex, dLookup, fromDictConstant] at hinv
        cases hmk : mkConstant (valueToJsonCompatible base) (.vstr ty) with
        | error e => simp [hmk] at hinv
        | ok root =>
          simp only [hmk] at hinv
          cases hfo : fromDictFilterFold reg n root (toDictFilters fs) with
          | error e => simp [hfo] at hinv
          | ok src0 =>
            simp only [hfo, Except.ok.injEq, Artifact.src.injEq] at hinv
            subst hinv
            simp [fromDictFacade, toDictSrc, dIndex, dLookup, fromDictConstant, hmk,
              toDictFilters_append, fromDictFilterFold_append, hfo,
              toDictFilters, fromDictFilterFold, iha n hdargs, hadd]
    · simp only [srcDepth, filtersDepth_append, filtersDepth] at hfu
      cases fuel with
      | zero => omega
      | succ n =>
        have hdsrc : srcDepth (.attr ty path fs) ≤ n + 1 := by
          simp only [srcDepth]
          omega
        have hdargs : argsDepth args ≤ n := by omega
        have hinv := ih (n + 1) hdsrc
        simp [fromDictFacade, toDictSrc, dIndex, dLookup, fromDictAttribute] at hinv
        cases hmk : mkAttribute (valueToJsonCompatible (.vstr path)) (.vstr ty) with
        | error e => simp [hmk] at hinv
        | ok root =>
          simp only [hmk] at hinv
          cases hfo : fromDictFilterFold reg n root (toDictFilters fs) with
          | error e => simp [hfo] at hinv
          | ok src0 =>
            simp only [hfo, Except.ok.injEq, Artifact.src.injEq] at hinv
            subst hinv
            simp [fromDictFacade, toDictSrc, dIndex, dLookup, fromDictAttribute, hmk,
              toDictFilters_append, fromDictFilterFold_append, hfo,
              toDictFilters, fromDictFilterFold, iha n hdargs, hadd]
  · intro fuel _
    simp [toDictArgs, fromDictSrcArgs]
  · intro a as h1 h2 iha ihas fuel hfu
    simp only [argsDepth] at hfu
    have hda : srcDepth a ≤ fuel := by omega
    have hdas : argsDepth as ≤ fuel := by omega
    simp only [toDictArgs, fromDictSrcArgs, iha fuel hda, ihas fuel hdas]

/-- Serialization roundtrip for built argument lists. -/
theorem args_roundtrip (reg : Registry) :
    ∀ args, ArgsWB reg args → ∀ fuel, argsDepth args ≤ fuel →
      fromDictSrcArgs reg fuel (toDictArgs args) = .ok args := by
  intro args
  induction args with
  | nil =>
    intro _ fuel _
    simp [toDictArgs, fromDictSrcArgs]
  | cons a as ih =>
    intro h fuel hfu
    cases h with
    | cons _ _ hs has =>
      simp only [argsDepth] at hfu
      have hda : srcDepth a ≤ fuel := by omega
      have hdas : argsDepth as ≤ fuel := by omega
      simp only [toDictArgs, fromDictSrcArgs, src_roundtrip_main reg hs fuel hda,
        ih has fuel hdas]

/-- Reordered sub-container entries distribute over append. -/
theorem reorderSubs_append (l1 l2 : List Member) :
    reorderSubs (l1 ++ l2) = reorderSubs l1 ++ reorderSubs l2 := by
  induction l1 with
  | nil => simp [reorderSubs]
  | cons m rest ih =>
    cases m <;> simp only [List.cons_append, reorderSubs, ih]

/-- Reordered comparer entries distribute over append. -/
theorem reorderCmps_append (l1 l2 : List Member) :
    reorderCmps (l1 ++ l2) = reorderCmps l1 ++ reorderCmps l2 := by
  induction l1 with
  | nil => simp [reorderCmps]
  | cons m rest ih =>
    cases m <;> simp only [List.cons_append, reorderCmps, ih]

/-- Each payload entry of a successful sub-container rebuild adds exactly one
member. -/
theorem fromDictSubsFold_length (reg : Registry) (fuel : Nat) :
    ∀ (l : List Val) (objs res : List Member),
      fromDictSubsFold reg fuel objs l = .ok res →
      res.length = objs.length + l.length := by
  intro l
  induction l with
  | nil =>
    intro objs res h
    simp only [fromDictSubsFold] at h
    cases h
    simp
  | cons x rest ih =>
    intro objs res h
    simp only [fromDictSubsFold] at h
    cases hf : fromDictFacade reg fuel x with
    | error e =>
      simp only [hf] at h
      cases h
    | ok a =>
      simp only [hf] at h
      cases a with
      | container c =>
        have := ih (objs ++ [.subC c]) res h
        simp only [List.length_append, List.length_cons, List.length_nil] at this ⊢
        omega
      | src s => cases h
      | jsonAttr j => cases h
      | environment env => cases h
      | expr e => cases h
      | runner es => cases h

/-- The serialized and the reordered sub-container entries count the same
members. -/
theorem toDictSubs_length_reorder (l : List Member) :
    (toDictSubs l).length = (reorderSubs l).length := by
  induction l with
  | nil => simp [toDictSubs, reorderSubs]
  | cons m rest ih =>
    cases m <;> simp only [toDictSubs, reorderSubs, List.length_cons, ih]

/-- Inversion of a successful `AndOperator` rehydration: the two folds
succeeded and assembled the result. -/
theorem cont_inv_and {reg : Registry} {m : Nat} {notOp : Bool}
    {objs : List Member} {res : Artifact}
    (h : fromDictFacade reg (m + 1) (toDictContainer (.andC notOp objs)) = .ok res) :
    ∃ S0 O1, fromDictSubsFold reg m [] (toDictSubs objs) = .ok S0 ∧
      fromDictCmpsFold reg m S0 (toDictCmps objs) = .ok O1 ∧
      res = .container (.andC notOp O1) := by
  simp [fromDictFacade, toDictContainer, dIndex, dLookup, fromDictContainer] at h
  cases hsub : fromDictSubsFold reg m [] (toDictSubs objs) with
  | error e => simp [hsub] at h
  | ok S0 =>
    simp only [hsub] at h
    cases hcmp : fromDictCmpsFold reg m S0 (toDictCmps objs) with
    | error e => simp [hcmp] at h
    | ok O1 =>
      simp only [hcmp] at h
      exact ⟨S0, O1, rfl, hcmp, by simp_all⟩

/-- Inversion of a successful `OrOperator` rehydration. -/
theorem cont_inv_or {reg : Registry} {m : Nat} {notOp : Bool}
    {objs : List Member} {res : Artifact}
    (h : fromDictFacade reg (m + 1) (toDictContainer (.orC notOp objs)) = .ok res) :
    ∃ S0 O1, fromDictSubsFold reg m [] (toDictSubs objs) = .ok S0 ∧
      fromDictCmpsFold reg m S0 (toDictCmps objs) = .ok O1 ∧
      res = .container (.orC notOp O1) := by
  simp [fromDictFacade, toDictContainer, dIndex, dLookup, fromDictContainer] at h
  cases hsub : fromDictSubsFold reg m [] (toDictSubs objs) with
  | error e => simp [hsub] at h
  | ok S0 =>
    simp only [hsub] at h
    cases hcmp : fromDictCmpsFold reg m S0 (toDictCmps objs) with
    | error e => simp [hcmp] at h
    | ok O1 =>
      simp only [hcmp] at h
      exact ⟨S0, O1, rfl, hcmp, by simp_all⟩

/-- Serialization roundtrip for built containers: the facade rehydrates
`to_dict` of a built container to its member-reordered form (sub-containers
first, then comparers). -/
theorem cont_roundtrip (reg : Registry) (hwf : RegistryWF reg) {c : Container}
    (h : ContWB reg c) :
    ∀ fuel, contDepth c ≤ fuel →
      fromDictFacade reg fuel (toDictContainer c) =
        .ok (.container (reorderContainer c)) := by
  induction h with
  | newAnd =>
    intro fuel hfu
    simp only [contDepth, memsDepth] at hfu
    cases fuel with
    | zero => omega
    | succ m =>
      simp [fromDictFacade, toDictContainer, toDictSubs, toDictCmps, dIndex,
        dLookup, fromDictContainer, fromDictSubsFold, fromDictCmpsFold,
        reorderContainer, reorderSubs, reorderCmps]
  | newOr =>
    intro fuel hfu
    simp only [contDepth, memsDepth] at hfu
    cases fuel with
    | zero => omega
    | succ m =>
      simp [fromDictFacade, toDictContainer, toDictSubs, toDictCmps, dIndex,
        dLookup, fromDictContainer, fromDictSubsFold, fromDictCmpsFold,
        reorderContainer, reorderSubs, reorderCmps]
  | addSubAnd n₀ objs c hco hcc iho ihc =>
    intro fuel hfu
    simp only [contDepth, memsDepth_append, memsDepth] at hfu
    cases fuel with
    | zero => omega
    | succ m =>
      have hdold : contDepth (.andC n₀ objs) ≤ m + 1 := by
        simp only [contDepth]
        omega
      have hdc : contDepth c ≤ m := by omega
      obtain ⟨S0, O1, hsub, hcmp, hres⟩ := cont_inv_and (iho (m + 1) hdold)
      have hO1 : O1 = reorderSubs objs ++ reorderCmps objs := by
        simp only [reorderContainer, Artifact.container.injEq,
          Container.andC.injEq] at hres
        exact hres.2.symm
      have hS0len : S0.length = (reorderSubs objs).length := by
        have := fromDictSubsFold_length reg m (toDictSubs objs) [] S0 hsub
        rw [toDictSubs_length_reorder] at this
        simpa using this
      obtain ⟨T, hT, htrans⟩ := fromDictCmpsFold_acc reg m (toDictCmps objs) S0 O1 hcmp
      obtain ⟨hS0, hTeq⟩ := List.append_inj (hT ▸ hO1.symm).symm hS0len
      subst hS0
      subst hTeq
      simp [fromDictFacade, toDictContainer, dIndex, dLookup, fromDictContainer,
        toDictSubs_append, toDictCmps_append, toDictSubs, toDictCmps,
        fromDictSubsFold_append, hsub, fromDictSubsFold, ihc m hdc, htrans,
        reorderContainer, reorderSubs_append, reorderCmps_append,
        reorderSubs, reorderCmps]
  | addSubOr n₀ objs c hco hcc iho ihc =>
    intro fuel hfu
    simp only [contDepth, memsDepth_append, memsDepth] at hfu
    cases fuel with
    | zero => omega
    | succ m =>
      have hdold : contDepth (.orC n₀ objs) ≤ m + 1 := by
        simp only [contDepth]
        omega
      have hdc : contDepth c ≤ m := by omega
      obtain ⟨S0, O1, hsub, hcmp, hres⟩ := cont_inv_or (iho (m + 1) hdold)
      have hO1 : O1 = reorderSubs objs ++ reorderCmps objs := by
        simp only [reorderContainer, Artifact.container.injEq,
          Container.orC.injEq] at hres
        exact hres.2.symm
      have hS0len : S0.length = (reorderSubs objs).length := by
        have := fromDictSubsFold_length reg m (toDictSubs objs) [] S0 hsub
        rw [toDictSubs_length_reorder] at this
        simpa using this
      obtain ⟨T, hT, htrans⟩ := fromDictCmpsFold_acc reg m (toDictCmps objs) S0 O1 hcmp
      obtain ⟨hS0, hTeq⟩ := List.append_inj (hT ▸ hO1.symm).symm hS0len
      subst hS0
      subst hTeq
      simp [fromDictFacade, toDictContainer, dIndex, dLookup, fromDictContainer,
        toDictSubs_append, toDictCmps_append, toDictSubs, toDictCmps,
        fromDictSubsFold_append, hsub, fromDictSubsFold, ihc m hdc, htrans,
        reorderContainer, reorderSubs_append, reorderCmps_append,
        reorderSubs, reorderCmps]
  | addCmpAnd n₀ objs name c1 c2 ov args objs' hco hs1 hs2 hargs hadd iho =>
    intro fuel hfu
    obtain ⟨coll, hobjs', htr⟩ := addComparer_rebuild hwf hadd
    obtain ⟨x, y⟩ := coll
    subst hobjs'
    simp only [contDepth, memsDepth_append, memsDepth] at hfu
    cases fuel with
    | zero => omega
    | succ m =>
      have hdold : contDepth (.andC n₀ objs) ≤ m + 1 := by
        simp only [contDepth]
        omega
      have hd1 : srcDepth c1 ≤ m := by omega
      have hd2 : srcDepth c2 ≤ m := by omega
      have hda : argsDepth args ≤ m := by omega
      obtain ⟨S0, O1, hsub, hcmp, hres⟩ := cont_inv_and (iho (m + 1) hdold)
      have hO1 : O1 = reorderSubs objs ++ reorderCmps objs := by
        simp only [reorderContainer, Artifact.container.injEq,
          Container.andC.injEq] at hres
        exact hres.2.symm
      subst hO1
      simp [fromDictFacade, toDictContainer, dIndex, dLookup, fromDictContainer,
        toDictSubs_append, toDictCmps_append, toDictSubs, toDictCmps,
        hsub, fromDictCmpsFold_append, hcmp, fromDictCmpsFold,
        args_roundtrip reg args hargs m hda,
        src_roundtrip_main reg hs1 m hd1, src_roundtrip_main reg hs2 m hd2,
        htr, reorderContainer, reorderSubs_append, reorderCmps_append,
        reorderSubs, reorderCmps, List.append_assoc]
  | addCmpOr n₀ objs name c1 c2 ov args objs' hco hs1 hs2 hargs hadd iho =>
    intro fuel hfu
    obtain ⟨coll, hobjs', htr⟩ := addComparer_rebuild hwf hadd
    obtain ⟨x, y⟩ := coll
    subst hobjs'
    simp only [contDepth, memsDepth_append, memsDepth] at hfu
    cases fuel with
    | zero => omega
    | succ m =>
      have hdold : contDepth (.orC n₀ objs) ≤ m + 1 := by
        simp only [contDepth]
        omega
      have hd1 : srcDepth c1 ≤ m := by omega
      have hd2 : srcDepth c2 ≤ m := by omega
      have hda : argsDepth args ≤ m := by omega
      obtain ⟨S0, O1, hsub, hcmp, hres⟩ := cont_inv_or (iho (m + 1) hdold)
      have hO1 : O1 = reorderSubs objs ++ reorderCmps objs := by
        simp only [reorderContainer, Artifact.container.injEq,
          Container.orC.injEq] at hres
        exact hres.2.symm
      subst hO1
      simp [fromDictFacade, toDictContainer, dIndex, dLookup, fromDictContainer,
        toDictSubs_append, toDictCmps_append, toDictSubs, toDictCmps,
        hsub, fromDictCmpsFold_append, hcmp, fromDictCmpsFold,
        args_roundtrip reg args hargs m hda,
        src_roundtrip_main reg hs1 m hd1, src_roundtrip_main reg hs2 m hd2,
        htr, reorderContainer, reorderSubs_append, reorderCmps_append,
        reorderSubs, reorderCmps, List.append_assoc]
  | setNotAnd n n' objs hco iho =>
    intro fuel hfu
    simp only [contDepth] at hfu
    cases fuel with
    | zero => omega
    | succ m =>
      have hdold : contDepth (.andC n objs) ≤ m + 1 := by
        simp only [contDepth]
        omega
      obtain ⟨S0, O1, hsub, hcmp, hres⟩ := cont_inv_and (iho (m + 1) hdold)
      have hO1 : O1 = reorderSubs objs ++ reorderCmps objs := by
        simp only [reorderContainer, Artifact.container.injEq,
          Container.andC.injEq] at hres
        exact hres.2.symm
      simp [fromDictFacade, toDictContainer, dIndex, dLookup, fromDictContainer,
        hsub, hcmp, reorderContainer, hO1]
  | setNotOr n n' objs hco iho =>
    intro fuel hfu
    simp only [contDepth] at hfu
    cases fuel with
    | zero => omega
    | succ m =>
      have hdold : contDepth (.orC n objs) ≤ m + 1 := by
        simp only [contDepth]
        omega
      obtain ⟨S0, O1, hsub, hcmp, hres⟩ := cont_inv_or (iho (m + 1) hdold)
      have hO1 : O1 = reorderSubs objs ++ reorderCmps objs := by
        simp only [reorderContainer, Artifact.container.injEq,
          Container.orC.injEq] at hres
        exact hres.2.symm
      simp [fromDictFacade, toDictContainer, dIndex, dLookup, fromDictContainer,
        hsub, hcmp, reorderContainer, hO1]

/-- Serialization roundtrip for `JsonAttribute`s. -/
theorem jsonAttr_roundtrip (reg : Registry) (a : JsonAttr) :
    ∀ fuel, 1 ≤ fuel →
      fromDictFacade reg fuel (toDictJsonAttr a) = .ok (.jsonAttr a) := by
  intro fuel hfu
  cases fuel with
  | zero => omega
  | succ m =>
    obtain ⟨ds, aty, dt, pn, desc, ro, ml⟩ := a
    cases aty <;> cases ml <;>
      simp [fromDictFacade, toDictJsonAttr, dIndex, dLookup, fromDictJsonAttr]

/-- The structural invariants every buildable environment satisfies: no
duplicate attributes or mappings, and every mapping resolves to an input
attribute on the left and an output attribute on the right. -/
theorem envWB_invariant {env : EnvironmentV} (h : EnvWB env) :
    env.attributes.Nodup ∧ env.defaultMappings.Nodup ∧
    ∀ p ∈ env.defaultMappings,
      (∃ ia, env.attributes.get? p.1 = some ia ∧ ia.attributeType = .input) ∧
      (∃ oa, env.attributes.get? p.2 = some oa ∧ oa.attributeType = .output) := by
  induction h with
  | nil => exact ⟨List.nodup_nil, List.nodup_nil, fun p hp => absurd hp (by simp)⟩
  | addAttr env a henv ih =>
    obtain ⟨hnd, hmnd, hval⟩ := ih
    unfold addAttribute
    by_cases hc : env.attributes.contains a = true
    · rw [if_pos hc]
      exact ⟨hnd, hmnd, hval⟩
    · rw [if_neg hc]
      have hna : a ∉ env.attributes := by simpa using hc
      refine ⟨?_, hmnd, ?_⟩
      · simp [List.nodup_append, hnd, hna]
      · intro p hp
        obtain ⟨⟨ia, hia, hiat⟩, ⟨oa, hoa, hoat⟩⟩ := hval p hp
        have hilt : p.1 < env.attributes.length := by
          by_contra hge
          rw [List.get?_eq_none.mpr (by omega)] at hia
          cases hia
        have holt : p.2 < env.attributes.length := by
          by_contra hge
          rw [List.get?_eq_none.mpr (by omega)] at hoa
          cases hoa
        refine ⟨⟨ia, ?_, hiat⟩, ⟨oa, ?_, hoat⟩⟩
        · rw [List.get?_append hilt]
          exact hia
        · rw [List.get?_append holt]
          exact hoa
  | addMap env i o env' henv hadd ih =>
    obtain ⟨hnd, hmnd, hval⟩ := ih
    unfold addDefaultMappingWithIndex at hadd
    cases hia : env.attributes.get? i with
    | none =>
      simp only [hia] at hadd
      cases hadd
    | some ia =>
      cases hoa : env.attributes.get? o with
      | none =>
        simp only [hia, hoa] at hadd
        cases hadd
      | some oa =>
        simp only [hia, hoa] at hadd
        by_cases hit : ia.attributeType ≠ JAttrType.input
        · rw [if_pos hit] at hadd
          cases hadd
        · rw [if_neg hit] at hadd
          by_cases hot : oa.attributeType ≠ JAttrType.output
          · rw [if_pos hot] at hadd
            cases hadd
          · rw [if_neg hot] at hadd
            by_cases hdup : env.defaultMappings.contains (i, o) = true
            · rw [if_pos hdup] at hadd
              cases hadd
              exact ⟨hnd, hmnd, hval⟩
            · rw [if_neg hdup] at hadd
              cases hadd
              refine ⟨hnd, ?_, ?_⟩
              · have hnm : (i, o) ∉ env.defaultMappings := by simpa using hdup
                simp only [List.nodup_append, List.nodup_singleton, true_and]
                refine ⟨hmnd, ?_⟩
                intro q hq hq1
                simp only [List.mem_singleton] at hq1
                subst hq1
                exact hnm hq
              · intro p hp
                rcases List.mem_append.mp hp with hp1 | hp2
                · exact hval p hp1
                · simp only [List.mem_singleton] at hp2
                  subst hp2
                  exact ⟨⟨ia, hia, not_not.mp hit⟩,
                    ⟨oa, hoa, not_not.mp hot⟩⟩

/-- Replaying the serialized attribute list of a duplicate-free environment
rebuilds exactly that list. -/
theorem attrsFold_replay (reg : Registry) (fuel : Nat) (hf : 1 ≤ fuel) :
    ∀ (attrs pre : List JsonAttr) (pms : List (Nat × Nat)),
      (pre ++ attrs).Nodup →
      fromDictAttrsFold reg fuel ⟨pre, pms⟩ (attrs.map toDictJsonAttr) =
        .ok ⟨pre ++ attrs, pms⟩ := by
  intro attrs
  induction attrs with
  | nil =>
    intro pre pms hnd
    simp [fromDictAttrsFold]
  | cons a rest ih =>
    intro pre pms hnd
    have hna : a ∉ pre := by
      rcases List.nodup_append.mp hnd with ⟨-, -, hdisj⟩
      intro hmem
      exact hdisj hmem (by simp)
    have hstep : addAttribute ⟨pre, pms⟩ a = ⟨pre ++ [a], pms⟩ := by
      unfold addAttribute
      rw [if_neg (by simpa using hna)]
    simp only [List.map_cons, fromDictAttrsFold, jsonAttr_roundtrip reg a fuel hf]
    rw [hstep]
    have hnd' : ((pre ++ [a]) ++ rest).Nodup := by simpa using hnd
    rw [ih (pre ++ [a]) pms hnd']
    simp

/-- `Except` bind on a success is application. -/
theorem exceptBind_ok {α β : Type} (a : α) (f : α → Except Err β) :
    (Except.ok a >>= f) = f a := rfl

/-- Replaying the serialized index mappings of a duplicate-free, validated
environment rebuilds exactly those mappings. -/
theorem mapsFold_replay (attrs : List JsonAttr) :
    ∀ (maps pre : List (Nat × Nat)),
      (pre ++ maps).Nodup →
      (∀ p ∈ maps,
        (∃ ia, attrs.get? p.1 = some ia ∧ ia.attributeType = JAttrType.input) ∧
        (∃ oa, attrs.get? p.2 = some oa ∧ oa.attributeType = JAttrType.output)) →
      ((maps.map (fun p => Val.vlist [Val.vint p.1, Val.vint p.2])).foldlM
        (fun env mv =>
          match mv with
          | Val.vlist [Val.vint i, Val.vint o] =>
            if h : 0 ≤ i ∧ 0 ≤ o then
              addDefaultMappingWithIndex env i.toNat o.toNat
            else .error Err.typeError
          | _ => .error Err.typeError)
        (⟨attrs, pre⟩ : EnvironmentV) : Except Err EnvironmentV) =
      .ok ⟨attrs, pre ++ maps⟩ := by
  intro maps
  induction maps with
  | nil =>
    intro pre hnd hval
    simp only [List.map_nil, List.append_nil]
    rfl
  | cons p rest ih =>
    intro pre hnd hval
    obtain ⟨i, o⟩ := p
    obtain ⟨⟨ia, hia, hiat⟩, ⟨oa, hoa, hoat⟩⟩ := hval (i, o) (by simp)
    have hnm : (i, o) ∉ pre := by
      rcases List.nodup_append.mp hnd with ⟨-, -, hdisj⟩
      intro hmem
      exact hdisj hmem (by simp)
    have hstep : addDefaultMappingWithIndex ⟨attrs, pre⟩ i o =
        .ok ⟨attrs, pre ++ [(i, o)]⟩ := by
      unfold addDefaultMappingWithIndex
      simp only [hia, hoa]
      rw [if_neg (fun hn => hn hiat), if_neg (fun hn => hn hoat),
        if_neg (by simpa using hnm)]
    have hnd' : ((pre ++ [(i, o)]) ++ rest).Nodup := by simpa using hnd
    have hval' : ∀ q ∈ rest,
        (∃ ia, attrs.get? q.1 = some ia ∧ ia.attributeType = JAttrType.input) ∧
        (∃ oa, attrs.get? q.2 = some oa ∧ oa.attributeType = JAttrType.output) :=
      fun q hq => hval q (List.mem_cons_of_mem _ hq)
    simp only [List.map_cons, List.foldlM_cons]
    show (if _h : 0 ≤ (i : Int) ∧ 0 ≤ (o : Int) then
        addDefaultMappingWithIndex ⟨attrs, pre⟩ (i : Int).toNat (o : Int).toNat
      else Except.error Err.typeError) >>= _ = _
    rw [dif_pos (by omega)]
    simp only [Int.toNat_natCast]
    rw [hstep, exceptBind_ok]
    exact (ih (pre ++ [(i, o)]) hnd' hval').trans (by simp)

/-- Serialization roundtrip for built environments: re-adding the serialized
attributes and mappings rebuilds the same environment. -/
theorem env_roundtrip (reg : Registry) {env : EnvironmentV} (h : EnvWB env) :
    ∀ fuel, 2 ≤ fuel →
      fromDictFacade reg fuel (toDictEnvironment env) = .ok (.environment env) := by
  intro fuel hfu
  obtain ⟨hnd, hmnd, hval⟩ := envWB_invariant h
  obtain ⟨attrs, maps⟩ := env
  cases fuel with
  | zero => omega
  | succ m =>
    have hm : 1 ≤ m := by omega
    have hattrs := attrsFold_replay reg m hm attrs [] [] (by simpa using hnd)
    have hmaps := mapsFold_replay attrs maps [] (by simpa using hmnd)
      (by simpa using hval)
    simp only [List.nil_append] at hattrs hmaps
    simp [fromDictFacade, toDictEnvironment, dIndex, dLookup, fromDictEnvironment,
      hattrs, hmaps, -dite_eq_ite]

/-- Inversion of a successful `RuleExpression` rehydration. -/
theorem expr_inv {reg : Registry} {m : Nat} {bc : Container}
    {acts : List (String × ValueSrc)} {res : Artifact}
    (h : fromDictFacade reg (m + 1) (toDictRuleExpr ⟨bc, acts⟩) = .ok res) :
    ∃ A acts0, fromDictFacade reg m (toDictContainer bc) = .ok (.container A) ∧
      fromDictActionsFold reg m [] (acts.map (fun a =>
        .vdict [("param_key", .vstr a.1), ("value", toDictSrc a.2)])) = .ok acts0 ∧
      res = .expr ⟨A, acts0⟩ := by
  simp [fromDictFacade, toDictRuleExpr, dIndex, dLookup, fromDictRuleExpr] at h
  cases hbc : fromDictFacade reg m (toDictContainer bc) with
  | error e => simp [hbc] at h
  | ok a =>
    simp only [hbc] at h
    cases a with
    | container A =>
      try dsimp only at h
      cases hacts : fromDictActionsFold reg m [] (acts.map (fun a =>
          .vdict [("param_key", .vstr a.1), ("value", toDictSrc a.2)])) with
      | error e => simp [hacts] at h
      | ok acts0 =>
        simp only [hacts] at h
        exact ⟨A, acts0, rfl, rfl, by simp_all⟩
    | src s => cases h
    | jsonAttr j => cases h
    | environment env => cases h
    | expr e => cases h
    | runner es => cases h

/-- Serialization roundtrip for built expressions: the base container is
reordered, the action list survives unchanged. -/
theorem expr_roundtrip (reg : Registry) (hwf : RegistryWF reg) {e : RuleExpr}
    (h : ExprWB reg e) :
    ∀ fuel, exprDepth e ≤ fuel →
      fromDictFacade reg fuel (toDictRuleExpr e) =
        .ok (.expr ⟨reorderContainer e.baseContainer, e.actions⟩) := by
  induction h with
  | base bc hbc =>
    intro fuel hfu
    simp only [exprDepth, actsDepth] at hfu
    cases fuel with
    | zero => omega
    | succ m =>
      have hdc : contDepth bc ≤ m := by omega
      simp [fromDictFacade, toDictRuleExpr, dIndex, dLookup, fromDictRuleExpr,
        cont_roundtrip reg hwf hbc m hdc, fromDictActionsFold]
  | addAction bc acts k v hex hv ih =>
    intro fuel hfu
    simp only [exprDepth, actsDepth_append, actsDepth] at hfu
    cases fuel with
    | zero => omega
    | succ m =>
      have hdold : exprDepth ⟨bc, acts⟩ ≤ m + 1 := by
        simp only [exprDepth]
        omega
      have hdv : srcDepth v ≤ m := by omega
      obtain ⟨A, acts0, hbcre, hacts, hres⟩ := expr_inv (ih (m + 1) hdold)
      have hA : A = reorderContainer bc := by
        simp only [Artifact.expr.injEq, RuleExpr.mk.injEq] at hres
        exact hres.1.symm
      have hacts0 : acts0 = acts := by
        simp only [Artifact.expr.injEq, RuleExpr.mk.injEq] at hres
        exact hres.2.symm
      subst hA
      subst hacts0
      simp [fromDictFacade, toDictRuleExpr, dIndex, dLookup, fromDictRuleExpr,
        hbcre, List.map_append, fromDictActionsFold_append, hacts,
        fromDictActionsFold, src_roundtrip_main reg hv m hdv]

/-- Serialization roundtrip for built runners. -/
theorem runner_roundtrip (reg : Registry) (hwf : RegistryWF reg)
    {es : List RuleExpr} (h : RunnerWB reg es) :
    ∀ fuel, 1 + exprsDepth es ≤ fuel →
      fromDictFacade reg fuel (toDictRunner es) =
        .ok (.runner (es.map (fun e => ⟨reorderContainer e.baseContainer, e.actions⟩))) := by
  induction h with
  | nil =>
    intro fuel hfu
    cases fuel with
    | zero => omega
    | succ m =>
      simp [fromDictFacade, toDictRunner, dIndex, dLookup, fromDictRunner,
        fromDictExprsFold]
  | add es e hes hex ihes =>
    intro fuel hfu
    rw [exprsDepth_append] at hfu
    cases fuel with
    | zero => omega
    | succ m =>
      have hdold : 1 + exprsDepth es ≤ m + 1 := by
        simp only [exprsDepth] at hfu ⊢
        omega
      have hde : exprDepth e ≤ m := by
        simp only [exprsDepth] at hfu
        omega
      have hinv := ihes (m + 1) hdold
      simp [fromDictFacade, toDictRunner, dIndex, dLookup, fromDictRunner] at hinv
      cases hfo : fromDictExprsFold reg m [] (es.map toDictRuleExpr) with
      | error e' => simp [hfo] at hinv
      | ok exprs0 =>
        simp only [hfo, Except.ok.injEq, Artifact.runner.injEq] at hinv
        simp [fromDictFacade, toDictRunner, dIndex, dLookup, fromDictRunner,
          List.map_append, fromDictExprsFold_append, hfo,
          fromDictExprsFold, expr_roundtrip reg hwf hex m hde, hinv]

/-- Member evaluation splits over an appended member list. -/
theorem evalMembers_append (reg : Registry) (row : Val) :
    ∀ l1 l2, evalMembers reg row (l1 ++ l2) =
      match evalMembers reg row l1 with
      | .ok b1 =>
        match evalMembers reg row l2 with
        | .ok b2 => .ok (b1 ++ b2)
        | .error e => .error e
      | .error e => .error e := by
  intro l1
  induction l1 with
  | nil =>
    intro l2
    cases h2 : evalMembers reg row l2 <;> simp [evalMembers, h2]
  | cons m rest ih =>
    intro l2
    cases m with
    | subC c =>
      simp only [List.cons_append, evalMembers]
      cases hev : evalContainer reg row c with
      | error e => rfl
      | ok b =>
        dsimp only
        rw [ih]
        cases hr : evalMembers reg row rest with
        | error e => rfl
        | ok bs =>
          dsimp only
          cases h2 : evalMembers reg row l2 with
          | error e => rfl
          | ok b2 => simp
    | cmp key coll c1 c2 args =>
      simp only [List.cons_append, evalMembers]
      cases hev : evalCmp reg row key coll c1 c2 args with
      | error e => rfl
      | ok v =>
        dsimp only
        rw [ih]
        cases hr : evalMembers reg row rest with
        | error e => rfl
        | ok bs =>
          dsimp only
          cases h2 : evalMembers reg row l2 with
          | error e => rfl
          | ok b2 => simp

/-- A sub-container member is smaller than its member list. -/
theorem sizeOf_subC_mem {c : Container} : ∀ {objs : List Member},
    Member.subC c ∈ objs → sizeOf c < sizeOf objs := by
  intro objs
  induction objs with
  | nil => intro h; cases h
  | cons m rest ih =>
    intro h
    rcases List.mem_cons.mp h with rfl | hr
    · simp
      omega
    · have := ih hr
      have h0 : 0 < sizeOf m := by
        cases m <;> simp_arith
      simp only [List.cons.sizeOf_spec]
      omega

/-- Self-agreement of an evaluation. -/
theorem sameOk_refl {α : Type} (x : Except Err α) : sameOk x x := by
  cases x <;> simp [sameOk]

/-- Partitioning a member list into its (recursively reordered)
sub-containers followed by its comparers preserves evaluation up to the
raised error: the successful truth lists are a permutation preserving both
the conjunction and the disjunction, and failure happens exactly together. -/
theorem members_reorder (reg : Registry) (row : Val) :
    ∀ (objs : List Member),
      (∀ c, Member.subC c ∈ objs →
        sameOk (evalContainer reg row c)
          (evalContainer reg row (reorderContainer c))) →
      (∀ bs, evalMembers reg row objs = .ok bs →
        ∃ b1 b2, evalMembers reg row (reorderSubs objs) = .ok b1 ∧
          evalMembers reg row (reorderCmps objs) = .ok b2 ∧
          bs.all id = (b1 ++ b2).all id ∧ bs.any id = (b1 ++ b2).any id) ∧
      (∀ e, evalMembers reg row objs = .error e →
        ∃ e', evalMembers reg row (reorderSubs objs ++ reorderCmps objs) =
          .error e') := by
  intro objs
  induction objs with
  | nil =>
    intro _
    constructor
    · intro bs h
      simp only [evalMembers] at h
      cases h
      exact ⟨[], [], by simp [reorderSubs, evalMembers],
        by simp [reorderCmps, evalMembers], rfl, rfl⟩
    · intro e h
      simp only [evalMembers] at h
      cases h
  | cons m rest ih =>
    intro hih
    have hihr : ∀ c, Member.subC c ∈ rest →
        sameOk (evalContainer reg row c)
          (evalContainer reg row (reorderContainer c)) :=
      fun c hc => hih c (List.mem_cons_of_mem _ hc)
    obtain ⟨ihok, iherr⟩ := ih hihr
    cases m with
    | subC c =>
      have hc := hih c (List.mem_cons_self _ _)
      constructor
      · intro bs h
        simp only [evalMembers] at h
        cases hev : evalContainer reg row c with
        | error e =>
          simp only [hev] at h
          cases h
        | ok b =>
          simp only [hev] at h
          cases hr : evalMembers reg row rest with
          | error e => simp only [hr] at h; cases h
          | ok bs0 =>
            simp only [hr] at h
            cases h
            obtain ⟨b1, b2, hb1, hb2, hall, hany⟩ := ihok bs0 hr
            have hcre : evalContainer reg row (reorderContainer c) = .ok b := by
              rw [hev] at hc
              cases hc2 : evalContainer reg row (reorderContainer c) with
              | error e =>
                rw [hc2] at hc
                cases hc
              | ok b' =>
                rw [hc2] at hc
                simp only [sameOk] at hc
                rw [hc]
            refine ⟨b :: b1, b2, ?_, ?_, ?_, ?_⟩
            · simp only [reorderSubs, evalMembers, hcre, hb1]
            · simp only [reorderCmps]
              exact hb2
            · simp only [List.all_cons, List.cons_append, hall]
            · simp only [List.any_cons, List.cons_append, hany]
      · intro e h
        simp only [evalMembers] at h
        cases hev : evalContainer reg row c with
        | error e0 =>
          have hcre : ∃ e1, evalContainer reg row (reorderContainer c) =
              .error e1 := by
            rw [hev] at hc
            cases hc2 : evalContainer reg row (reorderContainer c) with
            | error e1 => exact ⟨e1, rfl⟩
            | ok b' =>
              rw [hc2] at hc
              cases hc
          obtain ⟨e1, hcre⟩ := hcre
          refine ⟨e1, ?_⟩
          simp only [reorderSubs, List.cons_append, evalMembers, hcre]
        | ok b =>
          simp only [hev] at h
          cases hr : evalMembers reg row rest with
          | ok bs0 =>
            simp only [hr] at h
            cases h
          | error e0 =>
            simp only [hr] at h
            cases h
            have hcre : evalContainer reg row (reorderContainer c) = .ok b := by
              rw [hev] at hc
              cases hc2 : evalContainer reg row (reorderContainer c) with
              | error e1 =>
                rw [hc2] at hc
                cases hc
              | ok b' =>
                rw [hc2] at hc
                simp only [sameOk] at hc
                rw [hc]
            obtain ⟨e', herr⟩ := iherr e hr
            refine ⟨e', ?_⟩
            simp only [reorderSubs, reorderCmps, List.cons_append, evalMembers,
              hcre, herr]
    | cmp key coll c1 c2 args =>
      constructor
      · intro bs h
        simp only [evalMembers] at h
        cases hev : evalCmp reg row key coll c1 c2 args with
        | error e => simp only [hev] at h; cases h
        | ok v =>
          simp only [hev] at h
          cases hr : evalMembers reg row rest with
          | error e => simp only [hr] at h; cases h
          | ok bs0 =>
            simp only [hr] at h
            cases h
            obtain ⟨b1, b2, hb1, hb2, hall, hany⟩ := ihok bs0 hr
            refine ⟨b1, pyTruthy v :: b2, ?_, ?_, ?_, ?_⟩
            · simp only [reorderSubs]
              exact hb1
            · simp only [reorderCmps, evalMembers, hev, hb2]
            · simp only [List.all_cons, List.all_append, hall]
              cases pyTruthy v <;> cases bs0.all id <;>
                cases b1.all id <;> cases b2.all id <;> simp_all
            · simp only [List.any_cons, List.any_append, hany]
              cases pyTruthy v <;> cases bs0.any id <;>
                cases b1.any id <;> cases b2.any id <;> simp_all
      · intro e h
        simp only [evalMembers] at h
        cases hev : evalCmp reg row key coll c1 c2 args with
        | error e0 =>
          simp only [hev] at h
          cases h
          simp only [reorderSubs, reorderCmps]
          rw [evalMembers_append]
          cases hS : evalMembers reg row (reorderSubs rest) with
          | error e1 => exact ⟨e1, rfl⟩
          | ok b1 =>
            refine ⟨e, ?_⟩
            simp only [evalMembers, hev]
        | ok v =>
          simp only [hev] at h
          cases hr : evalMembers reg row rest with
          | ok bs0 => simp only [hr] at h; cases h
          | error e0 =>
            simp only [hr] at h
            cases h
            obtain ⟨e', herr⟩ := iherr e hr
            rw [evalMembers_append] at herr
            simp only [reorderSubs, reorderCmps]
            rw [evalMembers_append]
            cases hS : evalMembers reg row (reorderSubs rest) with
            | error e1 => exact ⟨e1, rfl⟩
            | ok b1 =>
              rw [hS] at herr
              cases hC : evalMembers reg row (reorderCmps rest) with
              | ok b2 =>
                rw [hC] at herr
                simp at herr
              | error e2 =>
                refine ⟨e2, ?_⟩
                simp only [evalMembers, hev, hC]

/-- Evaluating a container after recursively moving its sub-containers ahead
of its comparers agrees with the original on success and fails together with
it (bounded-size form for the induction). -/
theorem reorder_eval_le (reg : Registry) (row : Val) :
    ∀ (N : Nat) (c : Container), sizeOf c ≤ N →
      sameOk (evalContainer reg row c)
        (evalContainer reg row (reorderContainer c)) := by
  intro N
  induction N with
  | zero =>
    intro c hc
    cases c with
    | andC n o => simp at hc
    | orC n o => simp at hc
  | succ N ih =>
    intro c hc
    cases c with
    | andC notOp objs =>
      have hsz : sizeOf objs ≤ N := by
        simp at hc
        omega
      have hih : ∀ c', Member.subC c' ∈ objs →
          sameOk (evalContainer reg row c')
            (evalContainer reg row (reorderContainer c')) := by
        intro c' hmem
        apply ih
        have h1 := sizeOf_subC_mem hmem
        omega
      obtain ⟨hok, herr⟩ := members_reorder reg row objs hih
      simp only [reorderContainer]
      cases hm : evalMembers reg row objs with
      | ok bs =>
        obtain ⟨b1, b2, hb1, hb2, hall, hany⟩ := hok bs hm
        have hre : evalMembers reg row (reorderSubs objs ++ reorderCmps objs) =
            .ok (b1 ++ b2) := by
          rw [evalMembers_append, hb1, hb2]
        simp only [evalContainer, hm, hre, sameOk, hall]
      | error e =>
        obtain ⟨e', herr'⟩ := herr e hm
        simp only [evalContainer, hm, herr', sameOk]
    | orC notOp objs =>
      have hsz : sizeOf objs ≤ N := by
        simp at hc
        omega
      have hih : ∀ c', Member.subC c' ∈ objs →
          sameOk (evalContainer reg row c')
            (evalContainer reg row (reorderContainer c')) := by
        intro c' hmem
        apply ih
        have h1 := sizeOf_subC_mem hmem
        omega
      obtain ⟨hok, herr⟩ := members_reorder reg row objs hih
      simp only [reorderContainer]
      cases hm : evalMembers reg row objs with
      | ok bs =>
        obtain ⟨b1, b2, hb1, hb2, hall, hany⟩ := hok bs hm
        have hre : evalMembers reg row (reorderSubs objs ++ reorderCmps objs) =
            .ok (b1 ++ b2) := by
          rw [evalMembers_append, hb1, hb2]
        simp only [evalContainer, hm, hre, sameOk, hany]
      | error e =>
        obtain ⟨e', herr'⟩ := herr e hm
        simp only [evalContainer, hm, herr', sameOk]

/-- Reordering preserves container evaluation up to the raised error. -/
theorem reorder_eval (reg : Registry) (row : Val) (c : Container) :
    sameOk (evalContainer reg row c)
      (evalContainer reg row (reorderContainer c)) :=
  reorder_eval_le reg row (sizeOf c) c (le_refl _)

/-- `run_on_dict` on an expression with a reordered base container agrees
with the original up to the raised error. -/
theorem runOnDict_reorder (reg : Registry) (e : RuleExpr) (row : Val) :
    sameOk (runOnDict reg e row)
      (runOnDict reg ⟨reorderContainer e.baseContainer, e.actions⟩ row) := by
  have h := reorder_eval reg row e.baseContainer
  simp only [runOnDict]
  cases h1 : evalContainer reg row e.baseContainer with
  | ok b =>
    rw [h1] at h
    cases h2 : evalContainer reg row (reorderContainer e.baseContainer) with
    | ok b' =>
      rw [h2] at h
      simp only [sameOk] at h
      subst h
      cases b
      · exact sameOk_refl _
      · exact sameOk_refl _
    | error e' =>
      rw [h2] at h
      cases h
  | error e0 =>
    rw [h1] at h
    cases h2 : evalContainer reg row (reorderContainer e.baseContainer) with
    | ok b' =>
      rw [h2] at h
      cases h
    | error e' => trivial

/-- The expression loop with every base container reordered agrees with the
original up to the raised error. -/
theorem runExprs_reorder (reg : Registry) :
    ∀ (es : List RuleExpr) (row : Val) (gcs : List String),
      sameOk (runExprs reg es row gcs)
        (runExprs reg
          (es.map (fun e => ⟨reorderContainer e.baseContainer, e.actions⟩))
          row gcs) := by
  intro es
  induction es with
  | nil =>
    intro row gcs
    simp only [List.map_nil]
    exact sameOk_refl _
  | cons e rest ih =>
    intro row gcs
    have h := runOnDict_reorder reg e row
    simp only [List.map_cons, runExprs]
    cases h1 : runOnDict reg e row with
    | ok p =>
      rw [h1] at h
      cases h2 : runOnDict reg ⟨reorderContainer e.baseContainer, e.actions⟩ row with
      | ok p' =>
        rw [h2] at h
        simp only [sameOk] at h
        subst h
        obtain ⟨row', cs⟩ := p
        exact ih row' (gcs ++ cs.filter (fun k => ¬ gcs.contains k))
      | error e' =>
        rw [h2] at h
        cases h
    | error e0 =>
      rw [h1] at h
      cases h2 : runOnDict reg ⟨reorderContainer e.baseContainer, e.actions⟩ row with
      | ok p' =>
        rw [h2] at h
        cases h
      | error e' => trivial

/-- Per-row processing with reordered expressions agrees with the original
up to the raised error. -/
theorem processRow_reorder (reg : Registry) (exprs : List RuleExpr)
    (env : EnvironmentV) (row : Val) :
    sameOk (processRow reg exprs env row)
      (processRow reg
        (exprs.map (fun e => ⟨reorderContainer e.baseContainer, e.actions⟩))
        env row) := by
  have h := runExprs_reorder reg exprs row []
  simp only [processRow]
  cases h1 : runExprs reg exprs row [] with
  | ok p =>
    rw [h1] at h
    cases h2 : runExprs reg
        (exprs.map (fun e => ⟨reorderContainer e.baseContainer, e.actions⟩))
        row [] with
    | ok p' =>
      rw [h2] at h
      simp only [sameOk] at h
      subst h
      obtain ⟨row', gcs⟩ := p
      cases hm : getAllDefaultMappings env with
      | ok mappings => exact sameOk_refl _
      | error e0 => trivial
    | error e' =>
      rw [h2] at h
      cases h
  | error e0 =>
    rw [h1] at h
    cases h2 : runExprs reg
        (exprs.map (fun e => ⟨reorderContainer e.baseContainer, e.actions⟩))
        row [] with
    | ok p' =>
      rw [h2] at h
      cases h
    | error e' => trivial

/-- `run_on_iterable` with reordered expressions agrees with the original
up to the raised error, rowwise. -/
theorem run_reorder (reg : Registry) (exprs : List RuleExpr)
    (env : EnvironmentV) :
    ∀ rows : List Val,
      sameOk (run_on_iterable reg exprs env rows)
        (run_on_iterable reg
          (exprs.map (fun e => ⟨reorderContainer e.baseContainer, e.actions⟩))
          env rows) := by
  intro rows
  induction rows with
  | nil => exact sameOk_refl _
  | cons row rest ih =>
    have h := processRow_reorder reg exprs env row
    simp only [run_on_iterable]
    cases h1 : processRow reg exprs env row with
    | ok row' =>
      rw [h1] at h
      cases h2 : processRow reg
          (exprs.map (fun e => ⟨reorderContainer e.baseContainer, e.actions⟩))
          env row with
      | ok row2 =>
        rw [h2] at h
        simp only [sameOk] at h
        subst h
        cases h3 : run_on_iterable reg exprs env rest with
        | ok rows1 =>
          rw [h3] at ih
          cases h4 : run_on_iterable reg
              (exprs.map (fun e => ⟨reorderContainer e.baseContainer, e.actions⟩))
              env rest with
          | ok rows2 =>
            rw [h4] at ih
            simp only [sameOk] at ih
            subst ih
            exact rfl
          | error e' =>
            rw [h4] at ih
            cases ih
        | error e0 =>
          rw [h3] at ih
          cases h4 : run_on_iterable reg
              (exprs.map (fun e => ⟨reorderContainer e.baseContainer, e.actions⟩))
              env rest with
          | ok rows2 =>
            rw [h4] at ih
            cases ih
          | error e' => trivial
      | error e' =>
        rw [h2] at h
        cases h
    | error e0 =>
      rw [h1] at h
      cases h2 : processRow reg
          (exprs.map (fun e => ⟨reorderContainer e.baseContainer, e.actions⟩))
          env row with
      | ok row2 =>
        rw [h2] at h
        cases h
      | error e' => trivial

/-- C5: for every artifact built with the public builders, rehydrating its
serialization through the tagged dispatcher (`from_dict_facade` with enough
recursion fuel) succeeds and yields the artifact with every container's
sub-container members moved ahead of its comparer members (the order
`from_dict` re-adds them in); that reordered artifact is
evaluation-equivalent to the original up to the raised error: value sources
evaluate identically, containers, expressions and runners succeed with the
same results and fail together (though possibly with a different exception),
and passive artifacts are rebuilt exactly. -/
theorem claim_C5 (reg : Registry) (hwf : RegistryWF reg) (a : Artifact)
    (hwb : ArtifactWB reg a) :
    (∀ fuel, artifactDepth a ≤ fuel →
      fromDictFacade reg fuel (toDictArtifact a) = .ok (reorderArtifact a)) ∧
    artifactEvalEquiv reg a (reorderArtifact a) := by
  cases hwb with
  | src s hs =>
    exact ⟨fun fuel hfu => src_roundtrip_main reg hs fuel hfu, fun row => rfl⟩
  | container c hc =>
    exact ⟨fun fuel hfu => cont_roundtrip reg hwf hc fuel hfu,
      fun row => reorder_eval reg row c⟩
  | jsonAttr a' =>
    exact ⟨fun fuel hfu => jsonAttr_roundtrip reg a' fuel hfu, rfl⟩
  | environment env he =>
    exact ⟨fun fuel hfu => env_roundtrip reg he fuel hfu, rfl⟩
  | expr e he =>
    exact ⟨fun fuel hfu => expr_roundtrip reg hwf he fuel hfu,
      fun row => runOnDict_reorder reg e row⟩
  | runner es he =>
    exact ⟨fun fuel hfu => runner_roundtrip reg hwf he fuel hfu,
      fun env rows => run_reorder reg es env rows⟩

theorem claim_C5_witness :
    (∀ fuel,
      artifactDepth (Artifact.jsonAttr ⟨"x", .input, "Numeric", "", "", false, none⟩) ≤ fuel →
      fromDictFacade exReg fuel
          (toDictArtifact (Artifact.jsonAttr ⟨"x", .input, "Numeric", "", "", false, none⟩)) =
        .ok (reorderArtifact (Artifact.jsonAttr ⟨"x", .input, "Numeric", "", "", false, none⟩))) ∧
    artifactEvalEquiv exReg (Artifact.jsonAttr ⟨"x", .input, "Numeric", "", "", false, none⟩)
      (reorderArtifact (Artifact.jsonAttr ⟨"x", .input, "Numeric", "", "", false, none⟩)) :=
  claim_C5 exReg exReg_wf (Artifact.jsonAttr ⟨"x", .input, "Numeric", "", "", false, none⟩)
    (ArtifactWB.jsonAttr ⟨"x", .input, "Numeric", "", "", false, none⟩)

/-- The registration invariants hold for the extended concrete registry. -/
theorem exReg2_wf : RegistryWF exReg2 := by
  constructor
  · intro kv hkv
    simp only [exReg2, List.mem_cons, List.not_mem_nil, or_false] at hkv
    subst hkv
    refine ⟨by decide, by decide, by decide, ?_⟩
    intro p hp
    simp only [exIdFilter, List.mem_cons, List.not_mem_nil, or_false] at hp
    subst hp
    exact ⟨by decide, by decide⟩
  · intro kv hkv
    simp only [exReg2, List.mem_cons, List.not_mem_nil, or_false] at hkv
    rcases hkv with h | h <;> subst h
    · refine ⟨by decide, by decide, ?_⟩
      intro p hp
      simp only [exTrueCmp, List.mem_cons, List.not_mem_nil, or_false] at hp
      subst hp
      exact ⟨by decide, by decide⟩
    · refine ⟨by decide, by decide, ?_⟩
      intro p hp
      simp only [exBoomCmp, List.mem_cons, List.not_mem_nil, or_false] at hp
      subst hp
      exact ⟨by decide, by decide⟩

/-- The inner counterexample container is reachable with the builders. -/
theorem cexInner_wb : ContWB exReg2 cexInner :=
  ContWB.addCmpAnd false [] "always" (.attr "Numeric" "y[0]" [])
    (.const "Numeric" (.vfloat 1) []) none []
    [Member.cmp "always" ("Numeric", "Numeric") (.attr "Numeric" "y[0]" [])
      (.const "Numeric" (.vfloat 1) []) []]
    ContWB.newAnd
    (SrcWB.attrib (.vstr "y[0]") (.vstr "Numeric") _ rfl)
    (SrcWB.constant (.vfloat 1) (.vstr "Numeric") _ rfl)
    ArgsWB.nil rfl

/-- The outer counterexample container is reachable with the builders. -/
theorem cexOuter_wb : ContWB exReg2 cexOuter :=
  ContWB.addSubAnd false
    [Member.cmp "boom" ("NumericList", "NumericList") cexBoomC1 cexBoomC2 []]
    cexInner
    (ContWB.addCmpAnd false [] "boom" cexBoomC1 cexBoomC2 none []
      [Member.cmp "boom" ("NumericList", "NumericList") cexBoomC1 cexBoomC2 []]
      ContWB.newAnd
      (SrcWB.attrib (.vstr "x") (.vstr "NumericList") _ rfl)
      (SrcWB.constant (.vlist [.vfloat 2]) (.vstr "NumericList") _ rfl)
      ArgsWB.nil rfl)
    cexInner_wb

/-- C5, counterexample to the claim as stated: a builder-reachable container
whose comparer precedes its sub-container does not round-trip to an artifact
with identical evaluation behavior.  `from_dict` re-adds sub-containers
before comparers, so on a row where both members raise, the original raises
the comparer's `ValueError` while the rehydrated container raises the
sub-container's `SubscriptionError`. -/
theorem claim_C5_counterexample :
    ContWB exReg2 cexOuter ∧
    fromDictFacade exReg2 8 (toDictContainer cexOuter) =
      .ok (.container (reorderContainer cexOuter)) ∧
    evalContainer exReg2 cexRow cexOuter = .error .valueError ∧
    evalContainer exReg2 cexRow (reorderContainer cexOuter) =
      .error .subscription := by
  refine ⟨cexOuter_wb, ?_, ?_, ?_⟩
  · refine cont_roundtrip exReg2 exReg2_wf cexOuter_wb 8 ?_
    simp [cexOuter, cexInner, cexBoomC1, cexBoomC2, contDepth, memsDepth,
      srcDepth, argsDepth, filtersDepth]
  · simp [cexOuter, cexRow, cexBoomC1, cexBoomC2, cexInner, evalContainer,
      evalMembers, evalCmp, evalCmpArgs, exReg2, exBoomCmp, exTrueCmp, exIdFilter,
      aLookup, ValueSrc.getValue, getValueAux, implicit_parse, parseAs, typeParsers,
      parse_numeric_list, parse_numeric, parse_boolean_list, parse_datetime_list,
      parse_dict_list, parse_string_list, parse_boolean, parse_datetime, parse_dict,
      parse_string, mapExc,
      get_dot_path, jsonRT, jsonPure, jsonPureL, jsonPureD, specKeys, splitDotsAux,
      unescapeDots, getRec, findBracket, scanBracketBack, isGetBracketChar, isPyWs,
      pyStrip, pyStripChars, splitCommaStrip, splitCharAux, getSubRec, matchIndex1,
      matchIndex2, matchIndex3, optIntParse, digitsToNat, pyIndex, pySlice,
      pySliceStartStop, pyAdjustIdx, flattenJ, flattenL, dGetD, dLookup,
      getBracketAll]
  · simp [cexOuter, cexRow, cexBoomC1, cexBoomC2, cexInner, reorderContainer,
      reorderSubs, reorderCmps, evalContainer,
      evalMembers, evalCmp, evalCmpArgs, exReg2, exBoomCmp, exTrueCmp, exIdFilter,
      aLookup, ValueSrc.getValue, getValueAux, implicit_parse, parseAs, typeParsers,
      parse_numeric_list, parse_numeric, parse_boolean_list, parse_datetime_list,
      parse_dict_list, parse_string_list, parse_boolean, parse_datetime, parse_dict,
      parse_string, mapExc,
      get_dot_path, jsonRT, jsonPure, jsonPureL, jsonPureD, specKeys, splitDotsAux,
      unescapeDots, getRec, findBracket, scanBracketBack, isGetBracketChar, isPyWs,
      pyStrip, pyStripChars, splitCommaStrip, splitCharAux, getSubRec, matchIndex1,
      matchIndex2, matchIndex3, optIntParse, digitsToNat, pyIndex, pySlice,
      pySliceStartStop, pyAdjustIdx, flattenJ, flattenL, dGetD, dLookup,
      getBracketAll]
